import Mathlib

/-!
# Software rasteriser (`renderer/graphics.c`): embedding and verified properties

The C routines of `graphics.c` are embedded as Lean functions.

* `int` values are integers (`Int`).  Where the source multiplies coordinates
  (`in_triangle`) the 32-bit range is kept: differences and products wrap
  modulo `2 ^ 32` (`wrap32`), as the compiled code does.
* `double` and `float` values are the rationals they denote.  In the attribute
  fill (`in_triangle`, `gfx_fill_triangle`) and in `gfx_viewport_matrix` every
  operation rounds as IEEE-754 does (`fl64` for `double`, `fl32` for `float`:
  to nearest, ties to even, subnormals included), once per operation and in
  the type of the operation: no fused multiply-add and no extended
  intermediate precision.  The division of `in_triangle`, whose divisor may be
  zero, uses `Dbl`, the doubles extended with `+inf`, `-inf` and `NaN`.
  Infinite and NaN inputs are not represented, and no operation of the
  attribute fill overflows on finite `float` inputs: the weights are quotients
  of 32-bit integers and the interpolated depth is, up to rounding, a convex
  combination of the vertex depths.
  The lines and the flat fill (`linear_interp`) are evaluated in exact
  arithmetic.
* An `assert` that fires is the result `none`.
* The image stores its pixels as a function from row and column to a colour;
  the depth buffer is a function from the flat index to a depth.
* For each drawing routine the list of points it passes to `gfx_draw_point`
  is defined next to it (`gfx_draw_line_pixels`, `gfx_fill_triangle_2_pixels`,
  `fill_scan` with `fill_hit`) and proved to generate the routine's result.
* `gfx_fill_triangle_2_checked` is the flat fill once more, with a result that
  tells a division by zero and the two assertions apart.
* The view and projection matrices take their entries in a field (`ℝ` with
  `Real.sqrt` for the view matrix, as the operations of `geometry.h` are given
  by their real-valued meaning); the viewport matrix holds the `float` values
  the source computes.
-/

namespace Renderer

/-! ## Data model -/

/-- Modelled from the spec: `vec2i_t` of `geometry.h`, a screen-space pixel
coordinate with integer fields `x` and `y`. -/
structure Vec2i where
  x : Int
  y : Int
deriving DecidableEq, Repr

/-- Modelled from the spec: `vec3i_t` of `geometry.h`, a screen-space vertex
with integer `x`, `y` and a retained depth `z` (a `float` in the source). -/
structure Vec3i where
  x : Int
  y : Int
  z : ℚ
deriving DecidableEq

/-- Modelled from the spec: `color_t` of `image.h`, four byte channels. -/
structure Color where
  r : Nat
  g : Nat
  b : Nat
  a : Nat
deriving DecidableEq, Repr

/-- Modelled from the spec: `image_t` of `image.h`, a pixel buffer with its
`width`, `height` and pixel storage addressed by row and column. -/
structure Image where
  width : Int
  height : Int
  pix : Int → Int → Color

/-- The caller-owned depth buffer `float *zbuffer`, addressed by flat index. -/
abbrev ZBuffer := Int → ℚ

/-- Modelled from the spec: `vec2i_new` of `geometry.h`. -/
def vec2i_new (x y : Int) : Vec2i := ⟨x, y⟩

/-- The value of a 32-bit two's complement `int` holding `x` modulo `2 ^ 32`. -/
def wrap32 (x : Int) : Int := (x + 2147483648) % 4294967296 - 2147483648

/-- The `int` difference `a - b` in 32 bits. -/
def int_sub (a b : Int) : Int := wrap32 (a - b)

/-- The `int` product `a * b` in 32 bits. -/
def int_mul (a b : Int) : Int := wrap32 (a * b)

/-- Modelled from the spec: `vec2i_sub` of `geometry.h`, componentwise
subtraction of the `int` fields. -/
def vec2i_sub (a b : Vec2i) : Vec2i := ⟨int_sub a.x b.x, int_sub a.y b.y⟩

/-- Modelled from the spec: `image_set_color` of `image.h`, the pixel buffer's
`setPixel(row, col, color)`: the addressed pixel becomes `color`. -/
def image_set_color (image : Image) (row col : Int) (color : Color) : Image :=
  { image with pix := fun r c => if r = row ∧ c = col then color else image.pix r c }

/-- The store `zbuffer[idx] = z`. -/
def zbuffer_set (zbuffer : ZBuffer) (idx : Int) (z : ℚ) : ZBuffer :=
  fun k => if k = idx then z else zbuffer k

/-! ## C arithmetic -/

/-- The conversion `(int)q` of a double: truncation toward zero. -/
def c_int_cast (q : ℚ) : Int := q.num.tdiv q.den

/-- The conversion `(unsigned char)q` of a double.  For `-1 < q < 256` this is
truncation; outside that range C leaves the result undefined and the model
keeps the low byte of the truncated value, which is what the conversion
through `int` yields for values within the range of `int`. -/
def c_uchar_cast (q : ℚ) : Nat := (c_int_cast q % 256).toNat

/-- The power `2 ^ k` of an integer exponent `k`, as a rational. -/
def pow2 (k : Int) : ℚ :=
  if 0 ≤ k then ((2 ^ k.toNat : Nat) : ℚ) else 1 / ((2 ^ (-k).toNat : Nat) : ℚ)

/-- The position of the leading bit of `n`, found by halving at most `fuel`
times: for `1 <= n <= fuel` the result `r` has `2 ^ r <= n < 2 ^ (r + 1)`. -/
def nat_log2 : Nat → Nat → Nat
  | 0, _ => 0
  | fuel + 1, n => if n < 2 then 0 else nat_log2 fuel (n / 2) + 1

/-- The binary exponent of a non-zero rational `q`:
`2 ^ ilog2 q <= |q| < 2 ^ (ilog2 q + 1)`. -/
def ilog2 (q : ℚ) : Int :=
  let k : Int := (nat_log2 q.num.natAbs q.num.natAbs : Int) - (nat_log2 q.den q.den : Int)
  if pow2 k ≤ |q| then k else k - 1

/-- The integer nearest to `q`, the even one of the two when `q` lies half-way
(the IEEE-754 default rounding direction). -/
def round_half_even (q : ℚ) : Int :=
  let f : Int := q.num / (q.den : Int)
  let r : ℚ := q - (f : ℚ)
  if r < 1 / 2 then f else if 1 / 2 < r then f + 1 else if f % 2 = 0 then f else f + 1

/-- The exponent of the last place of the binary format with `prec` significant
bits and least normal exponent `emin` at the value `q`. -/
def fl_exp (prec : Nat) (emin : Int) (q : ℚ) : Int :=
  max (ilog2 q - (prec : Int) + 1) (emin - (prec : Int) + 1)

/-- The value `q` rounded to the binary floating-point format with `prec`
significant bits and least normal exponent `emin`: to the nearest multiple of
the last place, ties to even, subnormal values included.  The exponent is not
bounded above: overflow to an infinity is not represented. -/
def fl_round (prec : Nat) (emin : Int) (q : ℚ) : ℚ :=
  if q = 0 then 0
  else (round_half_even (q / pow2 (fl_exp prec emin q)) : ℚ) * pow2 (fl_exp prec emin q)

/-- Rounding to `double` (IEEE-754 binary64). -/
def fl64 (q : ℚ) : ℚ := fl_round 53 (-1022) q

/-- Rounding to `float` (IEEE-754 binary32). -/
def fl32 (q : ℚ) : ℚ := fl_round 24 (-126) q

/-- The values of the loop `for (v = lo; v <= hi; v++)`, in order. -/
def int_range (lo hi : Int) : List Int :=
  (List.range (hi + 1 - lo).toNat).map (fun (k : Nat) => lo + (k : Int))

/-- The macro `MIN(a, b)`. -/
def MIN (a b : Int) : Int := if a < b then a else b

/-- The macro `MAX(a, b)`. -/
def MAX (a b : Int) : Int := if a > b then a else b

/-- A `double`: the rational it denotes, or one of the IEEE-754 special values
produced by a division by zero. -/
inductive Dbl where
  | fin (q : ℚ)
  | pinf
  | ninf
  | nan
deriving DecidableEq

namespace Dbl

/-- The quotient `num / (double)denom` of two `int`s: IEEE-754 division, which
yields an infinity or NaN (and no trap) when `denom` is zero, and the rounded
quotient otherwise (both conversions to `double` are exact). -/
def div_int (num denom : Int) : Dbl :=
  if denom = 0 then
    if 0 < num then pinf else if num < 0 then ninf else nan
  else fin (fl64 ((num : ℚ) / (denom : ℚ)))

/-- IEEE-754 addition of two doubles. -/
def add : Dbl → Dbl → Dbl
  | fin a, fin b => fin (fl64 (a + b))
  | nan, _ => nan
  | _, nan => nan
  | pinf, ninf => nan
  | ninf, pinf => nan
  | pinf, _ => pinf
  | _, pinf => pinf
  | ninf, _ => ninf
  | _, ninf => ninf

/-- The comparison `d >= 0`; false for NaN. -/
def ge_zero : Dbl → Bool
  | fin q => decide (0 ≤ q)
  | pinf => true
  | ninf => false
  | nan => false

/-- The comparison `d <= 1`; false for NaN. -/
def le_one : Dbl → Bool
  | fin q => decide (q ≤ 1)
  | pinf => false
  | ninf => true
  | nan => false

end Dbl

/-! ## Helpers of `graphics.c` -/

/-- The helper `linear_interp`: `(int)(v0 + (v1 - v0) * d + 0.5)`, in exact
arithmetic. -/
def linear_interp (v0 v1 : Int) (d : ℚ) : Int :=
  c_int_cast ((v0 : ℚ) + ((v1 : ℚ) - (v0 : ℚ)) * d + 1 / 2)

/-- The helper `lerp_point`. -/
def lerp_point (point0 point1 : Vec2i) (d : ℚ) : Vec2i :=
  ⟨linear_interp point0.x point1.x d, linear_interp point0.y point1.y d⟩

/-- The helper `sort_point_y`: three compare-and-swap steps on `y`. -/
def sort_point_y (point0 point1 point2 : Vec2i) : Vec2i × Vec2i × Vec2i :=
  let s1 : Vec2i × Vec2i := if point0.y > point1.y then (point1, point0) else (point0, point1)
  let s2 : Vec2i × Vec2i := if s1.1.y > point2.y then (point2, s1.1) else (s1.1, point2)
  let s3 : Vec2i × Vec2i := if s1.2.y > s2.2.y then (s2.2, s1.2) else (s1.2, s2.2)
  (s2.1, s3.1, s3.2)

/-- The helper `sort_point_x`: three compare-and-swap steps on `x`. -/
def sort_point_x (point0 point1 point2 : Vec2i) : Vec2i × Vec2i × Vec2i :=
  let s1 : Vec2i × Vec2i := if point0.x > point1.x then (point1, point0) else (point0, point1)
  let s2 : Vec2i × Vec2i := if s1.1.x > point2.x then (point2, s1.1) else (s1.1, point2)
  let s3 : Vec2i × Vec2i := if s1.2.x > s2.2.x then (s2.2, s1.2) else (s1.2, s2.2)
  (s2.1, s3.1, s3.2)

/-- The routine `gfx_draw_point`: the assertion fires (`none`) when the point
is out of bounds, otherwise the pixel at row `point.y`, column `point.x` is
set. -/
def gfx_draw_point (image : Image) (point : Vec2i) (color : Color) : Option Image :=
  let row := point.y
  let col := point.x
  if row < 0 ∨ col < 0 ∨ row ≥ image.height ∨ col ≥ image.width then none
  else some (image_set_color image row col color)

/-- The helper `draw_scanline`: asserts that the two ends share their row,
orders them by `x` and draws every point from the left end to the right end,
keeping the left end's `y`. -/
def draw_scanline (image : Image) (point0 point1 : Vec2i) (color : Color) : Option Image :=
  if point0.y ≠ point1.y then none
  else
    let ends : Vec2i × Vec2i := if point0.x > point1.x then (point1, point0) else (point0, point1)
    (int_range ends.1.x ends.2.x).foldlM
      (fun im x => gfx_draw_point im ⟨x, ends.1.y⟩ color) image

/-- The routine `gfx_draw_line`. -/
def gfx_draw_line (image : Image) (point0 point1 : Vec2i) (color : Color) : Option Image :=
  let x_distance : Int := |point1.x - point0.x|
  let y_distance : Int := |point1.y - point0.y|
  if x_distance = 0 ∧ y_distance = 0 then
    gfx_draw_point image point0 color
  else if x_distance > y_distance then
    let ends : Vec2i × Vec2i := if point0.x > point1.x then (point1, point0) else (point0, point1)
    (int_range ends.1.x ends.2.x).foldlM
      (fun im x =>
        let d : ℚ := ((x - ends.1.x : Int) : ℚ) / (x_distance : ℚ)
        let y := linear_interp ends.1.y ends.2.y d
        gfx_draw_point im (vec2i_new x y) color) image
  else
    let ends : Vec2i × Vec2i := if point0.y > point1.y then (point1, point0) else (point0, point1)
    (int_range ends.1.y ends.2.y).foldlM
      (fun im y =>
        let d : ℚ := ((y - ends.1.y : Int) : ℚ) / (y_distance : ℚ)
        let x := linear_interp ends.1.x ends.2.x d
        gfx_draw_point im (vec2i_new x y) color) image

/-- The upper loop of `gfx_fill_triangle_2` (the branch `upper_height != 0`),
on the sorted vertices. -/
def fill_upper (image : Image) (point0 point1 point2 : Vec2i) (color : Color) : Option Image :=
  let total_height := point2.y - point0.y
  let upper_height := point1.y - point0.y
  (int_range point0.y point1.y).foldlM
    (fun im y =>
      let d1 : ℚ := ((y - point0.y : Int) : ℚ) / (upper_height : ℚ)
      let d2 : ℚ := ((y - point0.y : Int) : ℚ) / (total_height : ℚ)
      let p1 := lerp_point point0 point1 d1
      let p2 := lerp_point point0 point2 d2
      draw_scanline im ⟨p1.x, y⟩ ⟨p2.x, y⟩ color) image

/-- The lower loop of `gfx_fill_triangle_2` (the branch `lower_height != 0`),
on the sorted vertices. -/
def fill_lower (image : Image) (point0 point1 point2 : Vec2i) (color : Color) : Option Image :=
  let total_height := point2.y - point0.y
  let lower_height := point2.y - point1.y
  (int_range point1.y point2.y).foldlM
    (fun im y =>
      let d0 : ℚ := ((y - point0.y : Int) : ℚ) / (total_height : ℚ)
      let d1 : ℚ := ((y - point1.y : Int) : ℚ) / (lower_height : ℚ)
      let p0 := lerp_point point0 point2 d0
      let p1 := lerp_point point1 point2 d1
      draw_scanline im ⟨p0.x, y⟩ ⟨p1.x, y⟩ color) image

/-- The routine `gfx_fill_triangle_2`, the flat-colour scanline fill. -/
def gfx_fill_triangle_2 (image : Image) (point0 point1 point2 : Vec2i) (color : Color) :
    Option Image :=
  let sy := sort_point_y point0 point1 point2
  if sy.1.y = sy.2.2.y then
    let sx := sort_point_x sy.1 sy.2.1 sy.2.2
    draw_scanline image sx.1 sx.2.2 color
  else
    let upper_height := sy.2.1.y - sy.1.y
    let lower_height := sy.2.2.y - sy.2.1.y
    (if upper_height = 0 then draw_scanline image sy.1 sy.2.1 color
     else fill_upper image sy.1 sy.2.1 sy.2.2 color).bind
      (fun im =>
        if lower_height = 0 then draw_scanline im sy.2.1 sy.2.2 color
        else fill_lower im sy.1 sy.2.1 sy.2.2 color)

/-- The helper `in_triangle`: the barycentric weights `s`, `t` of `P` against
`A`, `B`, `C` (stored through `sp`, `tp`) and the result of the test
`s >= 0 && t >= 0 && s + t <= 1`.  The numerators and `denom` are `int`
expressions; the quotients and the sum `s + t` are doubles. -/
def in_triangle (A B C P : Vec2i) : Bool × Dbl × Dbl :=
  let AB := vec2i_sub B A
  let AC := vec2i_sub C A
  let AP := vec2i_sub P A
  let denom : Int := int_sub (int_mul AB.x AC.y) (int_mul AB.y AC.x)
  let s := Dbl.div_int (int_sub (int_mul AC.y AP.x) (int_mul AC.x AP.y)) denom
  let t := Dbl.div_int (int_sub (int_mul AB.x AP.y) (int_mul AB.y AP.x)) denom
  (s.ge_zero && t.ge_zero && (s.add t).le_one, s, t)

/-- The clamped bounding box `(min_x, max_x, min_y, max_y)` computed at the
head of `gfx_fill_triangle`. -/
def fill_bounds (image : Image) (point0 point1 point2 : Vec3i) : Int × Int × Int × Int :=
  let min_x := image.width - 1
  let min_y := image.height - 1
  let max_x : Int := 0
  let max_y : Int := 0
  let min_x := MIN point0.x min_x
  let min_y := MIN point0.y min_y
  let max_x := MAX point0.x max_x
  let max_y := MAX point0.y max_y
  let min_x := MIN point1.x min_x
  let min_y := MIN point1.y min_y
  let max_x := MAX point1.x max_x
  let max_y := MAX point1.y max_y
  let min_x := MIN point2.x min_x
  let min_y := MIN point2.y min_y
  let max_x := MAX point2.x max_x
  let max_y := MAX point2.y max_y
  let min_x := MAX 0 min_x
  let min_y := MAX 0 min_y
  let max_x := MIN (image.width - 1) max_x
  let max_y := MIN (image.height - 1) max_y
  (min_x, max_x, min_y, max_y)

/-- The subexpression `1 - s - t` of the loop body, two double subtractions
from left to right. -/
def interp_weight (s t : ℚ) : ℚ := fl64 (fl64 (1 - s) - t)

/-- The depth `float z = (1 - s - t) * point0.z + s * point1.z + t * point2.z`:
the expression is evaluated in double, one rounding per operation, and the
result narrowed to `float`. -/
def interp_depth (point0 point1 point2 : Vec3i) (s t : ℚ) : ℚ :=
  fl32 (fl64 (fl64 (fl64 (interp_weight s t * point0.z) + fl64 (s * point1.z))
    + fl64 (t * point2.z)))

/-- The double `((1 - s - t) * c0 + s * c1 + t * c2) * intensity` that the loop
body converts to a channel. -/
def interp_channel_value (c0 c1 c2 : Nat) (s t intensity : ℚ) : ℚ :=
  fl64 (fl64 (fl64 (fl64 (interp_weight s t * (c0 : ℚ)) + fl64 (s * (c1 : ℚ)))
    + fl64 (t * (c2 : ℚ))) * intensity)

/-- One interpolated channel, `(unsigned char)(((1 - s - t) * c0 + s * c1 + t * c2) * intensity)`. -/
def interp_channel (c0 c1 c2 : Nat) (s t intensity : ℚ) : Nat :=
  c_uchar_cast (interp_channel_value c0 c1 c2 s t intensity)

/-- The colour assembled for a covered pixel; alpha is 255. -/
def interp_color (color0 color1 color2 : Color) (s t intensity : ℚ) : Color :=
  { b := interp_channel color0.b color1.b color2.b s t intensity
    g := interp_channel color0.g color1.g color2.g s t intensity
    r := interp_channel color0.r color1.r color2.r s t intensity
    a := 255 }

/-- The body of the double loop of `gfx_fill_triangle` at the pixel `(i, j)`;
`width` is the local `int width = image->width`, `s` and `t` are the doubles
`in_triangle` stored.
When `in_triangle` accepts, `s` and `t` are finite (`in_triangle_true_fin`),
so the remaining match arm is never taken with an accepted pixel. -/
def fill_pixel (width : Int) (st : Image × ZBuffer) (point0 point1 point2 : Vec3i)
    (color0 color1 color2 : Color) (intensity : ℚ) (i j : Int) : Option (Image × ZBuffer) :=
  let point := vec2i_new i j
  let point02 := vec2i_new point0.x point0.y
  let point12 := vec2i_new point1.x point1.y
  let point22 := vec2i_new point2.x point2.y
  match in_triangle point02 point12 point22 point with
  | (true, Dbl.fin s, Dbl.fin t) =>
    let z := interp_depth point0 point1 point2 s t
    let color := interp_color color0 color1 color2 s t intensity
    if st.2 (j * width + i) < z then
      (gfx_draw_point st.1 point color).map (fun im => (im, zbuffer_set st.2 (j * width + i) z))
    else some st
  | _ => some st

/-- The routine `gfx_fill_triangle` (the second, maintained definition): the
attribute-interpolated, depth-tested fill. -/
def gfx_fill_triangle (image : Image) (point0 point1 point2 : Vec3i)
    (color0 color1 color2 : Color) (zbuffer : ZBuffer) (intensity : ℚ) :
    Option (Image × ZBuffer) :=
  let bb := fill_bounds image point0 point1 point2
  let width := image.width
  (int_range bb.1 bb.2.1).foldlM
    (fun st i =>
      (int_range bb.2.2.1 bb.2.2.2).foldlM
        (fun st j => fill_pixel width st point0 point1 point2 color0 color1 color2 intensity i j) st)
    (image, zbuffer)

/-! ## Auxiliary definitions for the statements -/

/-- A point is inside the image: `0 <= x < width` and `0 <= y < height`. -/
def in_bounds (image : Image) (p : Vec2i) : Prop :=
  0 ≤ p.x ∧ p.x < image.width ∧ 0 ≤ p.y ∧ p.y < image.height

instance in_bounds_decidable (image : Image) (p : Vec2i) : Decidable (in_bounds image p) := by
  unfold in_bounds; infer_instance

/-- The successive calls `gfx_draw_point(image, p, color)` for the points of a
list, stopping at the first assertion failure. -/
def draw_points (image : Image) (pts : List Vec2i) (color : Color) : Option Image :=
  pts.foldlM (fun im p => gfx_draw_point im p color) image

/-- The points that `draw_scanline` passes to `gfx_draw_point`, in order. -/
def draw_scanline_pixels (point0 point1 : Vec2i) : List Vec2i :=
  let ends : Vec2i × Vec2i := if point0.x > point1.x then (point1, point0) else (point0, point1)
  (int_range ends.1.x ends.2.x).map (fun x => (⟨x, ends.1.y⟩ : Vec2i))

/-- The points that `gfx_draw_line` passes to `gfx_draw_point`, in order. -/
def gfx_draw_line_pixels (point0 point1 : Vec2i) : List Vec2i :=
  let x_distance : Int := |point1.x - point0.x|
  let y_distance : Int := |point1.y - point0.y|
  if x_distance = 0 ∧ y_distance = 0 then [point0]
  else if x_distance > y_distance then
    let ends : Vec2i × Vec2i := if point0.x > point1.x then (point1, point0) else (point0, point1)
    (int_range ends.1.x ends.2.x).map
      (fun x => vec2i_new x
        (linear_interp ends.1.y ends.2.y (((x - ends.1.x : Int) : ℚ) / (x_distance : ℚ))))
  else
    let ends : Vec2i × Vec2i := if point0.y > point1.y then (point1, point0) else (point0, point1)
    (int_range ends.1.y ends.2.y).map
      (fun y => vec2i_new
        (linear_interp ends.1.x ends.2.x (((y - ends.1.y : Int) : ℚ) / (y_distance : ℚ))) y)

/-- The points drawn by the upper loop of `gfx_fill_triangle_2`, in order. -/
def fill_upper_pixels (point0 point1 point2 : Vec2i) : List Vec2i :=
  let total_height := point2.y - point0.y
  let upper_height := point1.y - point0.y
  (int_range point0.y point1.y).flatMap
    (fun y =>
      let d1 : ℚ := ((y - point0.y : Int) : ℚ) / (upper_height : ℚ)
      let d2 : ℚ := ((y - point0.y : Int) : ℚ) / (total_height : ℚ)
      let p1 := lerp_point point0 point1 d1
      let p2 := lerp_point point0 point2 d2
      draw_scanline_pixels ⟨p1.x, y⟩ ⟨p2.x, y⟩)

/-- The points drawn by the lower loop of `gfx_fill_triangle_2`, in order. -/
def fill_lower_pixels (point0 point1 point2 : Vec2i) : List Vec2i :=
  let total_height := point2.y - point0.y
  let lower_height := point2.y - point1.y
  (int_range point1.y point2.y).flatMap
    (fun y =>
      let d0 : ℚ := ((y - point0.y : Int) : ℚ) / (total_height : ℚ)
      let d1 : ℚ := ((y - point1.y : Int) : ℚ) / (lower_height : ℚ)
      let p0 := lerp_point point0 point2 d0
      let p1 := lerp_point point1 point2 d1
      draw_scanline_pixels ⟨p0.x, y⟩ ⟨p1.x, y⟩)

/-- The points that `gfx_fill_triangle_2` passes to `gfx_draw_point`, in
order (every `draw_scanline` it calls has its two ends on one row). -/
def gfx_fill_triangle_2_pixels (point0 point1 point2 : Vec2i) : List Vec2i :=
  let sy := sort_point_y point0 point1 point2
  if sy.1.y = sy.2.2.y then
    let sx := sort_point_x sy.1 sy.2.1 sy.2.2
    draw_scanline_pixels sx.1 sx.2.2
  else
    let upper_height := sy.2.1.y - sy.1.y
    let lower_height := sy.2.2.y - sy.2.1.y
    (if upper_height = 0 then draw_scanline_pixels sy.1 sy.2.1
     else fill_upper_pixels sy.1 sy.2.1 sy.2.2) ++
    (if lower_height = 0 then draw_scanline_pixels sy.2.1 sy.2.2
     else fill_lower_pixels sy.1 sy.2.1 sy.2.2)

/-- The signed-area denominator `AB.x * AC.y - AB.y * AC.x` of `in_triangle`,
as an integer without the 32-bit range. -/
def tri_denom (A B C : Vec2i) : Int :=
  (B.x - A.x) * (C.y - A.y) - (B.y - A.y) * (C.x - A.x)

/-- The weight `s = (AC.y * AP.x - AC.x * AP.y) / denom` as an exact rational. -/
def bary_s (A B C P : Vec2i) : ℚ :=
  (((C.y - A.y) * (P.x - A.x) - (C.x - A.x) * (P.y - A.y) : Int) : ℚ) / (tri_denom A B C : ℚ)

/-- The weight `t = (AB.x * AP.y - AB.y * AP.x) / denom` as an exact rational. -/
def bary_t (A B C P : Vec2i) : ℚ :=
  (((B.x - A.x) * (P.y - A.y) - (B.y - A.y) * (P.x - A.x) : Int) : ℚ) / (tri_denom A B C : ℚ)

/-- The screen position `vec2i_new(p.x, p.y)` of a vertex. -/
def xy (p : Vec3i) : Vec2i := vec2i_new p.x p.y

/-- The outcome of the two tests of the loop body of `gfx_fill_triangle` at
the pixel `(i, j)` against the depth buffer `zbuffer`: the doubles `(s, t)`
when `in_triangle` accepts and `zbuffer[j * width + i] < z`, so that the body
draws the pixel and stores the depth; `none` when the body does nothing. -/
def fill_verdict (width : Int) (zbuffer : ZBuffer) (point0 point1 point2 : Vec3i)
    (i j : Int) : Option (ℚ × ℚ) :=
  match in_triangle (xy point0) (xy point1) (xy point2) (vec2i_new i j) with
  | (true, Dbl.fin s, Dbl.fin t) =>
    if zbuffer (j * width + i) < interp_depth point0 point1 point2 s t then some (s, t) else none
  | _ => none

/-- The pixels visited by the double loop of `gfx_fill_triangle`, in order. -/
def fill_scan (image : Image) (point0 point1 point2 : Vec3i) : List Vec2i :=
  let bb := fill_bounds image point0 point1 point2
  (int_range bb.1 bb.2.1).flatMap
    (fun i => (int_range bb.2.2.1 bb.2.2.2).map (fun j => vec2i_new i j))

/-- The pixel `(i, j)` is drawn by `gfx_fill_triangle`: the loop visits it and
both tests of the body succeed on the depth buffer the call was given. -/
def fill_hit (image : Image) (zbuffer : ZBuffer) (point0 point1 point2 : Vec3i)
    (i j : Int) : Bool :=
  decide (vec2i_new i j ∈ fill_scan image point0 point1 point2) &&
    (fill_verdict image.width zbuffer point0 point1 point2 i j).isSome

/-- The point `P` is `A + s * AB + t * AC` with weights `s >= 0`, `t >= 0`,
`s + t <= 1`: `P` lies in the closed triangle `A`, `B`, `C` (vertices and edges
included), with barycentric weights `(1 - s - t, s, t)`. -/
def in_closed_triangle (A B C P : Vec2i) (s t : ℚ) : Prop :=
  0 ≤ s ∧ 0 ≤ t ∧ s + t ≤ 1 ∧
  (P.x : ℚ) = (A.x : ℚ) + s * ((B.x : ℚ) - (A.x : ℚ)) + t * ((C.x : ℚ) - (A.x : ℚ)) ∧
  (P.y : ℚ) = (A.y : ℚ) + s * ((B.y : ℚ) - (A.y : ℚ)) + t * ((C.y : ℚ) - (A.y : ℚ))

/-- The interpolated value `v0 + (v1 - v0) * d` at `d = k / n`, to which
`linear_interp` adds one half before truncating. -/
def interp_value (v0 v1 k n : Int) : ℚ :=
  (v0 : ℚ) + ((v1 : ℚ) - (v0 : ℚ)) * ((k : ℚ) / (n : ℚ))

/-- The point `(x, y)` is a convex combination `a * A + b * B + c * C` of the
three vertices, with weights `a, b, c >= 0` of sum 1. -/
def conv3 (A B C : Vec2i) (x y : ℚ) : Prop :=
  ∃ a b c : ℚ, 0 ≤ a ∧ 0 ≤ b ∧ 0 ≤ c ∧ a + b + c = 1 ∧
    x = a * (A.x : ℚ) + b * (B.x : ℚ) + c * (C.x : ℚ) ∧
    y = a * (A.y : ℚ) + b * (B.y : ℚ) + c * (C.y : ℚ)

/-- The pixel `p` lies within half a pixel, along its row, of the closed
triangle `A`, `B`, `C`: some point `(x', p.y)` with `|p.x - x'| <= 1/2` is
`A + s * AB + t * AC` with `s >= 0`, `t >= 0`, `s + t <= 1`. -/
def near_closed_triangle (A B C p : Vec2i) : Prop :=
  ∃ x' s t : ℚ, |(p.x : ℚ) - x'| ≤ 1 / 2 ∧ 0 ≤ s ∧ 0 ≤ t ∧ s + t ≤ 1 ∧
    x' = (A.x : ℚ) + s * ((B.x : ℚ) - (A.x : ℚ)) + t * ((C.x : ℚ) - (A.x : ℚ)) ∧
    (p.y : ℚ) = (A.y : ℚ) + s * ((B.y : ℚ) - (A.y : ℚ)) + t * ((C.y : ℚ) - (A.y : ℚ))

/-- The coordinates of a point are below `2 ^ 14` in magnitude.  For four such
points no difference, product or difference of products in `in_triangle`
leaves the range of `int`. -/
def small_coord (p : Vec2i) : Prop :=
  -16384 < p.x ∧ p.x < 16384 ∧ -16384 < p.y ∧ p.y < 16384

instance small_coord_decidable (p : Vec2i) : Decidable (small_coord p) := by
  unfold small_coord; infer_instance

/-- The value `z` is a finite `float`: narrowing leaves it alone and its
magnitude is at most `FLT_MAX = (2 ^ 24 - 1) * 2 ^ 104`. -/
def is_float (z : ℚ) : Prop :=
  fl32 z = z ∧ |z| ≤ 340282346638528859811704183484516925440

instance is_float_decidable (z : ℚ) : Decidable (is_float z) := by
  unfold is_float; infer_instance

/-- The interpolated depth in exact arithmetic,
`(1 - s - t) * z0 + s * z1 + t * z2`. -/
def exact_depth (point0 point1 point2 : Vec3i) (s t : ℚ) : ℚ :=
  (1 - s - t) * point0.z + s * point1.z + t * point2.z

/-- The four channels of a colour are bytes, as `unsigned char` makes them. -/
def Color.is_bytes (c : Color) : Prop := c.r < 256 ∧ c.g < 256 ∧ c.b < 256 ∧ c.a < 256

instance Color.is_bytes_decidable (c : Color) : Decidable c.is_bytes := by
  unfold Color.is_bytes; infer_instance

/-- The colour whose `b`, `g`, `r` are the truncations
`(unsigned char)(channel * intensity)` of the exact products, with alpha 255. -/
def scaled_color (c : Color) (intensity : ℚ) : Color :=
  { b := c_uchar_cast ((c.b : ℚ) * intensity)
    g := c_uchar_cast ((c.g : ℚ) * intensity)
    r := c_uchar_cast ((c.r : ℚ) * intensity)
    a := 255 }

/-! ## Camera matrices

The entries of the view and projection matrices are taken in a field `K` (`ℝ`
with its square root for the view matrix); the entries of the viewport matrix
are the `float` values the source computes, as rationals. -/

/-- Modelled from the spec: `vec3f_t` of `geometry.h`, three floats `e[i]`. -/
abbrev Vec3f (K : Type) := Fin 3 → K

/-- Modelled from the spec: a homogeneous point, four floats. -/
abbrev Vec4f (K : Type) := Fin 4 → K

/-- Modelled from the spec: `mat4f_t` of `geometry.h`, a row-major 4 by 4 grid
of floats `e[i][j]`. -/
abbrev Mat4f (K : Type) := Fin 4 → Fin 4 → K

/-- Modelled from the spec: `mat4f_identity` of `geometry.h`. -/
def mat4f_identity {K : Type} [Field K] : Mat4f K := fun i j => if i = j then 1 else 0

/-- The assignment `m.e[i][j] = v`. -/
def mat4f_set {K : Type} (m : Mat4f K) (i j : Fin 4) (v : K) : Mat4f K :=
  fun r c => if r = i ∧ c = j then v else m r c

/-- Modelled from the spec: `mat4f_mul_mat4f` of `geometry.h`, the matrix
product. -/
def mat4f_mul_mat4f {K : Type} [Field K] (a b : Mat4f K) : Mat4f K :=
  fun i j => a i 0 * b 0 j + a i 1 * b 1 j + a i 2 * b 2 j + a i 3 * b 3 j

/-- Modelled from the spec: the product of a matrix and a homogeneous point,
in the arithmetic of the field. -/
def mat4f_mul_vec4f {K : Type} [Field K] (m : Mat4f K) (v : Vec4f K) : Vec4f K :=
  fun i => m i 0 * v 0 + m i 1 * v 1 + m i 2 * v 2 + m i 3 * v 3

/-- Modelled from the spec: `vec3f_sub` of `geometry.h`. -/
def vec3f_sub {K : Type} [Field K] (a b : Vec3f K) : Vec3f K := fun i => a i - b i

/-- Modelled from the spec: `vec3f_cross` of `geometry.h`, the cross product. -/
def vec3f_cross {K : Type} [Field K] (a b : Vec3f K) : Vec3f K :=
  ![a 1 * b 2 - a 2 * b 1, a 2 * b 0 - a 0 * b 2, a 0 * b 1 - a 1 * b 0]

/-- The dot product of two vectors. -/
def vec3f_dot {K : Type} [Field K] (a b : Vec3f K) : K := a 0 * b 0 + a 1 * b 1 + a 2 * b 2

/-- Modelled from the spec: `vec3f_normalize` of `geometry.h`, the vector
divided by its length; the square root of the field is the argument `sqrt`. -/
def vec3f_normalize {K : Type} [Field K] (sqrt : K → K) (v : Vec3f K) : Vec3f K :=
  fun i => v i / sqrt (vec3f_dot v v)

/-- The routine `gfx_lookat_matrix`; the loop `for (i = 0; i < 3; i++)` fills
the rows of `viewing_inv` and the last column of `translation`. -/
def gfx_lookat_matrix {K : Type} [Field K] (sqrt : K → K) (eye center up : Vec3f K) :
    Mat4f K :=
  let zaxis := vec3f_normalize sqrt (vec3f_sub eye center)
  let xaxis := vec3f_normalize sqrt (vec3f_cross up zaxis)
  let yaxis := vec3f_normalize sqrt (vec3f_cross zaxis xaxis)
  let st : Mat4f K × Mat4f K := ([0, 1, 2] : List (Fin 3)).foldl
    (fun st i =>
      (mat4f_set (mat4f_set (mat4f_set st.1 0 i.castSucc (xaxis i)) 1 i.castSucc (yaxis i))
          2 i.castSucc (zaxis i),
        mat4f_set st.2 i.castSucc 3 (-(center i))))
    (mat4f_identity, mat4f_identity)
  mat4f_mul_mat4f st.1 st.2

/-- The routine `gfx_projection_matrix`. -/
def gfx_projection_matrix {K : Type} [Field K] (coeff : K) : Mat4f K :=
  mat4f_set mat4f_identity 3 2 coeff

/-- The routine `gfx_viewport_matrix`.  In `width / 2.0f` and
`x + width / 2.0f` the `int` operands are converted to `float` and each
operation is a `float` operation. -/
def gfx_viewport_matrix (x y width height : Int) : Mat4f ℚ :=
  let viewport : Mat4f ℚ := mat4f_identity
  let viewport := mat4f_set viewport 0 0 (fl32 (fl32 (width : ℚ) / 2))
  let viewport := mat4f_set viewport 0 3 (fl32 (fl32 (x : ℚ) + fl32 (fl32 (width : ℚ) / 2)))
  let viewport := mat4f_set viewport 1 1 (fl32 (fl32 (height : ℚ) / 2))
  let viewport := mat4f_set viewport 1 3 (fl32 (fl32 (y : ℚ) + fl32 (fl32 (height : ℚ) / 2)))
  let viewport := mat4f_set viewport 2 2 0
  let viewport := mat4f_set viewport 2 3 1
  viewport

/-- The homogeneous point `(x, y, z, w)`. -/
def vec4f_new {K : Type} (x y z w : K) : Vec4f K := ![x, y, z, w]

/-- The row `i` of the upper-left 3 by 3 block of a matrix. -/
def mat4f_row3 {K : Type} (m : Mat4f K) (i : Fin 3) : Vec3f K := fun j => m i.castSucc j.castSucc

/-- The triple `out` is a stable ascending arrangement by `y` of the triple
`inp`: position `i` of the output holds the input of position `σ i` for a
rearrangement `σ` of the positions, the `y` are ascending, and two outputs of
equal `y` come in the order of their input positions. -/
def stable_sorted_y (inp out : Fin 3 → Vec2i) : Prop :=
  ∃ σ : Fin 3 → Fin 3, Function.Bijective σ ∧ (∀ i, out i = inp (σ i)) ∧
    (∀ i j, i ≤ j → (out i).y ≤ (out j).y) ∧
    (∀ i j, i < j → (out i).y = (out j).y → σ i < σ j)

/-! ## The flat fill with its faults told apart

The same code as `gfx_fill_triangle_2`, with a result that names what went
wrong: the assertion of `gfx_draw_point`, the assertion of `draw_scanline`, or
a division by zero. -/

/-- The ways a run of the flat fill can go wrong. -/
inductive Fault where
  | point_out_of_bounds
  | scanline_rows
  | division_by_zero
deriving DecidableEq

/-- The quotient `num / (double)den`, a fault when `den` is zero. -/
def checked_div (num den : Int) : Except Fault ℚ :=
  if den = 0 then Except.error Fault.division_by_zero else Except.ok ((num : ℚ) / (den : ℚ))

/-- The routine `gfx_draw_point`, its assertion reported as a fault. -/
def gfx_draw_point_checked (image : Image) (point : Vec2i) (color : Color) :
    Except Fault Image :=
  let row := point.y
  let col := point.x
  if row < 0 ∨ col < 0 ∨ row ≥ image.height ∨ col ≥ image.width then
    Except.error Fault.point_out_of_bounds
  else Except.ok (image_set_color image row col color)

/-- The helper `draw_scanline`, its assertion `point0.y == point1.y` reported
as a fault. -/
def draw_scanline_checked (image : Image) (point0 point1 : Vec2i) (color : Color) :
    Except Fault Image :=
  if point0.y ≠ point1.y then Except.error Fault.scanline_rows
  else
    let ends : Vec2i × Vec2i := if point0.x > point1.x then (point1, point0) else (point0, point1)
    (int_range ends.1.x ends.2.x).foldlM
      (fun im x => gfx_draw_point_checked im ⟨x, ends.1.y⟩ color) image

/-- The upper loop of `gfx_fill_triangle_2` with checked divisions. -/
def fill_upper_checked (image : Image) (point0 point1 point2 : Vec2i) (color : Color) :
    Except Fault Image :=
  let total_height := point2.y - point0.y
  let upper_height := point1.y - point0.y
  (int_range point0.y point1.y).foldlM
    (fun im y => do
      let d1 ← checked_div (y - point0.y) upper_height
      let d2 ← checked_div (y - point0.y) total_height
      let p1 := lerp_point point0 point1 d1
      let p2 := lerp_point point0 point2 d2
      draw_scanline_checked im ⟨p1.x, y⟩ ⟨p2.x, y⟩ color) image

/-- The lower loop of `gfx_fill_triangle_2` with checked divisions. -/
def fill_lower_checked (image : Image) (point0 point1 point2 : Vec2i) (color : Color) :
    Except Fault Image :=
  let total_height := point2.y - point0.y
  let lower_height := point2.y - point1.y
  (int_range point1.y point2.y).foldlM
    (fun im y => do
      let d0 ← checked_div (y - point0.y) total_height
      let d1 ← checked_div (y - point1.y) lower_height
      let p0 := lerp_point point0 point2 d0
      let p1 := lerp_point point1 point2 d1
      draw_scanline_checked im ⟨p0.x, y⟩ ⟨p1.x, y⟩ color) image

/-- The routine `gfx_fill_triangle_2` with its faults told apart. -/
def gfx_fill_triangle_2_checked (image : Image) (point0 point1 point2 : Vec2i)
    (color : Color) : Except Fault Image :=
  let sy := sort_point_y point0 point1 point2
  if sy.1.y = sy.2.2.y then
    let sx := sort_point_x sy.1 sy.2.1 sy.2.2
    draw_scanline_checked image sx.1 sx.2.2 color
  else
    let upper_height := sy.2.1.y - sy.1.y
    let lower_height := sy.2.2.y - sy.2.1.y
    (if upper_height = 0 then draw_scanline_checked image sy.1 sy.2.1 color
     else fill_upper_checked image sy.1 sy.2.1 sy.2.2 color).bind
      (fun im =>
        if lower_height = 0 then draw_scanline_checked im sy.2.1 sy.2.2 color
        else fill_lower_checked im sy.1 sy.2.1 sy.2.2 color)

/-- The successive calls of `gfx_draw_point_checked` for the points of a list. -/
def draw_points_checked (image : Image) (pts : List Vec2i) (color : Color) :
    Except Fault Image :=
  pts.foldlM (fun im p => gfx_draw_point_checked im p color) image

/-- The points `gfx_fill_triangle_2` draws once its vertices are sorted by `y`
into `q0`, `q1`, `q2`: the part of `gfx_fill_triangle_2_pixels` after the call
of `sort_point_y`. -/
def fill_sorted_pixels (q0 q1 q2 : Vec2i) : List Vec2i :=
  if q0.y = q2.y then
    let sx := sort_point_x q0 q1 q2
    draw_scanline_pixels sx.1 sx.2.2
  else
    let upper_height := q1.y - q0.y
    let lower_height := q2.y - q1.y
    (if upper_height = 0 then draw_scanline_pixels q0 q1
     else fill_upper_pixels q0 q1 q2) ++
    (if lower_height = 0 then draw_scanline_pixels q1 q2
     else fill_lower_pixels q0 q1 q2)

/-! ## Ranges and point lists -/

theorem mem_int_range (lo hi x : Int) : x ∈ int_range lo hi ↔ lo ≤ x ∧ x ≤ hi := by
  simp only [int_range, List.mem_map, List.mem_range]
  constructor
  · rintro ⟨k, hk, rfl⟩; omega
  · intro h; exact ⟨(x - lo).toNat, by omega, by omega⟩

theorem int_range_nodup (lo hi : Int) : (int_range lo hi).Nodup := by
  unfold int_range
  apply List.Nodup.map _ (List.nodup_range _)
  intro a b h
  simp only at h
  omega

theorem int_range_length (lo hi : Int) : (int_range lo hi).length = (hi + 1 - lo).toNat := by
  simp [int_range]

theorem gfx_draw_point_in_bounds (image : Image) (p : Vec2i) (color : Color)
    (h : in_bounds image p) :
    gfx_draw_point image p color = some (image_set_color image p.y p.x color) := by
  unfold in_bounds at h
  unfold gfx_draw_point
  simp only
  rw [if_neg]
  omega

theorem gfx_draw_point_out (image : Image) (p : Vec2i) (color : Color)
    (h : ¬ in_bounds image p) : gfx_draw_point image p color = none := by
  unfold in_bounds at h
  unfold gfx_draw_point
  simp only
  rw [if_pos]
  omega

theorem draw_points_nil (image : Image) (color : Color) :
    draw_points image [] color = some image := rfl

theorem draw_points_cons (image : Image) (p : Vec2i) (ps : List Vec2i) (color : Color) :
    draw_points image (p :: ps) color
      = (gfx_draw_point image p color).bind (fun im => draw_points im ps color) := by
  simp [draw_points, List.foldlM_cons]

theorem draw_points_append (image : Image) (ps qs : List Vec2i) (color : Color) :
    draw_points image (ps ++ qs) color
      = (draw_points image ps color).bind (fun im => draw_points im qs color) := by
  simp [draw_points, List.foldlM_append]

/-- Drawing a list of in-bounds points succeeds; the result has the same
dimensions and holds `color` exactly at the listed points. -/
theorem draw_points_spec (color : Color) (ps : List Vec2i) :
    ∀ image : Image, (∀ p ∈ ps, in_bounds image p) →
      ∃ im, draw_points image ps color = some im ∧ im.width = image.width ∧
        im.height = image.height ∧
        ∀ r c, im.pix r c = if (⟨c, r⟩ : Vec2i) ∈ ps then color else image.pix r c := by
  induction ps with
  | nil => intro image _; exact ⟨image, rfl, rfl, rfl, by simp⟩
  | cons p ps ih =>
    intro image h
    have hp : in_bounds image p := h p (List.mem_cons_self _ _)
    have hps : ∀ q ∈ ps, in_bounds (image_set_color image p.y p.x color) q := by
      intro q hq
      exact h q (List.mem_cons_of_mem _ hq)
    obtain ⟨im, h1, h2, h3, h4⟩ := ih (image_set_color image p.y p.x color) hps
    refine ⟨im, ?_, h2, h3, ?_⟩
    · rw [draw_points_cons, gfx_draw_point_in_bounds image p color hp]
      exact h1
    · intro r c
      rw [h4]
      by_cases hm : (⟨c, r⟩ : Vec2i) ∈ ps
      · simp [hm]
      · rw [if_neg hm]
        by_cases he : (⟨c, r⟩ : Vec2i) = p
        · subst he; simp [image_set_color]
        · have : ¬ (r = p.y ∧ c = p.x) := by
            rintro ⟨rfl, rfl⟩; exact he rfl
          simp [image_set_color, this, hm, he]

/-- Drawing fails as soon as one listed point is out of bounds. -/
theorem draw_points_none (color : Color) (ps : List Vec2i) :
    ∀ image : Image, (∃ p ∈ ps, ¬ in_bounds image p) → draw_points image ps color = none := by
  induction ps with
  | nil => intro image h; obtain ⟨p, hp, _⟩ := h; cases hp
  | cons p ps ih =>
    intro image h
    rw [draw_points_cons]
    by_cases hp : in_bounds image p
    · rw [gfx_draw_point_in_bounds image p color hp]
      apply ih
      obtain ⟨q, hq, hq2⟩ := h
      rcases List.mem_cons.mp hq with rfl | hq'
      · exact absurd hp hq2
      · exact ⟨q, hq', hq2⟩
    · rw [gfx_draw_point_out image p color hp]; rfl


theorem draw_points_map {α : Type} (image : Image) (l : List α) (f : α → Vec2i) (color : Color) :
    draw_points image (l.map f) color
      = l.foldlM (fun im a => gfx_draw_point im (f a) color) image := by
  unfold draw_points
  rw [List.foldlM_map]

theorem draw_scanline_eq (image : Image) (p0 p1 : Vec2i) (color : Color) (h : p0.y = p1.y) :
    draw_scanline image p0 p1 color = draw_points image (draw_scanline_pixels p0 p1) color := by
  unfold draw_scanline draw_scanline_pixels
  rw [if_neg (by simpa using h), draw_points_map]

theorem gfx_draw_line_eq (image : Image) (p0 p1 : Vec2i) (color : Color) :
    gfx_draw_line image p0 p1 color = draw_points image (gfx_draw_line_pixels p0 p1) color := by
  unfold gfx_draw_line gfx_draw_line_pixels
  simp only
  split_ifs
  all_goals first
    | rw [draw_points_map]
    | simp [draw_points]

theorem gfx_draw_line_pixels_comm (p0 p1 : Vec2i) :
    gfx_draw_line_pixels p0 p1 = gfx_draw_line_pixels p1 p0 := by
  have hx : |p0.x - p1.x| = |p1.x - p0.x| := abs_sub_comm _ _
  have hy : |p0.y - p1.y| = |p1.y - p0.y| := abs_sub_comm _ _
  unfold gfx_draw_line_pixels
  simp only [hx, hy]
  by_cases h0 : |p1.x - p0.x| = 0 ∧ |p1.y - p0.y| = 0
  · rw [if_pos h0, if_pos h0]
    obtain ⟨h1, h2⟩ := h0
    have e1 : p1.x = p0.x := by have := abs_eq_zero.mp h1; omega
    have e2 : p1.y = p0.y := by have := abs_eq_zero.mp h2; omega
    cases p0; cases p1; simp_all
  · rw [if_neg h0, if_neg h0]
    by_cases hd : |p1.x - p0.x| > |p1.y - p0.y|
    · rw [if_pos hd, if_pos hd]
      have hne : p0.x ≠ p1.x := by
        intro e
        rw [e, sub_self, abs_zero] at hd
        exact absurd hd (not_lt.mpr (abs_nonneg _))
      rcases lt_or_gt_of_ne hne with hlt | hgt
      · rw [if_neg (by omega), if_pos (by omega)]
      · rw [if_pos (by omega), if_neg (by omega)]
    · rw [if_neg hd, if_neg hd]
      have hne : p0.y ≠ p1.y := by
        intro e
        apply h0
        rw [e, sub_self, abs_zero] at hd ⊢
        have := abs_nonneg (p1.x - p0.x)
        exact ⟨by omega, rfl⟩
      rcases lt_or_gt_of_ne hne with hlt | hgt
      · rw [if_neg (by omega), if_pos (by omega)]
      · rw [if_pos (by omega), if_neg (by omega)]

/-! ## Points and lines: `gfx_draw_point`, `gfx_draw_line` -/

/-- C7: `gfx_draw_point` succeeds exactly when `0 <= point.x < width` and
`0 <= point.y < height`; on success the pixel at row `point.y`, column
`point.x` is `color`, every other pixel and the dimensions are unchanged; out
of bounds the assertion fires, so no image (clamped or otherwise) results. -/
theorem gfx_draw_point_contract (image : Image) (point : Vec2i) (color : Color) :
    ((gfx_draw_point image point color).isSome ↔
        (0 ≤ point.x ∧ point.x < image.width ∧ 0 ≤ point.y ∧ point.y < image.height)) ∧
    (∀ im, gfx_draw_point image point color = some im →
        im.width = image.width ∧ im.height = image.height ∧
        im.pix point.y point.x = color ∧
        ∀ r c, ¬ (r = point.y ∧ c = point.x) → im.pix r c = image.pix r c) ∧
    (¬ (0 ≤ point.x ∧ point.x < image.width ∧ 0 ≤ point.y ∧ point.y < image.height) →
        gfx_draw_point image point color = none) := by
  by_cases h : in_bounds image point
  · have e := gfx_draw_point_in_bounds image point color h
    refine ⟨?_, ?_, ?_⟩
    · rw [e]; simpa using h
    · intro im him
      rw [e] at him
      cases him
      refine ⟨rfl, rfl, by simp [image_set_color], ?_⟩
      intro r c hrc
      simp [image_set_color, hrc]
    · intro hn; exact absurd h hn
  · have e := gfx_draw_point_out image point color h
    refine ⟨?_, ?_, fun _ => e⟩
    · rw [e]
      constructor
      · intro hs; cases hs
      · intro hb; exact absurd hb h
    · intro im him; rw [e] at him; cases him

/-- C2: `gfx_draw_line` from `p0` to `p1` and from `p1` to `p0` pass the same
points to `gfx_draw_point`, in the same order, and so give the same result
(the same final image, or the same assertion failure). -/
theorem gfx_draw_line_symmetric (image : Image) (p0 p1 : Vec2i) (color : Color) :
    gfx_draw_line image p0 p1 color = draw_points image (gfx_draw_line_pixels p0 p1) color ∧
    gfx_draw_line_pixels p0 p1 = gfx_draw_line_pixels p1 p0 ∧
    gfx_draw_line image p0 p1 color = gfx_draw_line image p1 p0 color := by
  refine ⟨gfx_draw_line_eq image p0 p1 color, gfx_draw_line_pixels_comm p0 p1, ?_⟩
  rw [gfx_draw_line_eq, gfx_draw_line_eq, gfx_draw_line_pixels_comm]

theorem draw_points_bind {α : Type} (color : Color) (g : α → List Vec2i) (l : List α) :
    ∀ image : Image,
      l.foldlM (fun im a => draw_points im (g a) color) image
        = draw_points image (l.flatMap g) color := by
  induction l with
  | nil => intro image; rfl
  | cons a l ih =>
    intro image
    rw [List.foldlM_cons, List.flatMap_cons, draw_points_append]
    cases h : draw_points image (g a) color with
    | none => rfl
    | some im => exact ih im

theorem fill_upper_eq (image : Image) (p0 p1 p2 : Vec2i) (color : Color) :
    fill_upper image p0 p1 p2 color = draw_points image (fill_upper_pixels p0 p1 p2) color := by
  unfold fill_upper fill_upper_pixels
  simp only
  rw [← draw_points_bind]
  congr 1
  funext im y
  exact draw_scanline_eq im _ _ color rfl

theorem fill_lower_eq (image : Image) (p0 p1 p2 : Vec2i) (color : Color) :
    fill_lower image p0 p1 p2 color = draw_points image (fill_lower_pixels p0 p1 p2) color := by
  unfold fill_lower fill_lower_pixels
  simp only
  rw [← draw_points_bind]
  congr 1
  funext im y
  exact draw_scanline_eq im _ _ color rfl

/-- The output of `sort_point_y` is ordered by `y`. -/
theorem sort_point_y_sorted (a b c : Vec2i) :
    (sort_point_y a b c).1.y ≤ (sort_point_y a b c).2.1.y ∧
    (sort_point_y a b c).2.1.y ≤ (sort_point_y a b c).2.2.y := by
  unfold sort_point_y
  simp only
  split_ifs <;> simp_all <;> omega

/-- When the three points share one row, so do the outer points after
`sort_point_x`. -/
theorem sort_point_x_row (a b c : Vec2i) (h1 : a.y = b.y) (h2 : b.y = c.y) :
    (sort_point_x a b c).1.y = (sort_point_x a b c).2.2.y := by
  unfold sort_point_x
  simp only
  split_ifs <;> simp_all

/-- The flat fill is the drawing of its pixel list. -/
theorem gfx_fill_triangle_2_eq (image : Image) (p0 p1 p2 : Vec2i) (color : Color) :
    gfx_fill_triangle_2 image p0 p1 p2 color
      = draw_points image (gfx_fill_triangle_2_pixels p0 p1 p2) color := by
  have hs := sort_point_y_sorted p0 p1 p2
  unfold gfx_fill_triangle_2 gfx_fill_triangle_2_pixels
  simp only
  by_cases h : (sort_point_y p0 p1 p2).1.y = (sort_point_y p0 p1 p2).2.2.y
  · rw [if_pos h, if_pos h]
    apply draw_scanline_eq
    apply sort_point_x_row <;> omega
  · rw [if_neg h, if_neg h, draw_points_append]
    congr 1
    · split_ifs with hu
      · exact draw_scanline_eq _ _ _ _ (by omega)
      · exact fill_upper_eq _ _ _ _ _
    · funext im
      split_ifs with hl
      · exact draw_scanline_eq _ _ _ _ (by omega)
      · exact fill_lower_eq _ _ _ _ _

/-- The outer points after `sort_point_x` carry the least and the greatest `x`. -/
theorem sort_point_x_ends (a b c : Vec2i) :
    (sort_point_x a b c).1.x = min a.x (min b.x c.x) ∧
    (sort_point_x a b c).2.2.x = max a.x (max b.x c.x) := by
  unfold sort_point_x
  simp only [min_def, max_def]
  split_ifs <;> simp_all <;> omega

/-- With no swap needed, `sort_point_y` returns its input. -/
theorem sort_point_y_same_row (a b c : Vec2i) (h1 : b.y = a.y) (h2 : c.y = a.y) :
    sort_point_y a b c = (a, b, c) := by
  unfold sort_point_y
  simp [h1, h2]

/-- C10: three in-bounds vertices on one row `y`: `gfx_fill_triangle_2` passes
to `gfx_draw_point` exactly the points `(x, y)` with
`min(x0,x1,x2) <= x <= max(x0,x1,x2)`, once each from left to right; it
succeeds, and the final image holds `color` at those pixels and is unchanged
elsewhere. -/
theorem gfx_fill_triangle_2_horizontal (image : Image) (p0 p1 p2 : Vec2i) (color : Color)
    (h0 : in_bounds image p0) (h1 : in_bounds image p1) (h2 : in_bounds image p2)
    (e1 : p1.y = p0.y) (e2 : p2.y = p0.y) :
    gfx_fill_triangle_2 image p0 p1 p2 color
      = draw_points image (gfx_fill_triangle_2_pixels p0 p1 p2) color ∧
    gfx_fill_triangle_2_pixels p0 p1 p2
      = (int_range (min p0.x (min p1.x p2.x)) (max p0.x (max p1.x p2.x))).map
          (fun x => (⟨x, p0.y⟩ : Vec2i)) ∧
    ∃ im, gfx_fill_triangle_2 image p0 p1 p2 color = some im ∧
      im.width = image.width ∧ im.height = image.height ∧
      ∀ r c, im.pix r c =
        if r = p0.y ∧ min p0.x (min p1.x p2.x) ≤ c ∧ c ≤ max p0.x (max p1.x p2.x)
        then color else image.pix r c := by
  have hpix : gfx_fill_triangle_2_pixels p0 p1 p2
      = (int_range (min p0.x (min p1.x p2.x)) (max p0.x (max p1.x p2.x))).map
          (fun x => (⟨x, p0.y⟩ : Vec2i)) := by
    unfold gfx_fill_triangle_2_pixels
    simp only [sort_point_y_same_row p0 p1 p2 e1 e2]
    rw [if_pos e2.symm]
    have hx := sort_point_x_ends p0 p1 p2
    have hy : (sort_point_x p0 p1 p2).1.y = p0.y := by
      unfold sort_point_x
      simp only
      split_ifs <;> simp_all
    unfold draw_scanline_pixels
    simp only
    rw [if_neg, hx.1, hx.2, hy]
    rw [hx.1, hx.2]
    simp only [min_def, max_def]
    split_ifs <;> omega
  refine ⟨gfx_fill_triangle_2_eq image p0 p1 p2 color, hpix, ?_⟩
  rw [gfx_fill_triangle_2_eq, hpix]
  have hb : ∀ p ∈ (int_range (min p0.x (min p1.x p2.x)) (max p0.x (max p1.x p2.x))).map
      (fun x => (⟨x, p0.y⟩ : Vec2i)), in_bounds image p := by
    intro p hp
    obtain ⟨x, hx, rfl⟩ := List.mem_map.mp hp
    rw [mem_int_range] at hx
    unfold in_bounds at h0 h1 h2 ⊢
    simp only [min_def, max_def] at hx
    simp only
    split_ifs at hx <;> omega
  obtain ⟨im, q1, q2, q3, q4⟩ := draw_points_spec color _ image hb
  refine ⟨im, q1, q2, q3, ?_⟩
  intro r c
  rw [q4]
  congr 1
  rw [List.mem_map]
  apply propext
  constructor
  · rintro ⟨x, hx, hxe⟩
    rw [mem_int_range] at hx
    cases hxe
    exact ⟨rfl, hx.1, hx.2⟩
  · rintro ⟨rfl, hlo, hhi⟩
    exact ⟨c, (mem_int_range _ _ _).mpr ⟨hlo, hhi⟩, rfl⟩

/-- C10 at the vertices `(0,5)`, `(4,5)`, `(2,5)` on a 6 by 6 image: exactly
the scanline from `x = 0` to `x = 4` on row 5. -/
theorem gfx_fill_triangle_2_horizontal_witness :
    gfx_fill_triangle_2_pixels ⟨0, 5⟩ ⟨4, 5⟩ ⟨2, 5⟩
      = [⟨0, 5⟩, ⟨1, 5⟩, ⟨2, 5⟩, ⟨3, 5⟩, ⟨4, 5⟩] :=
  ((gfx_fill_triangle_2_horizontal ⟨6, 6, fun _ _ => ⟨0, 0, 0, 0⟩⟩ ⟨0, 5⟩ ⟨4, 5⟩ ⟨2, 5⟩
    ⟨255, 255, 255, 255⟩ (by decide) (by decide) (by decide) rfl rfl).2.1).trans (by decide)

/-! ## The attribute fill `gfx_fill_triangle` -/

theorem MIN_eq (a b : Int) : MIN a b = min a b := by
  unfold MIN; simp only [min_def]; split_ifs <;> omega

theorem MAX_eq (a b : Int) : MAX a b = max a b := by
  unfold MAX; simp only [max_def]; split_ifs <;> omega

/-- The clamped bounding box in closed form. -/
theorem fill_bounds_eq (image : Image) (p0 p1 p2 : Vec3i) :
    fill_bounds image p0 p1 p2 =
      (max 0 (min p2.x (min p1.x (min p0.x (image.width - 1)))),
       min (image.width - 1) (max p2.x (max p1.x (max p0.x 0))),
       max 0 (min p2.y (min p1.y (min p0.y (image.height - 1)))),
       min (image.height - 1) (max p2.y (max p1.y (max p0.y 0)))) := by
  unfold fill_bounds
  simp only [MIN_eq, MAX_eq]

/-- Every pixel the loop of `gfx_fill_triangle` visits is in the image. -/
theorem fill_scan_in_bounds (image : Image) (p0 p1 p2 : Vec3i) (i j : Int)
    (h : vec2i_new i j ∈ fill_scan image p0 p1 p2) :
    0 ≤ i ∧ i < image.width ∧ 0 ≤ j ∧ j < image.height := by
  unfold fill_scan at h
  simp only [fill_bounds_eq, List.mem_flatMap, List.mem_map, mem_int_range, vec2i_new,
    Vec2i.mk.injEq, max_le_iff, le_min_iff, min_le_iff, le_max_iff] at h
  obtain ⟨a, ha, b, hb, rfl, rfl⟩ := h
  omega

/-- The loop of `gfx_fill_triangle` visits every pixel of the image that lies
in the bounding box of the three vertices. -/
theorem fill_scan_of_bbox (image : Image) (p0 p1 p2 : Vec3i) (i j : Int)
    (hb : 0 ≤ i ∧ i < image.width ∧ 0 ≤ j ∧ j < image.height)
    (hx : min p0.x (min p1.x p2.x) ≤ i ∧ i ≤ max p0.x (max p1.x p2.x))
    (hy : min p0.y (min p1.y p2.y) ≤ j ∧ j ≤ max p0.y (max p1.y p2.y)) :
    vec2i_new i j ∈ fill_scan image p0 p1 p2 := by
  unfold fill_scan
  simp only [fill_bounds_eq, List.mem_flatMap, List.mem_map, mem_int_range, vec2i_new,
    Vec2i.mk.injEq, max_le_iff, le_min_iff, min_le_iff, le_max_iff] at hx hy ⊢
  exact ⟨i, by omega, j, by omega, rfl, rfl⟩

theorem fill_scan_nodup (image : Image) (p0 p1 p2 : Vec3i) :
    (fill_scan image p0 p1 p2).Nodup := by
  unfold fill_scan
  simp only
  rw [List.nodup_flatMap]
  refine ⟨?_, ?_⟩
  · intro i _
    apply List.Nodup.map _ (int_range_nodup _ _)
    intro a b h
    simpa [vec2i_new] using h
  · apply List.Nodup.pairwise_of_forall_ne (int_range_nodup _ _)
    intro a _ b _ hab
    simp only [Function.onFun, List.disjoint_left, List.mem_map]
    rintro p ⟨x, _, rfl⟩ ⟨y, _, h⟩
    simp [vec2i_new] at h
    exact hab h.1.symm

/-- The loop body of `gfx_fill_triangle` in terms of its verdict. -/
theorem fill_pixel_eq (w : Int) (st : Image × ZBuffer) (p0 p1 p2 : Vec3i) (c0 c1 c2 : Color)
    (I : ℚ) (i j : Int) :
    fill_pixel w st p0 p1 p2 c0 c1 c2 I i j =
      match fill_verdict w st.2 p0 p1 p2 i j with
      | some (s, t) =>
        (gfx_draw_point st.1 (vec2i_new i j) (interp_color c0 c1 c2 s t I)).map
          (fun im => (im, zbuffer_set st.2 (j * w + i) (interp_depth p0 p1 p2 s t)))
      | none => some st := by
  unfold fill_pixel fill_verdict xy
  simp only
  split
  · split_ifs <;> rfl
  · rfl

/-- The verdict at a pixel reads the depth buffer only at that pixel's cell. -/
theorem fill_verdict_congr (w : Int) (zb zb' : ZBuffer) (p0 p1 p2 : Vec3i) (i j : Int)
    (h : zb (j * w + i) = zb' (j * w + i)) :
    fill_verdict w zb p0 p1 p2 i j = fill_verdict w zb' p0 p1 p2 i j := by
  unfold fill_verdict
  rw [h]

/-- Distinct pixels of the image have distinct depth cells. -/
theorem idx_inj (w h : Int) (p q : Vec2i)
    (hp : 0 ≤ p.x ∧ p.x < w ∧ 0 ≤ p.y ∧ p.y < h)
    (hq : 0 ≤ q.x ∧ q.x < w ∧ 0 ≤ q.y ∧ q.y < h)
    (e : p.y * w + p.x = q.y * w + q.x) : p = q := by
  have hy : p.y = q.y := by
    rcases lt_trichotomy p.y q.y with hlt | heq | hgt
    · exfalso
      have : (p.y + 1) * w ≤ q.y * w := by
        apply mul_le_mul_of_nonneg_right <;> omega
      linarith
    · exact heq
    · exfalso
      have : (q.y + 1) * w ≤ p.y * w := by
        apply mul_le_mul_of_nonneg_right <;> omega
      linarith
  have hx : p.x = q.x := by rw [hy] at e; omega
  cases p; cases q; simp_all

/-- The cell of a pixel of the image lies inside the depth buffer. -/
theorem idx_range (w h i j : Int) (hb : 0 ≤ i ∧ i < w ∧ 0 ≤ j ∧ j < h) :
    0 ≤ j * w + i ∧ j * w + i < w * h := by
  constructor
  · have : 0 ≤ j * w := mul_nonneg (by omega) (by omega)
    omega
  · have : (j + 1) * w ≤ h * w := by
      apply mul_le_mul_of_nonneg_right <;> omega
    linarith

/-- The effect of running the loop body of `gfx_fill_triangle` over a list of
distinct pixels of the image: the run succeeds; a listed pixel whose verdict
on the initial depth buffer is `some (s, t)` gets the interpolated colour and
depth; every other pixel and every other cell keeps its value. -/
theorem fill_fold_spec (w : Int) (p0 p1 p2 : Vec3i) (c0 c1 c2 : Color) (I : ℚ)
    (L : List Vec2i) :
    ∀ st : Image × ZBuffer, st.1.width = w → (∀ p ∈ L, in_bounds st.1 p) → L.Nodup →
      ∃ st' : Image × ZBuffer,
        L.foldlM (fun s p => fill_pixel w s p0 p1 p2 c0 c1 c2 I p.x p.y) st = some st' ∧
        st'.1.width = st.1.width ∧ st'.1.height = st.1.height ∧
        (∀ p s t, p ∈ L → fill_verdict w st.2 p0 p1 p2 p.x p.y = some (s, t) →
          st'.1.pix p.y p.x = interp_color c0 c1 c2 s t I ∧
          st'.2 (p.y * w + p.x) = interp_depth p0 p1 p2 s t) ∧
        (∀ p : Vec2i, (p ∉ L ∨ fill_verdict w st.2 p0 p1 p2 p.x p.y = none) →
          st'.1.pix p.y p.x = st.1.pix p.y p.x) ∧
        (∀ p, p ∈ L → fill_verdict w st.2 p0 p1 p2 p.x p.y = none →
          st'.2 (p.y * w + p.x) = st.2 (p.y * w + p.x)) ∧
        (∀ k, (∀ p ∈ L, k ≠ p.y * w + p.x) → st'.2 k = st.2 k) := by
  induction L with
  | nil =>
    intro st _ _ _
    refine ⟨st, rfl, rfl, rfl, ?_, ?_, ?_, ?_⟩
    · intro p s t hp; cases hp
    · intro p _; rfl
    · intro p hp; cases hp
    · intro k _; rfl
  | cons q L ih =>
    intro st hw hb hnd
    have hq : in_bounds st.1 q := hb q (List.mem_cons_self _ _)
    have hqL : q ∉ L := (List.nodup_cons.mp hnd).1
    have hLnd : L.Nodup := (List.nodup_cons.mp hnd).2
    have hbL : ∀ p ∈ L, in_bounds st.1 p := fun p hp => hb p (List.mem_cons_of_mem _ hp)
    have hne : ∀ p ∈ L, p.y * w + p.x ≠ q.y * w + q.x := by
      intro p hp e
      have hpb := hbL p hp
      unfold in_bounds at hpb hq
      rw [hw] at hpb hq
      have := idx_inj w st.1.height p q hpb hq e
      subst this
      exact hqL hp
    rw [List.foldlM_cons, fill_pixel_eq]
    cases hv : fill_verdict w st.2 p0 p1 p2 q.x q.y with
    | none =>
      obtain ⟨st', h1, h2, h3, h4, h5, h6, h7⟩ := ih st hw hbL hLnd
      refine ⟨st', h1, h2, h3, ?_, ?_, ?_, ?_⟩
      · intro p s t hp hpv
        rcases List.mem_cons.mp hp with rfl | hp'
        · rw [hv] at hpv; cases hpv
        · exact h4 p s t hp' hpv
      · intro p hp
        by_cases hpq : p = q
        · subst hpq; exact h5 p (Or.inl hqL)
        · rcases hp with hp | hp
          · exact h5 p (Or.inl (fun hm => hp (List.mem_cons_of_mem _ hm)))
          · exact h5 p (Or.inr hp)
      · intro p hp hpv
        rcases List.mem_cons.mp hp with rfl | hp'
        · exact h7 _ (fun r hr => (hne r hr).symm)
        · exact h6 p hp' hpv
      · intro k hk
        exact h7 k (fun p hp => hk p (List.mem_cons_of_mem _ hp))
    | some v =>
      obtain ⟨s0, t0⟩ := v
      have hdraw : gfx_draw_point st.1 (vec2i_new q.x q.y) (interp_color c0 c1 c2 s0 t0 I)
          = some (image_set_color st.1 q.y q.x (interp_color c0 c1 c2 s0 t0 I)) :=
        gfx_draw_point_in_bounds st.1 q _ hq
      simp only [hdraw, Option.map_some']
      have hcg : ∀ p ∈ L, fill_verdict w
          (zbuffer_set st.2 (q.y * w + q.x) (interp_depth p0 p1 p2 s0 t0)) p0 p1 p2 p.x p.y
            = fill_verdict w st.2 p0 p1 p2 p.x p.y := by
        intro p hp
        apply fill_verdict_congr
        unfold zbuffer_set
        rw [if_neg (hne p hp)]
      obtain ⟨st', h1, h2, h3, h4, h5, h6, h7⟩ :=
        ih (image_set_color st.1 q.y q.x (interp_color c0 c1 c2 s0 t0 I),
            zbuffer_set st.2 (q.y * w + q.x) (interp_depth p0 p1 p2 s0 t0)) hw hbL hLnd
      refine ⟨st', h1, h2, h3, ?_, ?_, ?_, ?_⟩
      · intro p s t hp hpv
        rcases List.mem_cons.mp hp with rfl | hp'
        · rw [hv] at hpv
          cases hpv
          constructor
          · rw [h5 p (Or.inl hqL)]
            simp [image_set_color]
          · rw [h7 _ (fun r hr => (hne r hr).symm)]
            simp [zbuffer_set]
        · rw [← hcg p hp'] at hpv
          exact h4 p s t hp' hpv
      · intro p hp
        have hpq : p ≠ q := by
          rintro rfl
          rcases hp with hp | hp
          · exact hp (List.mem_cons_self _ _)
          · rw [hv] at hp; cases hp
        have hold : (image_set_color st.1 q.y q.x (interp_color c0 c1 c2 s0 t0 I)).pix p.y p.x
            = st.1.pix p.y p.x := by
          have : ¬ (p.y = q.y ∧ p.x = q.x) := by
            rintro ⟨e1, e2⟩
            apply hpq
            cases p; cases q; simp_all
          simp [image_set_color, this]
        by_cases hpL : p ∈ L
        · rcases hp with hp | hp
          · exact absurd (List.mem_cons_of_mem _ hpL) hp
          · rw [← hcg p hpL] at hp
            rw [h5 p (Or.inr hp)]
            exact hold
        · rw [h5 p (Or.inl hpL)]
          exact hold
      · intro p hp hpv
        rcases List.mem_cons.mp hp with rfl | hp'
        · rw [hv] at hpv; cases hpv
        · rw [← hcg p hp'] at hpv
          rw [h6 p hp' hpv]
          simp only [zbuffer_set, if_neg (hne p hp')]
      · intro k hk
        rw [h7 k (fun p hp => hk p (List.mem_cons_of_mem _ hp))]
        simp only [zbuffer_set, if_neg (hk q (List.mem_cons_self _ _))]

theorem foldlM_flatMap_option {α β σ : Type} (f : σ → β → Option σ) (g : α → List β)
    (l : List α) :
    ∀ s : σ, l.foldlM (fun s a => (g a).foldlM f s) s = (l.flatMap g).foldlM f s := by
  induction l with
  | nil => intro s; rfl
  | cons a l ih =>
    intro s
    rw [List.foldlM_cons, List.flatMap_cons, List.foldlM_append]
    cases h : (g a).foldlM f s with
    | none => rfl
    | some s' => exact ih s'

/-- The double loop of `gfx_fill_triangle` is one pass over `fill_scan`. -/
theorem gfx_fill_triangle_eq (image : Image) (p0 p1 p2 : Vec3i) (c0 c1 c2 : Color)
    (zbuffer : ZBuffer) (I : ℚ) :
    gfx_fill_triangle image p0 p1 p2 c0 c1 c2 zbuffer I =
      (fill_scan image p0 p1 p2).foldlM
        (fun s p => fill_pixel image.width s p0 p1 p2 c0 c1 c2 I p.x p.y) (image, zbuffer) := by
  unfold gfx_fill_triangle fill_scan
  simp only
  rw [← foldlM_flatMap_option]
  congr 1
  funext s i
  rw [List.foldlM_map]
  rfl

theorem fill_scan_mem_bounds (image : Image) (p0 p1 p2 : Vec3i) (p : Vec2i)
    (h : p ∈ fill_scan image p0 p1 p2) : in_bounds image p :=
  fill_scan_in_bounds image p0 p1 p2 p.x p.y h

/-- The final state of `gfx_fill_triangle`, for every triangle: the call
succeeds; a visited pixel with verdict `some (s, t)` gets the interpolated
colour and depth; every other pixel, and every other depth cell, is unchanged. -/
theorem gfx_fill_triangle_spec (image : Image) (p0 p1 p2 : Vec3i) (c0 c1 c2 : Color)
    (zbuffer : ZBuffer) (I : ℚ) :
    ∃ im zb, gfx_fill_triangle image p0 p1 p2 c0 c1 c2 zbuffer I = some (im, zb) ∧
      im.width = image.width ∧ im.height = image.height ∧
      (∀ i j s t, vec2i_new i j ∈ fill_scan image p0 p1 p2 →
        fill_verdict image.width zbuffer p0 p1 p2 i j = some (s, t) →
        im.pix j i = interp_color c0 c1 c2 s t I ∧
        zb (j * image.width + i) = interp_depth p0 p1 p2 s t) ∧
      (∀ i j, (vec2i_new i j ∉ fill_scan image p0 p1 p2 ∨
          fill_verdict image.width zbuffer p0 p1 p2 i j = none) →
        im.pix j i = image.pix j i) ∧
      (∀ i j, (0 ≤ i ∧ i < image.width ∧ 0 ≤ j ∧ j < image.height) →
        (vec2i_new i j ∉ fill_scan image p0 p1 p2 ∨
          fill_verdict image.width zbuffer p0 p1 p2 i j = none) →
        zb (j * image.width + i) = zbuffer (j * image.width + i)) ∧
      (∀ k, (k < 0 ∨ image.width * image.height ≤ k) → zb k = zbuffer k) ∧
      (∀ k, (∀ p ∈ fill_scan image p0 p1 p2, k ≠ p.y * image.width + p.x) →
        zb k = zbuffer k) := by
  obtain ⟨st', h1, h2, h3, h4, h5, h6, h7⟩ :=
    fill_fold_spec image.width p0 p1 p2 c0 c1 c2 I (fill_scan image p0 p1 p2)
      (image, zbuffer) rfl (fun p hp => fill_scan_mem_bounds image p0 p1 p2 p hp)
      (fill_scan_nodup image p0 p1 p2)
  refine ⟨st'.1, st'.2, ?_, h2, h3, ?_, ?_, ?_, ?_, h7⟩
  · rw [gfx_fill_triangle_eq]; exact h1
  · intro i j s t hm hv
    exact h4 (vec2i_new i j) s t hm hv
  · intro i j h
    exact h5 (vec2i_new i j) h
  · intro i j hb h
    by_cases hm : vec2i_new i j ∈ fill_scan image p0 p1 p2
    · rcases h with h | h
      · exact absurd hm h
      · exact h6 (vec2i_new i j) hm h
    · apply h7
      intro p hp e
      have hpb := fill_scan_mem_bounds image p0 p1 p2 p hp
      have := idx_inj image.width image.height (vec2i_new i j) p hb hpb e
      rw [this] at hm
      exact hm hp
  · intro k hk
    apply h7
    intro p hp e
    have hpb := fill_scan_mem_bounds image p0 p1 p2 p hp
    have := idx_range image.width image.height p.x p.y hpb
    omega

/-- C9: for every image and every three vertices, each pixel `(i, j)` visited
by the double loop of `gfx_fill_triangle` has `0 <= i <= width - 1` and
`0 <= j <= height - 1`, its depth cell `j * width + i` lies in
`[0, width * height)`, and the call never reaches the assertion of
`gfx_draw_point`: it returns a result. -/
theorem gfx_fill_triangle_within_bounds (image : Image) (p0 p1 p2 : Vec3i) (c0 c1 c2 : Color)
    (zbuffer : ZBuffer) (I : ℚ) :
    (∀ i j, vec2i_new i j ∈ fill_scan image p0 p1 p2 →
        (0 ≤ i ∧ i ≤ image.width - 1) ∧ (0 ≤ j ∧ j ≤ image.height - 1) ∧
        (0 ≤ j * image.width + i ∧ j * image.width + i < image.width * image.height)) ∧
    gfx_fill_triangle image p0 p1 p2 c0 c1 c2 zbuffer I =
      (fill_scan image p0 p1 p2).foldlM
        (fun s p => fill_pixel image.width s p0 p1 p2 c0 c1 c2 I p.x p.y) (image, zbuffer) ∧
    (gfx_fill_triangle image p0 p1 p2 c0 c1 c2 zbuffer I).isSome = true := by
  refine ⟨?_, gfx_fill_triangle_eq image p0 p1 p2 c0 c1 c2 zbuffer I, ?_⟩
  · intro i j h
    have hb := fill_scan_in_bounds image p0 p1 p2 i j h
    have := idx_range image.width image.height i j hb
    omega
  · obtain ⟨im, zb, h, _⟩ := gfx_fill_triangle_spec image p0 p1 p2 c0 c1 c2 zbuffer I
    rw [h]; rfl

/-! ## Binary floating-point rounding -/

theorem pow2_eq_zpow (k : Int) : pow2 k = (2 : ℚ) ^ k := by
  unfold pow2
  split_ifs with h
  · obtain ⟨n, rfl⟩ := Int.eq_ofNat_of_zero_le h
    simp
  · push_neg at h
    obtain ⟨n, hn⟩ := Int.eq_ofNat_of_zero_le (by omega : 0 ≤ -k)
    have hk : k = -(n : Int) := by omega
    subst hk
    simp

theorem pow2_pos (k : Int) : 0 < pow2 k := by
  rw [pow2_eq_zpow]; positivity

theorem pow2_add (a b : Int) : pow2 (a + b) = pow2 a * pow2 b := by
  simp only [pow2_eq_zpow]
  exact zpow_add₀ (by norm_num) a b

theorem pow2_sub (a b : Int) : pow2 (a - b) = pow2 a / pow2 b := by
  simp only [pow2_eq_zpow]
  exact zpow_sub₀ (by norm_num) a b

theorem pow2_zero : pow2 0 = 1 := by simp [pow2_eq_zpow]

theorem pow2_one : pow2 1 = 2 := by simp [pow2_eq_zpow]

theorem pow2_neg_one : pow2 (-1) = 1 / 2 := by simp [pow2_eq_zpow]

theorem pow2_succ (a : Int) : pow2 (a + 1) = 2 * pow2 a := by
  rw [pow2_add, pow2_one, mul_comm]

theorem pow2_le_pow2 {a b : Int} (h : a ≤ b) : pow2 a ≤ pow2 b := by
  simp only [pow2_eq_zpow]
  exact zpow_le_zpow_right₀ (by norm_num) h

theorem pow2_lt_pow2 {a b : Int} (h : a < b) : pow2 a < pow2 b := by
  simp only [pow2_eq_zpow]
  exact zpow_lt_zpow_right₀ (by norm_num) h

theorem pow2_lt_iff {a b : Int} : pow2 a < pow2 b ↔ a < b := by
  constructor
  · intro h
    by_contra hc
    push_neg at hc
    exact absurd (pow2_le_pow2 hc) (not_le.mpr h)
  · exact pow2_lt_pow2

theorem pow2_natCast (n : Nat) : pow2 (n : Int) = ((2 ^ n : Nat) : ℚ) := by
  simp [pow2_eq_zpow]

/-- For a natural exponent `pow2` is an integer. -/
theorem pow2_nat_int (n : Nat) : pow2 (n : Int) = (((2 : Int) ^ n : Int) : ℚ) := by
  simp [pow2_eq_zpow]

theorem nat_log2_spec : ∀ (fuel n : Nat), n ≤ fuel → 1 ≤ n →
    2 ^ nat_log2 fuel n ≤ n ∧ n < 2 ^ (nat_log2 fuel n + 1) := by
  intro fuel
  induction fuel with
  | zero => intro n h1 h2; omega
  | succ f ih =>
    intro n h1 h2
    unfold nat_log2
    split_ifs with h
    · have : n = 1 := by omega
      subst this
      simp
    · have h3 := ih (n / 2) (by omega) (by omega)
      have e1 : 2 ^ (nat_log2 f (n / 2) + 1) = 2 * 2 ^ nat_log2 f (n / 2) := by
        rw [pow_succ]; ring
      have e2 : 2 ^ (nat_log2 f (n / 2) + 1 + 1) = 2 * 2 ^ (nat_log2 f (n / 2) + 1) := by
        rw [pow_succ (2 : Nat) (nat_log2 f (n / 2) + 1)]; ring
      rw [e2, e1]
      rw [e1] at h3
      omega

/-- The bracket that defines `ilog2`. -/
theorem ilog2_spec (q : ℚ) (hq : q ≠ 0) : pow2 (ilog2 q) ≤ |q| ∧ |q| < pow2 (ilog2 q + 1) := by
  have hn : 1 ≤ q.num.natAbs := by
    have : q.num ≠ 0 := Rat.num_ne_zero.mpr hq
    omega
  have hd : 1 ≤ q.den := q.den_pos
  obtain ⟨n1, n2⟩ := nat_log2_spec q.num.natAbs q.num.natAbs le_rfl hn
  obtain ⟨d1, d2⟩ := nat_log2_spec q.den q.den le_rfl hd
  have habs : |q| = (q.num.natAbs : ℚ) / (q.den : ℚ) := by
    conv_lhs => rw [← Rat.num_div_den q]
    rw [abs_div, Nat.abs_cast]
    congr 1
    rw [Nat.cast_natAbs, Int.cast_abs]
  have hdq : (0 : ℚ) < q.den := by exact_mod_cast hd
  set a := nat_log2 q.num.natAbs q.num.natAbs with ha
  set b := nat_log2 q.den q.den with hb
  have n1' : pow2 a ≤ (q.num.natAbs : ℚ) := by rw [pow2_natCast]; exact_mod_cast n1
  have n2' : (q.num.natAbs : ℚ) < pow2 (a + 1) := by
    have : ((a : Int) + 1) = ((a + 1 : Nat) : Int) := by push_cast; ring
    rw [this, pow2_natCast]; exact_mod_cast n2
  have d1' : pow2 b ≤ (q.den : ℚ) := by rw [pow2_natCast]; exact_mod_cast d1
  have d2' : (q.den : ℚ) < pow2 (b + 1) := by
    have : ((b : Int) + 1) = ((b + 1 : Nat) : Int) := by push_cast; ring
    rw [this, pow2_natCast]; exact_mod_cast d2
  have key1 : pow2 ((a : Int) - b - 1) < |q| := by
    rw [habs, lt_div_iff₀ hdq]
    have e : pow2 ((a : Int) - b - 1) * pow2 (b + 1) = pow2 a := by
      rw [← pow2_add]; congr 1; ring
    calc pow2 ((a : Int) - b - 1) * (q.den : ℚ)
        < pow2 ((a : Int) - b - 1) * pow2 (b + 1) :=
          mul_lt_mul_of_pos_left d2' (pow2_pos _)
      _ = pow2 a := e
      _ ≤ _ := n1'
  have key2 : |q| < pow2 ((a : Int) - b + 1) := by
    rw [habs, div_lt_iff₀ hdq]
    have e : pow2 ((a : Int) - b + 1) * pow2 b = pow2 (a + 1) := by
      rw [← pow2_add]; congr 1; ring
    calc (q.num.natAbs : ℚ) < pow2 (a + 1) := n2'
      _ = pow2 ((a : Int) - b + 1) * pow2 b := e.symm
      _ ≤ pow2 ((a : Int) - b + 1) * (q.den : ℚ) :=
          mul_le_mul_of_nonneg_left d1' (pow2_pos _).le
  unfold ilog2
  simp only
  rw [← ha, ← hb]
  split_ifs with h
  · exact ⟨h, key2⟩
  · push_neg at h
    constructor
    · exact key1.le
    · have : (a : Int) - b - 1 + 1 = a - b := by ring
      rw [this]; exact h

/-- The exponent of a value of magnitude below `2 ^ k` is below `k`. -/
theorem ilog2_lt (q : ℚ) (hq : q ≠ 0) (k : Int) (h : |q| < pow2 k) : ilog2 q < k := by
  have := (ilog2_spec q hq).1
  exact pow2_lt_iff.mp (lt_of_le_of_lt this h)

/-- The exponent of a value of magnitude at least `2 ^ k` is at least `k`. -/
theorem le_ilog2 (q : ℚ) (hq : q ≠ 0) (k : Int) (h : pow2 k ≤ |q|) : k ≤ ilog2 q := by
  have := (ilog2_spec q hq).2
  have := pow2_lt_iff.mp (lt_of_le_of_lt h this)
  omega

theorem round_half_even_floor (q : ℚ) : (q.num / (q.den : Int) : Int) = ⌊q⌋ := Rat.floor_def.symm

/-- Rounding to nearest moves a value by at most one half. -/
theorem round_half_even_err (q : ℚ) : |((round_half_even q : Int) : ℚ) - q| ≤ 1 / 2 := by
  unfold round_half_even
  simp only [round_half_even_floor]
  have h1 : (⌊q⌋ : ℚ) ≤ q := Int.floor_le q
  have h2 : q < (⌊q⌋ : ℚ) + 1 := Int.lt_floor_add_one q
  rw [abs_le]
  split_ifs with a b c
  · constructor <;> linarith
  · push_cast; constructor <;> linarith
  · constructor <;> linarith
  · push_cast; constructor <;> linarith

/-- Rounding to nearest leaves an integer alone. -/
theorem round_half_even_int (z : Int) : round_half_even (z : ℚ) = z := by
  unfold round_half_even
  simp only [round_half_even_floor, Int.floor_intCast, sub_self]
  norm_num

/-- A value at most the integer `N` rounds to at most `N`. -/
theorem round_half_even_le (q : ℚ) (N : Int) (h : q ≤ (N : ℚ)) : round_half_even q ≤ N := by
  unfold round_half_even
  simp only [round_half_even_floor]
  have h1 : (⌊q⌋ : ℚ) ≤ q := Int.floor_le q
  have hf : ⌊q⌋ ≤ N := by exact_mod_cast h1.trans h
  rcases eq_or_lt_of_le hf with e | l
  · have : q - (⌊q⌋ : ℚ) = 0 := by rw [e]; rw [e] at h1; linarith
    rw [this]
    norm_num
    omega
  · split_ifs <;> omega

/-- A value at least the integer `N` rounds to at least `N`. -/
theorem le_round_half_even (q : ℚ) (N : Int) (h : (N : ℚ) ≤ q) : N ≤ round_half_even q := by
  unfold round_half_even
  simp only [round_half_even_floor]
  have hf : N ≤ ⌊q⌋ := Int.le_floor.mpr h
  split_ifs <;> omega

/-- A value at most half-way above the even integer `N` rounds to at most `N`. -/
theorem round_half_even_le_even (q : ℚ) (N : Int) (hN : N % 2 = 0) (h : q ≤ (N : ℚ) + 1 / 2) :
    round_half_even q ≤ N := by
  by_cases hq : q < (N : ℚ)
  · exact round_half_even_le q N hq.le
  · push_neg at hq
    have hf : ⌊q⌋ = N := by
      rw [Int.floor_eq_iff]
      constructor
      · exact hq
      · linarith
    unfold round_half_even
    simp only [round_half_even_floor, hf]
    split_ifs with a b
    · exact le_rfl
    · exfalso; linarith
    · exact le_rfl

theorem fl_round_zero (p : Nat) (emin : Int) : fl_round p emin 0 = 0 := by
  unfold fl_round; rw [if_pos rfl]

/-- The rounding error is at most half a unit of the last place. -/
theorem fl_round_err (p : Nat) (emin : Int) (q : ℚ) :
    |fl_round p emin q - q| ≤ pow2 (fl_exp p emin q) / 2 := by
  have hp := pow2_pos (fl_exp p emin q)
  by_cases hq : q = 0
  · subst hq
    rw [fl_round_zero, sub_self, abs_zero]
    linarith
  · unfold fl_round
    rw [if_neg hq]
    have h := round_half_even_err (q / pow2 (fl_exp p emin q))
    have e : ((round_half_even (q / pow2 (fl_exp p emin q)) : Int) : ℚ) * pow2 (fl_exp p emin q) - q
        = (((round_half_even (q / pow2 (fl_exp p emin q)) : Int) : ℚ)
            - q / pow2 (fl_exp p emin q)) * pow2 (fl_exp p emin q) := by
      field_simp
    rw [e, abs_mul, abs_of_pos hp]
    calc _ ≤ 1 / 2 * pow2 (fl_exp p emin q) := mul_le_mul_of_nonneg_right h hp.le
      _ = _ := by ring

/-- Absolute error of a rounding by the magnitude of the value: a value of
magnitude at most `2 ^ k` is moved by at most `2 ^ (k - p)`. -/
theorem fl_round_err_le (p : Nat) (emin : Int) (q : ℚ) (k : Int) (hk : emin ≤ k)
    (h : |q| ≤ pow2 k) : |fl_round p emin q - q| ≤ pow2 (k - p) := by
  by_cases hq : q = 0
  · subst hq
    rw [fl_round_zero, sub_self, abs_zero]
    exact (pow2_pos _).le
  · have h1 : ilog2 q < k + 1 := ilog2_lt q hq (k + 1) (lt_of_le_of_lt h (pow2_lt_pow2 (by omega)))
    have h2 : fl_exp p emin q ≤ k - p + 1 := by
      unfold fl_exp
      simp only [max_le_iff]
      omega
    calc _ ≤ pow2 (fl_exp p emin q) / 2 := fl_round_err p emin q
      _ ≤ pow2 (k - p + 1) / 2 := by
          apply div_le_div_of_nonneg_right (pow2_le_pow2 h2); norm_num
      _ = pow2 (k - p) := by rw [pow2_succ]; ring

/-- Relative error of a rounding in the normal range. -/
theorem fl_round_rel (p : Nat) (emin : Int) (q : ℚ) (h : pow2 emin ≤ |q|) :
    |fl_round p emin q - q| ≤ |q| * pow2 (-(p : Int)) := by
  have hq : q ≠ 0 := by
    rintro rfl
    rw [abs_zero] at h
    exact absurd (pow2_pos emin) (not_lt.mpr h)
  have h1 : emin ≤ ilog2 q := le_ilog2 q hq emin h
  have h2 : fl_exp p emin q = ilog2 q - p + 1 := by
    unfold fl_exp
    rw [max_eq_left]
    omega
  have h3 := (ilog2_spec q hq).1
  calc _ ≤ pow2 (fl_exp p emin q) / 2 := fl_round_err p emin q
    _ = pow2 (ilog2 q) * pow2 (-(p : Int)) := by
        rw [h2, pow2_succ, ← pow2_add]
        have : ilog2 q - (p : Int) = ilog2 q + -(p : Int) := by ring
        rw [this]; ring
    _ ≤ |q| * pow2 (-(p : Int)) := mul_le_mul_of_nonneg_right h3 (pow2_pos _).le

/-- Rounding keeps the sign (weakly). -/
theorem fl_round_nonneg (p : Nat) (emin : Int) (q : ℚ) (h : 0 ≤ q) : 0 ≤ fl_round p emin q := by
  unfold fl_round
  split_ifs with hq
  · exact le_rfl
  · apply mul_nonneg _ (pow2_pos _).le
    have : (0 : Int) ≤ round_half_even (q / pow2 (fl_exp p emin q)) := by
      apply le_round_half_even
      simpa using div_nonneg h (pow2_pos _).le
    exact_mod_cast this

theorem fl_round_nonpos (p : Nat) (emin : Int) (q : ℚ) (h : q ≤ 0) : fl_round p emin q ≤ 0 := by
  unfold fl_round
  split_ifs with hq
  · exact le_rfl
  · apply mul_nonpos_of_nonpos_of_nonneg _ (pow2_pos _).le
    have : round_half_even (q / pow2 (fl_exp p emin q)) ≤ (0 : Int) := by
      apply round_half_even_le
      simpa using div_nonpos_of_nonpos_of_nonneg h (pow2_pos _).le
    exact_mod_cast this

/-- A representable value is left alone: `m * 2 ^ k` with `|m| < 2 ^ p` and
`k` at least the exponent of the least subnormal. -/
theorem fl_round_exact (p : Nat) (emin : Int) (m k : Int) (hm : |m| < 2 ^ p)
    (hk : emin - p + 1 ≤ k) : fl_round p emin ((m : ℚ) * pow2 k) = (m : ℚ) * pow2 k := by
  by_cases hm0 : m = 0
  · subst hm0; simp [fl_round_zero]
  have hq : (m : ℚ) * pow2 k ≠ 0 :=
    mul_ne_zero (by exact_mod_cast hm0) (pow2_pos k).ne'
  have habs : |(m : ℚ) * pow2 k| < pow2 (p + k) := by
    rw [abs_mul, abs_of_pos (pow2_pos k), pow2_add]
    apply mul_lt_mul_of_pos_right _ (pow2_pos k)
    rw [pow2_nat_int, ← Int.cast_abs]
    exact_mod_cast hm
  have h1 : ilog2 ((m : ℚ) * pow2 k) < p + k := ilog2_lt _ hq _ habs
  have h2 : fl_exp p emin ((m : ℚ) * pow2 k) ≤ k := by
    unfold fl_exp
    simp only [max_le_iff]
    omega
  unfold fl_round
  rw [if_neg hq]
  set e := fl_exp p emin ((m : ℚ) * pow2 k) with he
  obtain ⟨n, hn⟩ := Int.eq_ofNat_of_zero_le (by omega : 0 ≤ k - e)
  have hk' : k = n + e := by omega
  have e1 : (m : ℚ) * pow2 k / pow2 e = ((m * 2 ^ n : Int) : ℚ) := by
    rw [hk', pow2_add, pow2_nat_int]
    have := (pow2_pos e).ne'
    field_simp
    ring
  rw [e1, round_half_even_int, hk', pow2_add, pow2_nat_int]
  push_cast
  ring

/-- A value a rounding leaves alone is `m * 2 ^ k` with `|m| <= 2 ^ p` and `k`
at least the exponent of the least subnormal. -/
theorem fl_round_repr (p : Nat) (emin : Int) (z : ℚ) (h : fl_round p emin z = z) :
    ∃ m k : Int, z = (m : ℚ) * pow2 k ∧ |m| ≤ 2 ^ p ∧ emin - p + 1 ≤ k := by
  by_cases hz : z = 0
  · exact ⟨0, emin - p + 1, by simp [hz], by positivity, le_rfl⟩
  · have hb := (ilog2_spec z hz).2
    have hpe := pow2_pos (fl_exp p emin z)
    have he : ilog2 z + 1 ≤ fl_exp p emin z + p := by
      unfold fl_exp
      have := le_max_left (ilog2 z - (p : Int) + 1) (emin - (p : Int) + 1)
      omega
    have hlt : |z / pow2 (fl_exp p emin z)| < pow2 p := by
      rw [abs_div, abs_of_pos hpe, div_lt_iff₀ hpe, ← pow2_add]
      have : (p : Int) + fl_exp p emin z = fl_exp p emin z + p := by ring
      rw [this]
      exact lt_of_lt_of_le hb (pow2_le_pow2 he)
    rw [pow2_nat_int] at hlt
    have hle := abs_le.mp hlt.le
    refine ⟨round_half_even (z / pow2 (fl_exp p emin z)), fl_exp p emin z, ?_, ?_, ?_⟩
    · unfold fl_round at h
      rw [if_neg hz] at h
      exact h.symm
    · rw [abs_le]
      constructor
      · apply le_round_half_even
        have := hle.1
        push_cast at this ⊢
        exact this
      · apply round_half_even_le
        exact hle.2
    · unfold fl_exp
      exact le_max_right _ _

/-- A `float` is a `double`. -/
theorem fl64_of_fl32 (z : ℚ) (h : fl32 z = z) : fl64 z = z := by
  obtain ⟨m, k, rfl, hm, hk⟩ := fl_round_repr 24 (-126) z h
  apply fl_round_exact
  · calc |m| ≤ 2 ^ 24 := hm
      _ < 2 ^ 53 := by norm_num
  · push_cast at hk ⊢
    omega

/-- An integer below `2 ^ 53` in magnitude is a `double`. -/
theorem fl64_int (m : Int) (hm : |m| < 2 ^ 53) : fl64 (m : ℚ) = m := by
  have := fl_round_exact 53 (-1022) m 0 hm (by norm_num)
  rw [pow2_zero, mul_one] at this
  exact this

theorem fl64_zero : fl64 0 = 0 := fl_round_zero _ _

theorem fl32_zero : fl32 0 = 0 := fl_round_zero _ _

theorem fl64_one : fl64 1 = 1 := by
  have := fl64_int 1 (by norm_num)
  simpa using this

/-- The product of a byte and a `float` is a `double`. -/
theorem fl64_byte_mul (c : Nat) (hc : c < 256) (z : ℚ) (h : fl32 z = z) :
    fl64 ((c : ℚ) * z) = (c : ℚ) * z := by
  obtain ⟨m, k, rfl, hm, hk⟩ := fl_round_repr 24 (-126) z h
  have e : (c : ℚ) * ((m : ℚ) * pow2 k) = (((c : Int) * m : Int) : ℚ) * pow2 k := by
    push_cast; ring
  rw [e]
  apply fl_round_exact
  · rw [abs_mul]
    have h1 : |(c : Int)| < 256 := by rw [abs_of_nonneg (by positivity)]; exact_mod_cast hc
    calc |(c : Int)| * |m| ≤ 256 * 2 ^ 24 :=
          mul_le_mul h1.le hm (abs_nonneg _) (by norm_num)
      _ < 2 ^ 53 := by norm_num
  · push_cast at hk ⊢
    omega

/-- A sum at most half a unit of the last place above 1 rounds to at most 1. -/
theorem fl64_le_one (y : ℚ) (h0 : 0 ≤ y) (h1 : y ≤ 1 + pow2 (-53)) : fl64 y ≤ 1 := by
  by_cases hy : y = 0
  · subst hy; rw [fl64_zero]; norm_num
  unfold fl64 fl_round
  rw [if_neg hy]
  have hp53 : pow2 (-53) < 1 := by
    have := pow2_lt_pow2 (by norm_num : (-53 : Int) < 0)
    rwa [pow2_zero] at this
  have hlt2 : |y| < pow2 1 := by
    rw [abs_of_nonneg h0, pow2_one]; linarith
  have hl : ilog2 y < 1 := ilog2_lt y hy 1 hlt2
  set e := fl_exp 53 (-1022) y with he
  have hpe := pow2_pos e
  have hge : ilog2 y - 52 ≤ e := by
    rw [he]; unfold fl_exp
    have := le_max_left (ilog2 y - ((53 : Nat) : Int) + 1) (-1022 - ((53 : Nat) : Int) + 1)
    push_cast at this ⊢
    omega
  have hee : e = ilog2 y - 52 ∨ e = -1074 := by
    rw [he]; unfold fl_exp
    rcases max_choice (ilog2 y - ((53 : Nat) : Int) + 1) (-1022 - ((53 : Nat) : Int) + 1)
      with h | h
    · left; rw [h]; push_cast; ring
    · right; rw [h]; push_cast
  have hele : e ≤ -52 := by omega
  obtain ⟨n, hn⟩ := Int.eq_ofNat_of_zero_le (by omega : 0 ≤ -e)
  have hen : e = -(n : Int) := by omega
  have hN : pow2 e * ((2 ^ n : Int) : ℚ) = 1 := by
    rw [← pow2_nat_int, ← pow2_add, hen]
    simp [pow2_zero]
  have goal : round_half_even (y / pow2 e) ≤ (2 : Int) ^ n := by
    by_cases hy1 : y ≤ 1
    · apply round_half_even_le
      rw [div_le_iff₀ hpe, mul_comm, hN]
      exact hy1
    · push_neg at hy1
      have hl0 : 0 ≤ ilog2 y := by
        apply le_ilog2 y hy 0
        rw [pow2_zero, abs_of_nonneg h0]; exact hy1.le
      have he52 : e = -52 := by omega
      have hn52 : n = 52 := by omega
      subst hn52
      apply round_half_even_le_even
      · norm_num
      · rw [div_le_iff₀ hpe, he52]
        have e1 : pow2 (-53) = 1 / 2 * pow2 (-52) := by
          have := pow2_succ (-53)
          norm_num at this
          rw [this]; ring
        have e2 : (((2 : Int) ^ 52 : Int) : ℚ) * pow2 (-52) = 1 := by
          rw [he52] at hN; rw [mul_comm]; exact hN
        rw [add_mul, e2, ← e1]
        exact h1
  have : ((round_half_even (y / pow2 e) : Int) : ℚ) ≤ (((2 : Int) ^ n : Int) : ℚ) := by
    exact_mod_cast goal
  calc ((round_half_even (y / pow2 e) : Int) : ℚ) * pow2 e
      ≤ (((2 : Int) ^ n : Int) : ℚ) * pow2 e := mul_le_mul_of_nonneg_right this hpe.le
    _ = 1 := by rw [mul_comm]; exact hN


/-! ## 32-bit integers -/

theorem wrap32_eq (x : Int) (h1 : -2147483648 ≤ x) (h2 : x < 2147483648) : wrap32 x = x := by
  unfold wrap32; omega

theorem wrap32_modEq (x : Int) : wrap32 x ≡ x [ZMOD 4294967296] := by
  unfold wrap32 Int.ModEq; omega

theorem wrap32_congr (x y : Int) (h : x ≡ y [ZMOD 4294967296]) : wrap32 x = wrap32 y := by
  unfold wrap32
  unfold Int.ModEq at h
  omega

/-- The `int` expression `a * b - c * d` holds the exact value modulo `2 ^ 32`. -/
theorem int_cross_wrap (a b c d a' b' c' d' : Int)
    (ha : a' ≡ a [ZMOD 4294967296]) (hb : b' ≡ b [ZMOD 4294967296])
    (hc : c' ≡ c [ZMOD 4294967296]) (hd : d' ≡ d [ZMOD 4294967296]) :
    int_sub (int_mul a' b') (int_mul c' d') = wrap32 (a * b - c * d) := by
  unfold int_sub int_mul
  apply wrap32_congr
  exact Int.ModEq.sub ((wrap32_modEq _).trans (Int.ModEq.mul ha hb))
    ((wrap32_modEq _).trans (Int.ModEq.mul hc hd))

theorem int_sub_modEq (a b : Int) : int_sub a b ≡ a - b [ZMOD 4294967296] := wrap32_modEq _

/-- The product of two differences of small coordinates. -/
theorem mul_small (a b : Int) (ha : -32768 < a ∧ a < 32768) (hb : -32768 < b ∧ b < 32768) :
    -1073741824 < a * b ∧ a * b < 1073741824 := by
  have h : |a * b| < 32768 * 32768 := by
    rw [abs_mul]
    apply mul_lt_mul'' _ _ (abs_nonneg a) (abs_nonneg b)
    · rw [abs_lt]; exact ⟨by omega, ha.2⟩
    · rw [abs_lt]; exact ⟨by omega, hb.2⟩
  rw [abs_lt] at h
  constructor <;> omega

/-- The code's denominator is the exact one modulo `2 ^ 32`. -/
theorem in_triangle_denom (A B C : Vec2i) :
    int_sub (int_mul (vec2i_sub B A).x (vec2i_sub C A).y)
        (int_mul (vec2i_sub B A).y (vec2i_sub C A).x) = wrap32 (tri_denom A B C) := by
  unfold tri_denom vec2i_sub
  exact int_cross_wrap _ _ _ _ _ _ _ _ (int_sub_modEq _ _) (int_sub_modEq _ _)
    (int_sub_modEq _ _) (int_sub_modEq _ _)

/-- For small coordinates the `int` arithmetic of `in_triangle` is exact. -/
theorem in_triangle_ints (A B C P : Vec2i) (hA : small_coord A) (hB : small_coord B)
    (hC : small_coord C) (hP : small_coord P) :
    (int_sub (int_mul (vec2i_sub B A).x (vec2i_sub C A).y)
        (int_mul (vec2i_sub B A).y (vec2i_sub C A).x) = tri_denom A B C ∧
      int_sub (int_mul (vec2i_sub C A).y (vec2i_sub P A).x)
        (int_mul (vec2i_sub C A).x (vec2i_sub P A).y)
          = (C.y - A.y) * (P.x - A.x) - (C.x - A.x) * (P.y - A.y) ∧
      int_sub (int_mul (vec2i_sub B A).x (vec2i_sub P A).y)
        (int_mul (vec2i_sub B A).y (vec2i_sub P A).x)
          = (B.x - A.x) * (P.y - A.y) - (B.y - A.y) * (P.x - A.x)) ∧
    (-2147483648 < tri_denom A B C ∧ tri_denom A B C < 2147483648) ∧
    (-2147483648 < (C.y - A.y) * (P.x - A.x) - (C.x - A.x) * (P.y - A.y) ∧
      (C.y - A.y) * (P.x - A.x) - (C.x - A.x) * (P.y - A.y) < 2147483648) ∧
    (-2147483648 < (B.x - A.x) * (P.y - A.y) - (B.y - A.y) * (P.x - A.x) ∧
      (B.x - A.x) * (P.y - A.y) - (B.y - A.y) * (P.x - A.x) < 2147483648) := by
  unfold small_coord at hA hB hC hP
  have k1 := mul_small (B.x - A.x) (C.y - A.y) (by omega) (by omega)
  have k2 := mul_small (B.y - A.y) (C.x - A.x) (by omega) (by omega)
  have k3 := mul_small (C.y - A.y) (P.x - A.x) (by omega) (by omega)
  have k4 := mul_small (C.x - A.x) (P.y - A.y) (by omega) (by omega)
  have k5 := mul_small (B.x - A.x) (P.y - A.y) (by omega) (by omega)
  have k6 := mul_small (B.y - A.y) (P.x - A.x) (by omega) (by omega)
  have e : ∀ a b c d : Int, int_sub (int_mul (int_sub a b) (int_sub c d))
      (int_mul (int_sub a b) (int_sub c d)) = 0 := by
    intro a b c d; unfold int_sub; rw [sub_self]; rfl
  have w : ∀ a b c d a' b' c' d' : Int,
      (-1073741824 < (a - a') * (b - b') ∧ (a - a') * (b - b') < 1073741824) →
      (-1073741824 < (c - c') * (d - d') ∧ (c - c') * (d - d') < 1073741824) →
      int_sub (int_mul (int_sub a a') (int_sub b b')) (int_mul (int_sub c c') (int_sub d d'))
        = (a - a') * (b - b') - (c - c') * (d - d') := by
    intro a b c d a' b' c' d' h1 h2
    rw [int_cross_wrap (a - a') (b - b') (c - c') (d - d') _ _ _ _ (int_sub_modEq _ _)
      (int_sub_modEq _ _) (int_sub_modEq _ _) (int_sub_modEq _ _)]
    apply wrap32_eq <;> omega
  unfold tri_denom vec2i_sub
  simp only
  refine ⟨⟨w _ _ _ _ _ _ _ _ k1 k2, w _ _ _ _ _ _ _ _ k3 k4, w _ _ _ _ _ _ _ _ k5 k6⟩,
    ⟨by omega, by omega⟩, ⟨by omega, by omega⟩, ⟨by omega, by omega⟩⟩

/-! ## The barycentric test `in_triangle` -/

/-- When the code's 32-bit denominator is zero both quotients are infinite or
NaN and the test `s >= 0 && t >= 0 && s + t <= 1` is false. -/
theorem in_triangle_wrapped_zero (A B C P : Vec2i) (h : wrap32 (tri_denom A B C) = 0) :
    (in_triangle A B C P).1 = false := by
  have hd := in_triangle_denom A B C
  rw [h] at hd
  unfold in_triangle Dbl.div_int
  simp only [hd, if_true]
  split_ifs <;> simp [Dbl.ge_zero, Dbl.add, Dbl.le_one]

/-- With a zero denominator both quotients are infinite or NaN and the test
`s >= 0 && t >= 0 && s + t <= 1` is false. -/
theorem in_triangle_degenerate (A B C P : Vec2i) (h : tri_denom A B C = 0) :
    (in_triangle A B C P).1 = false :=
  in_triangle_wrapped_zero A B C P (by rw [h]; rfl)

theorem pow2_neg53 : pow2 (-53) = 1 / 9007199254740992 := by
  rw [pow2_eq_zpow]; norm_num [zpow_neg]

theorem pow2_neg1022_le : pow2 (-1022) ≤ 1 / 2147483648 := by
  have h : pow2 (-1022) ≤ pow2 (-31) := pow2_le_pow2 (by norm_num)
  have e : pow2 (-31) = 1 / 2147483648 := by rw [pow2_eq_zpow]; norm_num [zpow_neg]
  rw [e] at h; exact h

/-- A non-zero quotient of two `int`s is a normal double. -/
theorem int_quot_normal (n d : Int) (hn : n ≠ 0) (hd : d ≠ 0)
    (hdb : -2147483648 < d ∧ d < 2147483648) : 1 / 2147483648 ≤ |(n : ℚ) / (d : ℚ)| := by
  have hd' : (0 : ℚ) < |(d : ℚ)| := abs_pos.mpr (by exact_mod_cast hd)
  have hn' : (1 : ℚ) ≤ |(n : ℚ)| := by
    rw [← Int.cast_abs]
    have : (1 : Int) ≤ |n| := Int.one_le_abs hn
    exact_mod_cast this
  have hd2 : |(d : ℚ)| ≤ 2147483648 := by
    rw [← Int.cast_abs]
    have : |d| ≤ 2147483648 := by rw [abs_le]; omega
    exact_mod_cast this
  rw [abs_div, le_div_iff₀ hd']
  linarith

/-- The double nearest a quotient of two `int`s: relative error `2 ^ -53`. -/
theorem fl64_quot_err (n d : Int) (hd : d ≠ 0) (hdb : -2147483648 < d ∧ d < 2147483648) :
    |fl64 ((n : ℚ) / (d : ℚ)) - (n : ℚ) / (d : ℚ)|
      ≤ |(n : ℚ) / (d : ℚ)| * (1 / 9007199254740992) := by
  by_cases hn : n = 0
  · subst hn; simp [fl64_zero]
  · have h := fl_round_rel 53 (-1022) ((n : ℚ) / (d : ℚ))
      (pow2_neg1022_le.trans (int_quot_normal n d hn hd hdb))
    have e : pow2 (-((53 : Nat) : Int)) = 1 / 9007199254740992 := pow2_neg53
    rw [e] at h
    exact h

/-- The double nearest a quotient of two `int`s has the sign of the quotient. -/
theorem fl64_quot_nonneg (n d : Int) (hd : d ≠ 0) (hdb : -2147483648 < d ∧ d < 2147483648) :
    0 ≤ fl64 ((n : ℚ) / (d : ℚ)) ↔ 0 ≤ (n : ℚ) / (d : ℚ) := by
  constructor
  · intro h
    by_contra hc
    push_neg at hc
    have he := fl64_quot_err n d hd hdb
    rw [abs_of_neg hc] at he
    have := (abs_le.mp he).2
    nlinarith
  · exact fl_round_nonneg _ _ _

/-- The test `s + t <= 1` on the rounded weights decides it for the exact ones. -/
theorem fl64_sum_le_one (ns nt d : Int) (hd : d ≠ 0) (hdb : -2147483648 < d ∧ d < 2147483648)
    (hs : 0 ≤ (ns : ℚ) / (d : ℚ)) (ht : 0 ≤ (nt : ℚ) / (d : ℚ)) :
    fl64 (fl64 ((ns : ℚ) / (d : ℚ)) + fl64 ((nt : ℚ) / (d : ℚ))) ≤ 1 ↔
      (ns : ℚ) / (d : ℚ) + (nt : ℚ) / (d : ℚ) ≤ 1 := by
  have es := fl64_quot_err ns d hd hdb
  have et := fl64_quot_err nt d hd hdb
  rw [abs_of_nonneg hs] at es
  rw [abs_of_nonneg ht] at et
  have es' := abs_le.mp es
  have et' := abs_le.mp et
  have hs' : 0 ≤ fl64 ((ns : ℚ) / (d : ℚ)) := fl_round_nonneg _ _ _ hs
  have ht' : 0 ≤ fl64 ((nt : ℚ) / (d : ℚ)) := fl_round_nonneg _ _ _ ht
  set s := (ns : ℚ) / (d : ℚ) with hsd
  set t := (nt : ℚ) / (d : ℚ) with htd
  constructor
  · intro h
    by_contra hc
    push_neg at hc
    -- the exact sum exceeds 1 by at least `1 / |d|`
    have hsum : s + t - 1 = ((ns + nt - d : Int) : ℚ) / (d : ℚ) := by
      have : (d : ℚ) ≠ 0 := by exact_mod_cast hd
      rw [hsd, htd]; push_cast; field_simp
    have hne : ns + nt - d ≠ 0 := by
      intro e
      rw [e] at hsum
      simp at hsum
      linarith
    have hq := int_quot_normal (ns + nt - d) d hne hd hdb
    rw [← hsum, abs_of_pos (by linarith)] at hq
    have hy : 1 ≤ fl64 s + fl64 t := by nlinarith
    have hrel := fl_round_rel 53 (-1022) (fl64 s + fl64 t) (by
      rw [abs_of_nonneg (by linarith)]
      exact (pow2_neg1022_le.trans (by norm_num)).trans hy)
    have e : pow2 (-((53 : Nat) : Int)) = 1 / 9007199254740992 := pow2_neg53
    rw [e, abs_of_nonneg (by linarith : (0 : ℚ) ≤ fl64 s + fl64 t)] at hrel
    have hrel' := (abs_le.mp hrel).1
    have hfl : fl_round 53 (-1022) (fl64 s + fl64 t) = fl64 (fl64 s + fl64 t) := rfl
    rw [hfl] at hrel'
    nlinarith
  · intro h
    apply fl64_le_one _ (by linarith)
    rw [pow2_neg53]
    nlinarith


/-- For small coordinates and a non-zero denominator `in_triangle` stores the
doubles nearest the exact weights, and its test is the test on the exact
weights. -/
theorem in_triangle_small (A B C P : Vec2i) (hA : small_coord A) (hB : small_coord B)
    (hC : small_coord C) (hP : small_coord P) (h : tri_denom A B C ≠ 0) :
    in_triangle A B C P =
      (decide (0 ≤ bary_s A B C P) && decide (0 ≤ bary_t A B C P) &&
        decide (bary_s A B C P + bary_t A B C P ≤ 1),
       Dbl.fin (fl64 (bary_s A B C P)), Dbl.fin (fl64 (bary_t A B C P))) := by
  obtain ⟨⟨e1, e2, e3⟩, hdb, _, _⟩ := in_triangle_ints A B C P hA hB hC hP
  have hs := fl64_quot_nonneg ((C.y - A.y) * (P.x - A.x) - (C.x - A.x) * (P.y - A.y))
    (tri_denom A B C) h hdb
  have ht := fl64_quot_nonneg ((B.x - A.x) * (P.y - A.y) - (B.y - A.y) * (P.x - A.x))
    (tri_denom A B C) h hdb
  have hst := fl64_sum_le_one ((C.y - A.y) * (P.x - A.x) - (C.x - A.x) * (P.y - A.y))
    ((B.x - A.x) * (P.y - A.y) - (B.y - A.y) * (P.x - A.x)) (tri_denom A B C) h hdb
  unfold in_triangle
  simp only
  rw [e1, e2, e3]
  unfold Dbl.div_int bary_s bary_t
  simp only [if_neg h, Dbl.ge_zero, Dbl.add, Dbl.le_one]
  congr 1
  by_cases a : 0 ≤ (((C.y - A.y) * (P.x - A.x) - (C.x - A.x) * (P.y - A.y) : Int) : ℚ)
      / (tri_denom A B C : ℚ)
  · by_cases b : 0 ≤ (((B.x - A.x) * (P.y - A.y) - (B.y - A.y) * (P.x - A.x) : Int) : ℚ)
        / (tri_denom A B C : ℚ)
    · have c := hst a b
      simp only [hs.mpr a, ht.mpr b, a, b, decide_True, Bool.true_and]
      by_cases d : (((C.y - A.y) * (P.x - A.x) - (C.x - A.x) * (P.y - A.y) : Int) : ℚ)
          / (tri_denom A B C : ℚ)
        + (((B.x - A.x) * (P.y - A.y) - (B.y - A.y) * (P.x - A.x) : Int) : ℚ)
          / (tri_denom A B C : ℚ) ≤ 1
      · simp only [d, c.mpr d, decide_True]
      · simp only [d, mt c.mp d, decide_False]
    · simp only [mt ht.mp b, b, decide_False, Bool.and_false, Bool.false_and]
  · simp only [mt hs.mp a, a, decide_False, Bool.false_and]

/-- Whenever `in_triangle` accepts, the weights it stored are finite doubles
`s, t >= 0` whose rounded sum is at most 1. -/
theorem in_triangle_true_fin (A B C P : Vec2i) (h : (in_triangle A B C P).1 = true) :
    ∃ s t : ℚ, in_triangle A B C P = (true, Dbl.fin s, Dbl.fin t) ∧
      0 ≤ s ∧ 0 ≤ t ∧ fl64 (s + t) ≤ 1 := by
  unfold in_triangle at h ⊢
  simp only at h ⊢
  generalize Dbl.div_int _ _ = s at h ⊢
  generalize Dbl.div_int _ _ = t at h ⊢
  cases s <;> cases t <;> simp [Dbl.ge_zero, Dbl.add, Dbl.le_one] at h ⊢
  exact ⟨_, _, ⟨h, rfl, rfl⟩, h.1.1, h.1.2, h.2⟩

/-- The weights a successful `in_triangle` stored satisfy its test. -/
theorem in_triangle_accept (A B C P : Vec2i) (s t : ℚ)
    (h : in_triangle A B C P = (true, Dbl.fin s, Dbl.fin t)) :
    0 ≤ s ∧ 0 ≤ t ∧ fl64 (s + t) ≤ 1 := by
  obtain ⟨s', t', e, h1, h2, h3⟩ := in_triangle_true_fin A B C P (by rw [h])
  rw [h] at e
  simp only [Prod.mk.injEq, Dbl.fin.injEq, true_and] at e
  obtain ⟨rfl, rfl⟩ := e
  exact ⟨h1, h2, h3⟩

/-- The weights of a point of the closed triangle are those `in_triangle`
computes. -/
theorem in_closed_triangle_unique (A B C P : Vec2i) (s t : ℚ) (hd : tri_denom A B C ≠ 0)
    (h : in_closed_triangle A B C P s t) : s = bary_s A B C P ∧ t = bary_t A B C P := by
  obtain ⟨_, _, _, hx, hy⟩ := h
  have hd' : (tri_denom A B C : ℚ) ≠ 0 := by exact_mod_cast hd
  have hdq : (tri_denom A B C : ℚ)
      = ((B.x : ℚ) - A.x) * ((C.y : ℚ) - A.y) - ((B.y : ℚ) - A.y) * ((C.x : ℚ) - A.x) := by
    unfold tri_denom; push_cast; ring
  unfold bary_s bary_t
  constructor
  · rw [eq_div_iff hd', hdq]
    push_cast
    linear_combination (-((C.y : ℚ) - A.y)) * hx + ((C.x : ℚ) - A.x) * hy
  · rw [eq_div_iff hd', hdq]
    push_cast
    linear_combination (-((B.x : ℚ) - A.x)) * hy + ((B.y : ℚ) - A.y) * hx

/-- The weights `in_triangle` computes do express the point. -/
theorem bary_point (A B C P : Vec2i) (hd : tri_denom A B C ≠ 0) :
    (P.x : ℚ) = (A.x : ℚ) + bary_s A B C P * ((B.x : ℚ) - (A.x : ℚ))
        + bary_t A B C P * ((C.x : ℚ) - (A.x : ℚ)) ∧
    (P.y : ℚ) = (A.y : ℚ) + bary_s A B C P * ((B.y : ℚ) - (A.y : ℚ))
        + bary_t A B C P * ((C.y : ℚ) - (A.y : ℚ)) := by
  have hd' : (tri_denom A B C : ℚ) ≠ 0 := by exact_mod_cast hd
  have hdq : (tri_denom A B C : ℚ)
      = ((B.x : ℚ) - A.x) * ((C.y : ℚ) - A.y) - ((B.y : ℚ) - A.y) * ((C.x : ℚ) - A.x) := by
    unfold tri_denom; push_cast; ring
  unfold bary_s bary_t
  constructor
  · field_simp
    rw [hdq]; ring
  · field_simp
    rw [hdq]; ring

/-- A point of the closed triangle lies in the bounding box of the vertices. -/
theorem in_closed_triangle_bbox (A B C P : Vec2i) (s t : ℚ)
    (h : in_closed_triangle A B C P s t) :
    (min A.x (min B.x C.x) ≤ P.x ∧ P.x ≤ max A.x (max B.x C.x)) ∧
    (min A.y (min B.y C.y) ≤ P.y ∧ P.y ≤ max A.y (max B.y C.y)) := by
  obtain ⟨hs, ht, hst, hx, hy⟩ := h
  have hu : 0 ≤ 1 - s - t := by linarith
  have key : ∀ (a b c p m : Int), (p : ℚ) = (a : ℚ) + s * ((b : ℚ) - a) + t * ((c : ℚ) - a) →
      (m ≤ a → m ≤ b → m ≤ c → m ≤ p) ∧ (a ≤ m → b ≤ m → c ≤ m → p ≤ m) := by
    intro a b c p m hp
    constructor
    · intro h1 h2 h3
      have h1' : (0 : ℚ) ≤ (a : ℚ) - m := by exact_mod_cast sub_nonneg.mpr h1
      have h2' : (0 : ℚ) ≤ (b : ℚ) - m := by exact_mod_cast sub_nonneg.mpr h2
      have h3' : (0 : ℚ) ≤ (c : ℚ) - m := by exact_mod_cast sub_nonneg.mpr h3
      have : (0 : ℚ) ≤ (p : ℚ) - m := by
        have e : (p : ℚ) - m = (1 - s - t) * ((a : ℚ) - m) + s * ((b : ℚ) - m)
            + t * ((c : ℚ) - m) := by rw [hp]; ring
        rw [e]
        have := mul_nonneg hu h1'
        have := mul_nonneg hs h2'
        have := mul_nonneg ht h3'
        linarith
      exact_mod_cast sub_nonneg.mp this
    · intro h1 h2 h3
      have h1' : (0 : ℚ) ≤ (m : ℚ) - a := by exact_mod_cast sub_nonneg.mpr h1
      have h2' : (0 : ℚ) ≤ (m : ℚ) - b := by exact_mod_cast sub_nonneg.mpr h2
      have h3' : (0 : ℚ) ≤ (m : ℚ) - c := by exact_mod_cast sub_nonneg.mpr h3
      have : (0 : ℚ) ≤ (m : ℚ) - p := by
        have e : (m : ℚ) - p = (1 - s - t) * ((m : ℚ) - a) + s * ((m : ℚ) - b)
            + t * ((m : ℚ) - c) := by rw [hp]; ring
        rw [e]
        have := mul_nonneg hu h1'
        have := mul_nonneg hs h2'
        have := mul_nonneg ht h3'
        linarith
      exact_mod_cast sub_nonneg.mp this
  have kx := key A.x B.x C.x P.x
  have ky := key A.y B.y C.y P.y
  refine ⟨⟨?_, ?_⟩, ⟨?_, ?_⟩⟩
  · exact (kx _ hx).1 (min_le_left _ _) ((min_le_right _ _).trans (min_le_left _ _))
      ((min_le_right _ _).trans (min_le_right _ _))
  · exact (kx _ hx).2 (le_max_left _ _) ((le_max_left _ _).trans (le_max_right _ _))
      ((le_max_right _ _).trans (le_max_right _ _))
  · exact (ky _ hy).1 (min_le_left _ _) ((min_le_right _ _).trans (min_le_left _ _))
      ((min_le_right _ _).trans (min_le_right _ _))
  · exact (ky _ hy).2 (le_max_left _ _) ((le_max_left _ _).trans (le_max_right _ _))
      ((le_max_right _ _).trans (le_max_right _ _))

theorem fill_verdict_degenerate (w : Int) (zb : ZBuffer) (p0 p1 p2 : Vec3i) (i j : Int)
    (hd : tri_denom (xy p0) (xy p1) (xy p2) = 0) :
    fill_verdict w zb p0 p1 p2 i j = none := by
  have h := in_triangle_degenerate (xy p0) (xy p1) (xy p2) (vec2i_new i j) hd
  unfold fill_verdict
  split
  · rename_i heq
    rw [heq] at h
    cases h
  · rfl


/-- The verdict at a pixel of small coordinates for a triangle of small
coordinates and non-zero area: the test on the exact weights, and the depth
test against the depth computed from the rounded weights. -/
theorem fill_verdict_small (w : Int) (zb : ZBuffer) (p0 p1 p2 : Vec3i) (i j : Int)
    (h0 : small_coord (xy p0)) (h1 : small_coord (xy p1)) (h2 : small_coord (xy p2))
    (hP : small_coord (vec2i_new i j))
    (hd : tri_denom (xy p0) (xy p1) (xy p2) ≠ 0) :
    fill_verdict w zb p0 p1 p2 i j =
      if (0 ≤ bary_s (xy p0) (xy p1) (xy p2) (vec2i_new i j) ∧
          0 ≤ bary_t (xy p0) (xy p1) (xy p2) (vec2i_new i j) ∧
          bary_s (xy p0) (xy p1) (xy p2) (vec2i_new i j)
            + bary_t (xy p0) (xy p1) (xy p2) (vec2i_new i j) ≤ 1) ∧
          zb (j * w + i) < interp_depth p0 p1 p2
            (fl64 (bary_s (xy p0) (xy p1) (xy p2) (vec2i_new i j)))
            (fl64 (bary_t (xy p0) (xy p1) (xy p2) (vec2i_new i j)))
      then some (fl64 (bary_s (xy p0) (xy p1) (xy p2) (vec2i_new i j)),
                 fl64 (bary_t (xy p0) (xy p1) (xy p2) (vec2i_new i j)))
      else none := by
  unfold fill_verdict
  rw [in_triangle_small _ _ _ _ h0 h1 h2 hP hd]
  by_cases h : 0 ≤ bary_s (xy p0) (xy p1) (xy p2) (vec2i_new i j) ∧
          0 ≤ bary_t (xy p0) (xy p1) (xy p2) (vec2i_new i j) ∧
          bary_s (xy p0) (xy p1) (xy p2) (vec2i_new i j)
            + bary_t (xy p0) (xy p1) (xy p2) (vec2i_new i j) ≤ 1
  · have hb : (decide (0 ≤ bary_s (xy p0) (xy p1) (xy p2) (vec2i_new i j)) &&
        decide (0 ≤ bary_t (xy p0) (xy p1) (xy p2) (vec2i_new i j)) &&
        decide (bary_s (xy p0) (xy p1) (xy p2) (vec2i_new i j)
            + bary_t (xy p0) (xy p1) (xy p2) (vec2i_new i j) ≤ 1)) = true := by
      simp [h.1, h.2.1, h.2.2]
    rw [hb]
    simp only [h, and_self, true_and]
  · have hb : (decide (0 ≤ bary_s (xy p0) (xy p1) (xy p2) (vec2i_new i j)) &&
        decide (0 ≤ bary_t (xy p0) (xy p1) (xy p2) (vec2i_new i j)) &&
        decide (bary_s (xy p0) (xy p1) (xy p2) (vec2i_new i j)
            + bary_t (xy p0) (xy p1) (xy p2) (vec2i_new i j) ≤ 1)) = false := by
      rw [Bool.eq_false_iff]
      intro hc
      apply h
      simpa [and_assoc] using hc
    rw [hb]
    simp only [h, false_and, if_false]

/-- A pixel of an image of at most `2 ^ 14` columns and rows has small
coordinates. -/
theorem small_coord_of_bounds (image : Image) (i j : Int) (hw : image.width ≤ 16384)
    (hh : image.height ≤ 16384)
    (hb : 0 ≤ i ∧ i < image.width ∧ 0 ≤ j ∧ j < image.height) :
    small_coord (vec2i_new i j) := by
  unfold small_coord vec2i_new
  simp only
  omega

theorem foldlM_fixed {β σ : Type} (f : σ → β → Option σ) (s : σ) (L : List β)
    (h : ∀ b ∈ L, f s b = some s) : L.foldlM f s = some s := by
  induction L with
  | nil => rfl
  | cons b L ih =>
    rw [List.foldlM_cons, h b (List.mem_cons_self _ _)]
    exact ih (fun c hc => h c (List.mem_cons_of_mem _ hc))

/-- C6: a triangle with collinear vertices (`denom == 0`, horizontal or not):
`in_triangle` rejects every pixel (the quotients by zero are infinite or NaN
and fail the test without a trap), no pixel is drawn, and `gfx_fill_triangle`
returns with the image and the depth buffer unchanged. -/
theorem gfx_fill_triangle_degenerate (image : Image) (p0 p1 p2 : Vec3i) (c0 c1 c2 : Color)
    (zbuffer : ZBuffer) (I : ℚ) (hd : tri_denom (xy p0) (xy p1) (xy p2) = 0) :
    (∀ P, (in_triangle (xy p0) (xy p1) (xy p2) P).1 = false) ∧
    (∀ i j, fill_hit image zbuffer p0 p1 p2 i j = false) ∧
    gfx_fill_triangle image p0 p1 p2 c0 c1 c2 zbuffer I = some (image, zbuffer) := by
  refine ⟨fun P => in_triangle_degenerate _ _ _ P hd, ?_, ?_⟩
  · intro i j
    unfold fill_hit
    rw [fill_verdict_degenerate _ _ _ _ _ _ _ hd]
    simp
  · rw [gfx_fill_triangle_eq]
    apply foldlM_fixed
    intro p _
    rw [fill_pixel_eq, fill_verdict_degenerate _ _ _ _ _ _ _ hd]

/-- C6 on the diagonal `(0,0)`, `(2,2)`, `(4,4)` of a 6 by 6 image. -/
theorem gfx_fill_triangle_degenerate_witness :
    gfx_fill_triangle ⟨6, 6, fun _ _ => ⟨0, 0, 0, 0⟩⟩ ⟨0, 0, 1⟩ ⟨2, 2, 1⟩ ⟨4, 4, 1⟩
        ⟨255, 0, 0, 255⟩ ⟨0, 255, 0, 255⟩ ⟨0, 0, 255, 255⟩ (fun _ => 0) 1
      = some (⟨6, 6, fun _ _ => ⟨0, 0, 0, 0⟩⟩, fun _ => 0) :=
  (gfx_fill_triangle_degenerate ⟨6, 6, fun _ _ => ⟨0, 0, 0, 0⟩⟩ ⟨0, 0, 1⟩ ⟨2, 2, 1⟩ ⟨4, 4, 1⟩
    ⟨255, 0, 0, 255⟩ ⟨0, 255, 0, 255⟩ ⟨0, 0, 255, 255⟩ (fun _ => 0) 1 (by decide)).2.2


/-- For a triangle of small coordinates and non-zero area in an image of at
most `2 ^ 14` columns and rows, the pixel `(i, j)` is drawn exactly when it is
in the image, in the closed triangle, and its stored depth is strictly less
than the depth computed from the rounded weights. -/
theorem fill_hit_iff (image : Image) (zbuffer : ZBuffer) (p0 p1 p2 : Vec3i) (i j : Int)
    (h0 : small_coord (xy p0)) (h1 : small_coord (xy p1)) (h2 : small_coord (xy p2))
    (hw : image.width ≤ 16384) (hh : image.height ≤ 16384)
    (hd : tri_denom (xy p0) (xy p1) (xy p2) ≠ 0) :
    fill_hit image zbuffer p0 p1 p2 i j = true ↔
      (0 ≤ i ∧ i < image.width ∧ 0 ≤ j ∧ j < image.height) ∧
      ∃ s t : ℚ, in_closed_triangle (xy p0) (xy p1) (xy p2) (vec2i_new i j) s t ∧
        zbuffer (j * image.width + i) < interp_depth p0 p1 p2 (fl64 s) (fl64 t) := by
  unfold fill_hit
  rw [Bool.and_eq_true, decide_eq_true_iff]
  have hp := bary_point (xy p0) (xy p1) (xy p2) (vec2i_new i j) hd
  constructor
  · rintro ⟨hm, hv⟩
    have hb := fill_scan_in_bounds image p0 p1 p2 i j hm
    rw [fill_verdict_small _ _ _ _ _ _ _ h0 h1 h2
      (small_coord_of_bounds image i j hw hh hb) hd] at hv
    refine ⟨hb, ?_⟩
    split_ifs at hv with hc
    · exact ⟨_, _, ⟨hc.1.1, hc.1.2.1, hc.1.2.2, hp.1, hp.2⟩, hc.2⟩
    · cases hv
  · rintro ⟨hb, s, t, hin, hz⟩
    rw [fill_verdict_small _ _ _ _ _ _ _ h0 h1 h2
      (small_coord_of_bounds image i j hw hh hb) hd]
    obtain ⟨rfl, rfl⟩ := in_closed_triangle_unique _ _ _ _ s t hd hin
    have hbox := in_closed_triangle_bbox _ _ _ _ _ _ hin
    refine ⟨fill_scan_of_bbox image p0 p1 p2 i j hb hbox.1 hbox.2, ?_⟩
    rw [if_pos ⟨⟨hin.1, hin.2.1, hin.2.2.1⟩, hz⟩]
    rfl

/-- What `fill_hit = false` says about the two ways a pixel is left alone. -/
theorem fill_hit_false (image : Image) (zbuffer : ZBuffer) (p0 p1 p2 : Vec3i) (i j : Int)
    (h : fill_hit image zbuffer p0 p1 p2 i j = false) :
    vec2i_new i j ∉ fill_scan image p0 p1 p2 ∨
      fill_verdict image.width zbuffer p0 p1 p2 i j = none := by
  unfold fill_hit at h
  rw [Bool.and_eq_false_iff] at h
  rcases h with h | h
  · left; simpa using h
  · right
    cases hv : fill_verdict image.width zbuffer p0 p1 p2 i j with
    | none => rfl
    | some v => rw [hv] at h; cases h

/-- What `fill_hit = true` says. -/
theorem fill_hit_true (image : Image) (zbuffer : ZBuffer) (p0 p1 p2 : Vec3i) (i j : Int)
    (h : fill_hit image zbuffer p0 p1 p2 i j = true) :
    vec2i_new i j ∈ fill_scan image p0 p1 p2 ∧
      ∃ s t, fill_verdict image.width zbuffer p0 p1 p2 i j = some (s, t) := by
  unfold fill_hit at h
  rw [Bool.and_eq_true, decide_eq_true_iff] at h
  refine ⟨h.1, ?_⟩
  cases hv : fill_verdict image.width zbuffer p0 p1 p2 i j with
  | none => rw [hv] at h; cases h.2
  | some v => exact ⟨v.1, v.2, rfl⟩


/-- The final state of `gfx_fill_triangle` for a triangle of small coordinates
and non-zero area, in terms of the closed triangle and the depth test on the
computed depth. -/
theorem gfx_fill_triangle_nondeg (image : Image) (p0 p1 p2 : Vec3i) (c0 c1 c2 : Color)
    (zbuffer : ZBuffer) (I : ℚ)
    (h0 : small_coord (xy p0)) (h1 : small_coord (xy p1)) (h2 : small_coord (xy p2))
    (hw : image.width ≤ 16384) (hh : image.height ≤ 16384)
    (hd : tri_denom (xy p0) (xy p1) (xy p2) ≠ 0) :
    ∃ im zb, gfx_fill_triangle image p0 p1 p2 c0 c1 c2 zbuffer I = some (im, zb) ∧
      im.width = image.width ∧ im.height = image.height ∧
      (∀ i j : Int,
        (fill_hit image zbuffer p0 p1 p2 i j = true ↔
          (0 ≤ i ∧ i < image.width ∧ 0 ≤ j ∧ j < image.height) ∧
          ∃ s t : ℚ, in_closed_triangle (xy p0) (xy p1) (xy p2) (vec2i_new i j) s t ∧
            zbuffer (j * image.width + i) < interp_depth p0 p1 p2 (fl64 s) (fl64 t)) ∧
        (∀ s t : ℚ, (0 ≤ i ∧ i < image.width ∧ 0 ≤ j ∧ j < image.height) →
          in_closed_triangle (xy p0) (xy p1) (xy p2) (vec2i_new i j) s t →
          (zbuffer (j * image.width + i) < interp_depth p0 p1 p2 (fl64 s) (fl64 t) →
            im.pix j i = interp_color c0 c1 c2 (fl64 s) (fl64 t) I ∧
            zb (j * image.width + i) = interp_depth p0 p1 p2 (fl64 s) (fl64 t)) ∧
          (¬ zbuffer (j * image.width + i) < interp_depth p0 p1 p2 (fl64 s) (fl64 t) →
            im.pix j i = image.pix j i ∧
            zb (j * image.width + i) = zbuffer (j * image.width + i))) ∧
        (fill_hit image zbuffer p0 p1 p2 i j = false →
          im.pix j i = image.pix j i ∧
          ((0 ≤ i ∧ i < image.width ∧ 0 ≤ j ∧ j < image.height) →
            zb (j * image.width + i) = zbuffer (j * image.width + i)))) ∧
      (∀ k, (k < 0 ∨ image.width * image.height ≤ k) → zb k = zbuffer k) := by
  obtain ⟨im, zb, e1, ew, eh, h4, h5, h6, h7, _⟩ :=
    gfx_fill_triangle_spec image p0 p1 p2 c0 c1 c2 zbuffer I
  have hfalse : ∀ i j, fill_hit image zbuffer p0 p1 p2 i j = false →
      im.pix j i = image.pix j i ∧
      ((0 ≤ i ∧ i < image.width ∧ 0 ≤ j ∧ j < image.height) →
        zb (j * image.width + i) = zbuffer (j * image.width + i)) := by
    intro i j hf
    have := fill_hit_false image zbuffer p0 p1 p2 i j hf
    exact ⟨h5 i j this, fun hb => h6 i j hb this⟩
  refine ⟨im, zb, e1, ew, eh, ?_, h7⟩
  intro i j
  refine ⟨fill_hit_iff image zbuffer p0 p1 p2 i j h0 h1 h2 hw hh hd, ?_, hfalse i j⟩
  intro s t hb hin
  obtain ⟨es, et⟩ := in_closed_triangle_unique _ _ _ _ s t hd hin
  have hP := small_coord_of_bounds image i j hw hh hb
  constructor
  · intro hz
    have hhit : fill_hit image zbuffer p0 p1 p2 i j = true :=
      (fill_hit_iff image zbuffer p0 p1 p2 i j h0 h1 h2 hw hh hd).mpr ⟨hb, s, t, hin, hz⟩
    obtain ⟨hm, s', t', hv⟩ := fill_hit_true image zbuffer p0 p1 p2 i j hhit
    have hv' := hv
    rw [fill_verdict_small _ _ _ _ _ _ _ h0 h1 h2 hP hd] at hv'
    split_ifs at hv' with hc
    · simp only [Option.some.injEq, Prod.mk.injEq] at hv'
      rw [← es, ← et] at hv'
      obtain ⟨rfl, rfl⟩ := hv'
      exact h4 i j _ _ hm hv
  · intro hz
    have hhit : fill_hit image zbuffer p0 p1 p2 i j = false := by
      rw [Bool.eq_false_iff]
      intro hc
      obtain ⟨_, s', t', hin', hz'⟩ :=
        (fill_hit_iff image zbuffer p0 p1 p2 i j h0 h1 h2 hw hh hd).mp hc
      obtain ⟨es', et'⟩ := in_closed_triangle_unique _ _ _ _ s' t' hd hin'
      rw [es', et', ← es, ← et] at hz'
      exact hz hz'
    exact ⟨(hfalse i j hhit).1, (hfalse i j hhit).2 hb⟩


/-- C1 fails as stated: the depth the source compares and stores is the
`float` computed in double arithmetic, not the exact `z`.  On the triangle
`(0,0)`, `(3,0)`, `(0,3)` of depths 1, 3, 1 in a 4 by 4 image the pixel
`(1, 1)` has exact weights `s = t = 1/3` and exact depth `5/3`.  Over the
stored depth `13981013/8388608 < 5/3` the exact depth exceeds the stored one,
but the computed depth is that same `float`, the test `stored < z` fails and
the pixel and its depth cell are left alone; over the stored depth 0 the pixel is drawn
and the depth cell receives `13981013/8388608`, not `5/3`. -/
theorem gfx_fill_triangle_contract_inexact :
    in_closed_triangle (xy ⟨0, 0, 1⟩) (xy ⟨3, 0, 3⟩) (xy ⟨0, 3, 1⟩) (vec2i_new 1 1)
        (1 / 3) (1 / 3) ∧
    exact_depth ⟨0, 0, 1⟩ ⟨3, 0, 3⟩ ⟨0, 3, 1⟩ (1 / 3) (1 / 3) = 5 / 3 ∧
    (13981013 / 8388608 : ℚ) < 5 / 3 ∧
    fill_hit ⟨4, 4, fun _ _ => ⟨0, 0, 0, 0⟩⟩ (fun _ => 13981013 / 8388608)
        ⟨0, 0, 1⟩ ⟨3, 0, 3⟩ ⟨0, 3, 1⟩ 1 1 = false ∧
    (gfx_fill_triangle ⟨4, 4, fun _ _ => ⟨0, 0, 0, 0⟩⟩ ⟨0, 0, 1⟩ ⟨3, 0, 3⟩ ⟨0, 3, 1⟩
        ⟨255, 0, 0, 255⟩ ⟨0, 255, 0, 255⟩ ⟨0, 0, 255, 255⟩ (fun _ => 13981013 / 8388608) 1).map
      (fun st => (st.1.pix 1 1, st.2 (1 * 4 + 1)))
        = some (⟨0, 0, 0, 0⟩, 13981013 / 8388608) ∧
    (gfx_fill_triangle ⟨4, 4, fun _ _ => ⟨0, 0, 0, 0⟩⟩ ⟨0, 0, 1⟩ ⟨3, 0, 3⟩ ⟨0, 3, 1⟩
        ⟨255, 0, 0, 255⟩ ⟨0, 255, 0, 255⟩ ⟨0, 0, 255, 255⟩ (fun _ => 0) 1).map
      (fun st => st.2 (1 * 4 + 1)) = some (13981013 / 8388608) := by
  refine ⟨?_, ?_, ?_, ?_, ?_, ?_⟩
  · unfold in_closed_triangle xy vec2i_new; norm_num
  · unfold exact_depth; norm_num
  · norm_num
  · decide!
  · decide!
  · decide!

/-- C1 as amended: for a triangle with `denom != 0` and coordinates below
`2 ^ 14` in magnitude, in an image of at most `2 ^ 14` columns and rows,
`gfx_fill_triangle` succeeds; the pixel `(i, j)` is drawn and its depth cell
`j * width + i` overwritten exactly when `0 <= i < width`, `0 <= j < height`,
the pixel lies in the closed triangle (`P = A + s * AB + t * AC` with exact
`s, t >= 0`, `s + t <= 1`) and the stored depth is strictly less than the depth
`z` the code computes (`interp_depth` at the doubles nearest `s` and `t`: the
expression `(1 - s - t) * z0 + s * z1 + t * z2` in double arithmetic, narrowed
to `float`); such a pixel ends with the computed colour and that depth; a pixel
of the triangle whose stored depth is not less than the computed `z` (equal
included), and every pixel that is not drawn, keeps its colour and depth;
cells outside `[0, width * height)` are unchanged. -/
theorem gfx_fill_triangle_contract (image : Image) (p0 p1 p2 : Vec3i) (c0 c1 c2 : Color)
    (zbuffer : ZBuffer) (I : ℚ)
    (h0 : small_coord (xy p0)) (h1 : small_coord (xy p1)) (h2 : small_coord (xy p2))
    (hw : image.width ≤ 16384) (hh : image.height ≤ 16384)
    (hd : tri_denom (xy p0) (xy p1) (xy p2) ≠ 0) :
    ∃ im zb, gfx_fill_triangle image p0 p1 p2 c0 c1 c2 zbuffer I = some (im, zb) ∧
      im.width = image.width ∧ im.height = image.height ∧
      (∀ i j : Int,
        (fill_hit image zbuffer p0 p1 p2 i j = true ↔
          (0 ≤ i ∧ i < image.width ∧ 0 ≤ j ∧ j < image.height) ∧
          ∃ s t : ℚ, in_closed_triangle (xy p0) (xy p1) (xy p2) (vec2i_new i j) s t ∧
            zbuffer (j * image.width + i) < interp_depth p0 p1 p2 (fl64 s) (fl64 t)) ∧
        (∀ s t : ℚ, (0 ≤ i ∧ i < image.width ∧ 0 ≤ j ∧ j < image.height) →
          in_closed_triangle (xy p0) (xy p1) (xy p2) (vec2i_new i j) s t →
          (zbuffer (j * image.width + i) < interp_depth p0 p1 p2 (fl64 s) (fl64 t) →
            im.pix j i = interp_color c0 c1 c2 (fl64 s) (fl64 t) I ∧
            zb (j * image.width + i) = interp_depth p0 p1 p2 (fl64 s) (fl64 t)) ∧
          (¬ zbuffer (j * image.width + i) < interp_depth p0 p1 p2 (fl64 s) (fl64 t) →
            im.pix j i = image.pix j i ∧
            zb (j * image.width + i) = zbuffer (j * image.width + i))) ∧
        (fill_hit image zbuffer p0 p1 p2 i j = false →
          im.pix j i = image.pix j i ∧
          ((0 ≤ i ∧ i < image.width ∧ 0 ≤ j ∧ j < image.height) →
            zb (j * image.width + i) = zbuffer (j * image.width + i)))) ∧
      (∀ k, (k < 0 ∨ image.width * image.height ≤ k) → zb k = zbuffer k) :=
  gfx_fill_triangle_nondeg image p0 p1 p2 c0 c1 c2 zbuffer I h0 h1 h2 hw hh hd

/-- C1 as amended, on the triangle `(0,0)`, `(3,0)`, `(0,3)` of depths 1, 3, 1
drawn into a 4 by 4 image over depth 0: the pixel `(1, 1)`, of exact weights
`s = t = 1/3`, takes the computed depth `13981013/8388608`. -/
theorem gfx_fill_triangle_contract_witness :
    ∃ im zb, gfx_fill_triangle ⟨4, 4, fun _ _ => ⟨0, 0, 0, 0⟩⟩ ⟨0, 0, 1⟩ ⟨3, 0, 3⟩ ⟨0, 3, 1⟩
        ⟨255, 0, 0, 255⟩ ⟨0, 255, 0, 255⟩ ⟨0, 0, 255, 255⟩ (fun _ => 0) 1 = some (im, zb) ∧
      zb (1 * 4 + 1) = 13981013 / 8388608 := by
  obtain ⟨im, zb, h1, _, _, h2, _⟩ := gfx_fill_triangle_contract ⟨4, 4, fun _ _ => ⟨0, 0, 0, 0⟩⟩
    ⟨0, 0, 1⟩ ⟨3, 0, 3⟩ ⟨0, 3, 1⟩ ⟨255, 0, 0, 255⟩ ⟨0, 255, 0, 255⟩ ⟨0, 0, 255, 255⟩
    (fun _ => 0) 1 (by decide) (by decide) (by decide) (by decide) (by decide) (by decide)
  refine ⟨im, zb, h1, ?_⟩
  have h := ((h2 1 1).2.1 (1 / 3) (1 / 3) (by decide)
    (by unfold in_closed_triangle xy vec2i_new; norm_num)).1 (by decide!)
  rw [h.2]
  decide!

/-- The result of `gfx_fill_triangle` at one pixel of the closed triangle. -/
theorem fill_at (image : Image) (p0 p1 p2 : Vec3i) (c0 c1 c2 : Color) (zbuffer : ZBuffer)
    (I : ℚ) (h0 : small_coord (xy p0)) (h1 : small_coord (xy p1)) (h2 : small_coord (xy p2))
    (hw : image.width ≤ 16384) (hh : image.height ≤ 16384)
    (hd : tri_denom (xy p0) (xy p1) (xy p2) ≠ 0) (i j : Int) (s t : ℚ)
    (hb : 0 ≤ i ∧ i < image.width ∧ 0 ≤ j ∧ j < image.height)
    (hin : in_closed_triangle (xy p0) (xy p1) (xy p2) (vec2i_new i j) s t) :
    ∃ im zb, gfx_fill_triangle image p0 p1 p2 c0 c1 c2 zbuffer I = some (im, zb) ∧
      im.width = image.width ∧ im.height = image.height ∧
      (zbuffer (j * image.width + i) < interp_depth p0 p1 p2 (fl64 s) (fl64 t) →
        im.pix j i = interp_color c0 c1 c2 (fl64 s) (fl64 t) I ∧
        zb (j * image.width + i) = interp_depth p0 p1 p2 (fl64 s) (fl64 t)) ∧
      (¬ zbuffer (j * image.width + i) < interp_depth p0 p1 p2 (fl64 s) (fl64 t) →
        im.pix j i = image.pix j i ∧
        zb (j * image.width + i) = zbuffer (j * image.width + i)) := by
  obtain ⟨im, zb, e1, ew, eh, e2, _⟩ :=
    gfx_fill_triangle_nondeg image p0 p1 p2 c0 c1 c2 zbuffer I h0 h1 h2 hw hh hd
  exact ⟨im, zb, e1, ew, eh, ((e2 i j).2.1 s t hb hin).1, ((e2 i j).2.1 s t hb hin).2⟩

/-- C3 fails as stated: depths that differ in exact arithmetic can be equal as
computed.  The triangle `(0,0)`, `(3,0)`, `(0,3)` drawn red at depth 1 and
drawn green at depths `1`, `1 + 2 ^ -23`, `1`, into a 4 by 4 image over depth
0: at the pixel `(1, 1)` the exact depths are `1` and `1 + 2 ^ -23 / 3`, both
above the stored depth, but both computed depths are the `float` 1, the second
triangle drawn fails the test `stored < z`, and the pixel keeps the colour of
the triangle drawn first: red in one order, green in the other. -/
theorem gfx_fill_triangle_depth_order_tie :
    in_closed_triangle (xy ⟨0, 0, 1⟩) (xy ⟨3, 0, 1⟩) (xy ⟨0, 3, 1⟩) (vec2i_new 1 1)
        (1 / 3) (1 / 3) ∧
    exact_depth ⟨0, 0, 1⟩ ⟨3, 0, 1⟩ ⟨0, 3, 1⟩ (1 / 3) (1 / 3)
      < exact_depth ⟨0, 0, 1⟩ ⟨3, 0, 8388609 / 8388608⟩ ⟨0, 3, 1⟩ (1 / 3) (1 / 3) ∧
    (0 : ℚ) < exact_depth ⟨0, 0, 1⟩ ⟨3, 0, 8388609 / 8388608⟩ ⟨0, 3, 1⟩ (1 / 3) (1 / 3) ∧
    ((gfx_fill_triangle ⟨4, 4, fun _ _ => ⟨0, 0, 0, 0⟩⟩ ⟨0, 0, 1⟩ ⟨3, 0, 1⟩ ⟨0, 3, 1⟩
          ⟨255, 0, 0, 255⟩ ⟨255, 0, 0, 255⟩ ⟨255, 0, 0, 255⟩ (fun _ => 0) 1).bind
        (fun st => gfx_fill_triangle st.1 ⟨0, 0, 1⟩ ⟨3, 0, 8388609 / 8388608⟩ ⟨0, 3, 1⟩
          ⟨0, 255, 0, 255⟩ ⟨0, 255, 0, 255⟩ ⟨0, 255, 0, 255⟩ st.2 1)).map
      (fun st => (st.1.pix 1 1, st.2 (1 * 4 + 1))) = some (⟨255, 0, 0, 255⟩, 1) ∧
    ((gfx_fill_triangle ⟨4, 4, fun _ _ => ⟨0, 0, 0, 0⟩⟩ ⟨0, 0, 1⟩ ⟨3, 0, 8388609 / 8388608⟩
          ⟨0, 3, 1⟩ ⟨0, 255, 0, 255⟩ ⟨0, 255, 0, 255⟩ ⟨0, 255, 0, 255⟩ (fun _ => 0) 1).bind
        (fun st => gfx_fill_triangle st.1 ⟨0, 0, 1⟩ ⟨3, 0, 1⟩ ⟨0, 3, 1⟩
          ⟨255, 0, 0, 255⟩ ⟨255, 0, 0, 255⟩ ⟨255, 0, 0, 255⟩ st.2 1)).map
      (fun st => (st.1.pix 1 1, st.2 (1 * 4 + 1))) = some (⟨0, 255, 0, 255⟩, 1) := by
  refine ⟨?_, ?_, ?_, ?_, ?_⟩
  · unfold in_closed_triangle xy vec2i_new; norm_num
  · unfold exact_depth; norm_num
  · unfold exact_depth; norm_num
  · decide!
  · decide!

/-- C3 as amended: two triangles of non-zero area and coordinates below
`2 ^ 14` in magnitude, in an image of at most `2 ^ 14` columns and rows, both
covering the in-image pixel `(i, j)`, whose depths as computed there (in
double arithmetic from the rounded weights, narrowed to `float`) differ, drawn
into a buffer whose stored depth at the pixel is strictly less than the larger
of the two: drawn in either order, the pixel ends with the colour and the
depth of the triangle whose computed depth is larger. -/
theorem gfx_fill_triangle_depth_order (image : Image) (zbuffer : ZBuffer)
    (a0 a1 a2 : Vec3i) (ca0 ca1 ca2 : Color) (Ia : ℚ)
    (b0 b1 b2 : Vec3i) (cb0 cb1 cb2 : Color) (Ib : ℚ)
    (i j : Int) (sa ta sb tb : ℚ)
    (ha0 : small_coord (xy a0)) (ha1 : small_coord (xy a1)) (ha2 : small_coord (xy a2))
    (hb0 : small_coord (xy b0)) (hb1 : small_coord (xy b1)) (hb2 : small_coord (xy b2))
    (hw : image.width ≤ 16384) (hh : image.height ≤ 16384)
    (hda : tri_denom (xy a0) (xy a1) (xy a2) ≠ 0)
    (hdb : tri_denom (xy b0) (xy b1) (xy b2) ≠ 0)
    (hb : 0 ≤ i ∧ i < image.width ∧ 0 ≤ j ∧ j < image.height)
    (hina : in_closed_triangle (xy a0) (xy a1) (xy a2) (vec2i_new i j) sa ta)
    (hinb : in_closed_triangle (xy b0) (xy b1) (xy b2) (vec2i_new i j) sb tb)
    (hne : interp_depth a0 a1 a2 (fl64 sa) (fl64 ta) ≠ interp_depth b0 b1 b2 (fl64 sb) (fl64 tb))
    (hz : zbuffer (j * image.width + i)
      < max (interp_depth a0 a1 a2 (fl64 sa) (fl64 ta))
          (interp_depth b0 b1 b2 (fl64 sb) (fl64 tb))) :
    ∃ im1 zb1 im2 zb2,
      (gfx_fill_triangle image a0 a1 a2 ca0 ca1 ca2 zbuffer Ia).bind
          (fun st => gfx_fill_triangle st.1 b0 b1 b2 cb0 cb1 cb2 st.2 Ib) = some (im1, zb1) ∧
      (gfx_fill_triangle image b0 b1 b2 cb0 cb1 cb2 zbuffer Ib).bind
          (fun st => gfx_fill_triangle st.1 a0 a1 a2 ca0 ca1 ca2 st.2 Ia) = some (im2, zb2) ∧
      im1.pix j i = (if interp_depth a0 a1 a2 (fl64 sa) (fl64 ta)
            < interp_depth b0 b1 b2 (fl64 sb) (fl64 tb)
        then interp_color cb0 cb1 cb2 (fl64 sb) (fl64 tb) Ib
        else interp_color ca0 ca1 ca2 (fl64 sa) (fl64 ta) Ia) ∧
      zb1 (j * image.width + i)
        = max (interp_depth a0 a1 a2 (fl64 sa) (fl64 ta))
            (interp_depth b0 b1 b2 (fl64 sb) (fl64 tb)) ∧
      im2.pix j i = im1.pix j i ∧
      zb2 (j * image.width + i) = zb1 (j * image.width + i) := by
  -- first order: a then b
  obtain ⟨imA, zbA, eA, wA, hA, A1, A2⟩ :=
    fill_at image a0 a1 a2 ca0 ca1 ca2 zbuffer Ia ha0 ha1 ha2 hw hh hda i j sa ta hb hina
  have hbA : 0 ≤ i ∧ i < imA.width ∧ 0 ≤ j ∧ j < imA.height := by rw [wA, hA]; exact hb
  obtain ⟨imAB, zbAB, eAB, _, _, AB1, AB2⟩ :=
    fill_at imA b0 b1 b2 cb0 cb1 cb2 zbA Ib hb0 hb1 hb2 (by rw [wA]; exact hw)
      (by rw [hA]; exact hh) hdb i j sb tb hbA hinb
  -- second order: b then a
  obtain ⟨imB, zbB, eB, wB, hB, B1, B2⟩ :=
    fill_at image b0 b1 b2 cb0 cb1 cb2 zbuffer Ib hb0 hb1 hb2 hw hh hdb i j sb tb hb hinb
  have hbB : 0 ≤ i ∧ i < imB.width ∧ 0 ≤ j ∧ j < imB.height := by rw [wB, hB]; exact hb
  obtain ⟨imBA, zbBA, eBA, _, _, BA1, BA2⟩ :=
    fill_at imB a0 a1 a2 ca0 ca1 ca2 zbB Ia ha0 ha1 ha2 (by rw [wB]; exact hw)
      (by rw [hB]; exact hh) hda i j sa ta hbB hina
  rw [wA] at AB1 AB2
  rw [wB] at BA1 BA2
  refine ⟨imAB, zbAB, imBA, zbBA, ?_, ?_, ?_⟩
  · rw [eA]; exact eAB
  · rw [eB]; exact eBA
  · rcases lt_or_gt_of_ne hne with hlt | hgt
    · -- the second triangle is nearer
      rw [max_eq_right hlt.le] at hz ⊢
      rw [if_pos hlt]
      have hAcell : zbA (j * image.width + i)
          < interp_depth b0 b1 b2 (fl64 sb) (fl64 tb) := by
        by_cases hc : zbuffer (j * image.width + i)
            < interp_depth a0 a1 a2 (fl64 sa) (fl64 ta)
        · rw [(A1 hc).2]; exact hlt
        · rw [(A2 hc).2]; exact hz
      have hBcell : ¬ zbB (j * image.width + i)
          < interp_depth a0 a1 a2 (fl64 sa) (fl64 ta) := by
        rw [(B1 hz).2]; exact not_lt.mpr hlt.le
      refine ⟨(AB1 hAcell).1, (AB1 hAcell).2, ?_, ?_⟩
      · rw [(BA2 hBcell).1, (B1 hz).1, (AB1 hAcell).1]
      · rw [(BA2 hBcell).2, (B1 hz).2, (AB1 hAcell).2]
    · -- the first triangle is nearer
      rw [max_eq_left hgt.le] at hz ⊢
      rw [if_neg (not_lt.mpr hgt.le)]
      have hAcell : ¬ zbA (j * image.width + i)
          < interp_depth b0 b1 b2 (fl64 sb) (fl64 tb) := by
        rw [(A1 hz).2]; exact not_lt.mpr hgt.le
      have hBcell : zbB (j * image.width + i)
          < interp_depth a0 a1 a2 (fl64 sa) (fl64 ta) := by
        by_cases hc : zbuffer (j * image.width + i)
            < interp_depth b0 b1 b2 (fl64 sb) (fl64 tb)
        · rw [(B1 hc).2]; exact hgt
        · rw [(B2 hc).2]; exact hz
      have e1 : imAB.pix j i = interp_color ca0 ca1 ca2 (fl64 sa) (fl64 ta) Ia := by
        rw [(AB2 hAcell).1, (A1 hz).1]
      have e2 : zbAB (j * image.width + i) = interp_depth a0 a1 a2 (fl64 sa) (fl64 ta) := by
        rw [(AB2 hAcell).2, (A1 hz).2]
      refine ⟨e1, e2, ?_, ?_⟩
      · rw [(BA1 hBcell).1, e1]
      · rw [(BA1 hBcell).2, e2]

/-- C3 as amended, on one triangle drawn at depth 1 and at depth 2 into a 4 by
4 image over depth 0: in either order the pixel `(1, 1)` ends at depth 2. -/
theorem gfx_fill_triangle_depth_order_witness :
    ∃ im1 zb1 im2 zb2,
      (gfx_fill_triangle ⟨4, 4, fun _ _ => ⟨0, 0, 0, 0⟩⟩ ⟨0, 0, 1⟩ ⟨3, 0, 1⟩ ⟨0, 3, 1⟩
          ⟨255, 0, 0, 255⟩ ⟨255, 0, 0, 255⟩ ⟨255, 0, 0, 255⟩ (fun _ => 0) 1).bind
        (fun st => gfx_fill_triangle st.1 ⟨0, 0, 2⟩ ⟨3, 0, 2⟩ ⟨0, 3, 2⟩
          ⟨0, 255, 0, 255⟩ ⟨0, 255, 0, 255⟩ ⟨0, 255, 0, 255⟩ st.2 1) = some (im1, zb1) ∧
      (gfx_fill_triangle ⟨4, 4, fun _ _ => ⟨0, 0, 0, 0⟩⟩ ⟨0, 0, 2⟩ ⟨3, 0, 2⟩ ⟨0, 3, 2⟩
          ⟨0, 255, 0, 255⟩ ⟨0, 255, 0, 255⟩ ⟨0, 255, 0, 255⟩ (fun _ => 0) 1).bind
        (fun st => gfx_fill_triangle st.1 ⟨0, 0, 1⟩ ⟨3, 0, 1⟩ ⟨0, 3, 1⟩
          ⟨255, 0, 0, 255⟩ ⟨255, 0, 0, 255⟩ ⟨255, 0, 0, 255⟩ st.2 1) = some (im2, zb2) ∧
      zb1 (1 * 4 + 1) = 2 ∧ zb2 (1 * 4 + 1) = 2 ∧ im2.pix 1 1 = im1.pix 1 1 := by
  obtain ⟨im1, zb1, im2, zb2, h1, h2, _, h4, h5, h6⟩ :=
    gfx_fill_triangle_depth_order ⟨4, 4, fun _ _ => ⟨0, 0, 0, 0⟩⟩ (fun _ => 0)
      ⟨0, 0, 1⟩ ⟨3, 0, 1⟩ ⟨0, 3, 1⟩ ⟨255, 0, 0, 255⟩ ⟨255, 0, 0, 255⟩ ⟨255, 0, 0, 255⟩ 1
      ⟨0, 0, 2⟩ ⟨3, 0, 2⟩ ⟨0, 3, 2⟩ ⟨0, 255, 0, 255⟩ ⟨0, 255, 0, 255⟩ ⟨0, 255, 0, 255⟩ 1
      1 1 (1 / 3) (1 / 3) (1 / 3) (1 / 3) (by decide) (by decide) (by decide) (by decide)
      (by decide) (by decide) (by decide) (by decide) (by decide) (by decide) (by decide)
      (by unfold in_closed_triangle xy vec2i_new; norm_num)
      (by unfold in_closed_triangle xy vec2i_new; norm_num)
      (by decide!)
      (by decide!)
  have e : max (interp_depth ⟨0, 0, 1⟩ ⟨3, 0, 1⟩ ⟨0, 3, 1⟩ (fl64 (1 / 3)) (fl64 (1 / 3)))
      (interp_depth ⟨0, 0, 2⟩ ⟨3, 0, 2⟩ ⟨0, 3, 2⟩ (fl64 (1 / 3)) (fl64 (1 / 3))) = 2 := by
    decide!
  rw [e] at h4
  exact ⟨im1, zb1, im2, zb2, h1, h2, h4, h6.trans h4, h5⟩


/-! ## Rotating the vertices of the attribute fill -/

/-- On a non-negative value the C conversion to `int` is the floor. -/
theorem c_int_cast_nonneg (q : ℚ) (h : 0 ≤ q) : c_int_cast q = ⌊q⌋ := by
  unfold c_int_cast
  rw [Rat.floor_def, Int.tdiv_eq_ediv (Rat.num_nonneg.mpr h) (by positivity)]

theorem interp_value_between (v0 v1 k n : Int) (hn : 0 < n) (hk0 : 0 ≤ k) (hkn : k ≤ n) :
    ((min v0 v1 : Int) : ℚ) ≤ interp_value v0 v1 k n ∧
    interp_value v0 v1 k n ≤ ((max v0 v1 : Int) : ℚ) := by
  have hn' : (0 : ℚ) < n := by exact_mod_cast hn
  have hd0 : (0 : ℚ) ≤ (k : ℚ) / n := div_nonneg (by exact_mod_cast hk0) hn'.le
  have hd1 : (k : ℚ) / n ≤ 1 := by
    rw [div_le_one hn']; exact_mod_cast hkn
  have e : interp_value v0 v1 k n
      = (1 - (k : ℚ) / n) * (v0 : ℚ) + ((k : ℚ) / n) * (v1 : ℚ) := by
    unfold interp_value; ring
  have hm0 : ((min v0 v1 : Int) : ℚ) ≤ v0 := by exact_mod_cast min_le_left v0 v1
  have hm1 : ((min v0 v1 : Int) : ℚ) ≤ v1 := by exact_mod_cast min_le_right v0 v1
  have hM0 : (v0 : ℚ) ≤ ((max v0 v1 : Int) : ℚ) := by exact_mod_cast le_max_left v0 v1
  have hM1 : (v1 : ℚ) ≤ ((max v0 v1 : Int) : ℚ) := by exact_mod_cast le_max_right v0 v1
  have hu : (0 : ℚ) ≤ 1 - (k : ℚ) / n := by linarith
  rw [e]
  constructor
  · nlinarith [mul_le_mul_of_nonneg_left hm0 hu, mul_le_mul_of_nonneg_left hm1 hd0]
  · nlinarith [mul_le_mul_of_nonneg_left hM0 hu, mul_le_mul_of_nonneg_left hM1 hd0]

/-- For non-negative ends, `linear_interp` at `k / n` is the floor of the
interpolated value plus one half. -/
theorem linear_interp_floor (v0 v1 k n : Int) (h0 : 0 ≤ v0) (h1 : 0 ≤ v1) (hn : 0 < n)
    (hk0 : 0 ≤ k) (hkn : k ≤ n) :
    linear_interp v0 v1 ((k : ℚ) / (n : ℚ)) = ⌊interp_value v0 v1 k n + 1 / 2⌋ := by
  have hb := (interp_value_between v0 v1 k n hn hk0 hkn).1
  have hm : (0 : ℚ) ≤ ((min v0 v1 : Int) : ℚ) := by exact_mod_cast le_min h0 h1
  unfold linear_interp
  rw [c_int_cast_nonneg]
  · rfl
  · unfold interp_value at hb; linarith

/-- The rounded value stays between the two ends. -/
theorem linear_interp_between (v0 v1 k n : Int) (h0 : 0 ≤ v0) (h1 : 0 ≤ v1) (hn : 0 < n)
    (hk0 : 0 ≤ k) (hkn : k ≤ n) :
    min v0 v1 ≤ linear_interp v0 v1 ((k : ℚ) / (n : ℚ)) ∧
    linear_interp v0 v1 ((k : ℚ) / (n : ℚ)) ≤ max v0 v1 := by
  obtain ⟨hlo, hhi⟩ := interp_value_between v0 v1 k n hn hk0 hkn
  rw [linear_interp_floor v0 v1 k n h0 h1 hn hk0 hkn]
  constructor
  · rw [Int.le_floor]; linarith
  · have : ⌊interp_value v0 v1 k n + 1 / 2⌋ < max v0 v1 + 1 := by
      rw [Int.floor_lt]
      have : (((max v0 v1 + 1 : Int)) : ℚ) = ((max v0 v1 : Int) : ℚ) + 1 := by push_cast; ring
      rw [this]; linarith
    omega

theorem linear_interp_zero (v0 v1 n : Int) (h0 : 0 ≤ v0) :
    linear_interp v0 v1 (((0 : Int) : ℚ) / (n : ℚ)) = v0 := by
  unfold linear_interp
  rw [c_int_cast_nonneg]
  · rw [Int.floor_eq_iff]
    constructor <;> norm_num
  · have : (0 : ℚ) ≤ v0 := by exact_mod_cast h0
    simp only [Int.cast_zero, zero_div, mul_zero, add_zero]
    linarith

theorem linear_interp_one (v0 v1 n : Int) (h1 : 0 ≤ v1) (hn : 0 < n) :
    linear_interp v0 v1 ((n : ℚ) / (n : ℚ)) = v1 := by
  have hn' : (n : ℚ) ≠ 0 := by exact_mod_cast hn.ne'
  have h1' : (0 : ℚ) ≤ v1 := by exact_mod_cast h1
  unfold linear_interp
  rw [div_self hn', c_int_cast_nonneg]
  · rw [Int.floor_eq_iff]
    constructor
    · linarith
    · linarith
  · linarith

/-- Two values at most one apart have floors at most one apart. -/
theorem floor_close (a b : ℚ) (h : |a - b| ≤ 1) : |⌊a⌋ - ⌊b⌋| ≤ 1 := by
  rw [abs_le] at h ⊢
  have h1 : ⌊a⌋ ≤ ⌊b + 1⌋ := Int.floor_le_floor (by linarith)
  have h2 : ⌊b⌋ ≤ ⌊a + 1⌋ := Int.floor_le_floor (by linarith)
  rw [Int.floor_add_one] at h1 h2
  constructor <;> omega

/-- One step of the dominant axis moves the rounded value by at most one. -/
theorem linear_interp_step (v0 v1 k n : Int) (h0 : 0 ≤ v0) (h1 : 0 ≤ v1) (hn : 0 < n)
    (hk0 : 0 ≤ k) (hkn : k + 1 ≤ n) (hd : |v1 - v0| ≤ n) :
    |linear_interp v0 v1 (((k + 1 : Int) : ℚ) / (n : ℚ))
      - linear_interp v0 v1 ((k : ℚ) / (n : ℚ))| ≤ 1 := by
  rw [linear_interp_floor v0 v1 (k + 1) n h0 h1 hn (by omega) hkn,
    linear_interp_floor v0 v1 k n h0 h1 hn hk0 (by omega)]
  apply floor_close
  have hn' : (0 : ℚ) < n := by exact_mod_cast hn
  have hd' : |(v1 : ℚ) - v0| ≤ n := by exact_mod_cast hd
  have e : interp_value v0 v1 (k + 1) n + 1 / 2 - (interp_value v0 v1 k n + 1 / 2)
      = ((v1 : ℚ) - v0) / n := by
    unfold interp_value; push_cast; field_simp; ring
  rw [e, abs_div, abs_of_pos hn', div_le_one hn']
  exact hd'

/-! ## Lists over `int_range` -/

theorem int_range_eq_cons (lo hi : Int) (h : lo ≤ hi) :
    int_range lo hi = lo :: int_range (lo + 1) hi := by
  unfold int_range
  have e : (hi + 1 - lo).toNat = (hi + 1 - (lo + 1)).toNat + 1 := by omega
  rw [e, List.range_succ_eq_map, List.map_cons, List.map_map]
  simp only [Nat.cast_zero, add_zero, List.cons.injEq, true_and]
  apply List.map_congr_left
  intro k _
  simp only [Function.comp, Nat.cast_succ]
  ring

theorem int_range_empty (lo hi : Int) (h : hi < lo) : int_range lo hi = [] := by
  unfold int_range
  have e : (hi + 1 - lo).toNat = 0 := by omega
  rw [e]; rfl

theorem int_range_eq_concat (lo hi : Int) (h : lo ≤ hi) :
    int_range lo hi = int_range lo (hi - 1) ++ [hi] := by
  unfold int_range
  have e : (hi + 1 - lo).toNat = (hi - 1 + 1 - lo).toNat + 1 := by omega
  rw [e, List.range_succ, List.map_append]
  congr 1
  simp only [List.map_cons, List.map_nil, List.cons.injEq, and_true]
  omega

theorem int_range_head (lo hi : Int) (h : lo ≤ hi) : (int_range lo hi).head? = some lo := by
  rw [int_range_eq_cons lo hi h]; rfl

theorem int_range_getLast (lo hi : Int) (h : lo ≤ hi) :
    (int_range lo hi).getLast? = some hi := by
  rw [int_range_eq_concat lo hi h, List.getLast?_append]
  rfl

/-- Neighbouring entries of a list mapped over `int_range` are the images of
consecutive integers. -/
theorem chain_int_range_map {α : Type} (R : α → α → Prop) (f : Int → α) (hi : Int) :
    ∀ (n : Nat) (lo : Int), (hi + 1 - lo).toNat = n →
      (∀ x, lo ≤ x → x + 1 ≤ hi → R (f x) (f (x + 1))) →
      List.Chain' R ((int_range lo hi).map f) := by
  intro n
  induction n with
  | zero =>
    intro lo hn _
    rw [int_range_empty lo hi (by omega)]
    exact List.chain'_nil
  | succ n ih =>
    intro lo hn hR
    rw [int_range_eq_cons lo hi (by omega), List.map_cons]
    by_cases h1 : lo + 1 ≤ hi
    · have := ih (lo + 1) (by omega) (fun x hx hx' => hR x (by omega) hx')
      rw [int_range_eq_cons (lo + 1) hi h1, List.map_cons] at this ⊢
      exact List.Chain'.cons (hR lo le_rfl h1) this
    · rw [int_range_empty (lo + 1) hi (by omega)]
      exact List.chain'_singleton _

/-! ## Lines: `gfx_draw_line` -/

/-- The walk along `x` from `a` to `b` (`a.x < b.x`, slope at most one). -/
theorem walk_x (image : Image) (a b : Vec2i) (n : Int)
    (ha : in_bounds image a) (hb : in_bounds image b) (hlt : a.x < b.x)
    (hn : n = b.x - a.x) (hd : |b.y - a.y| ≤ n) :
    (∀ p ∈ (int_range a.x b.x).map (fun x => vec2i_new x
        (linear_interp a.y b.y (((x - a.x : Int) : ℚ) / (n : ℚ)))), in_bounds image p) ∧
    ((int_range a.x b.x).map (fun x => vec2i_new x
        (linear_interp a.y b.y (((x - a.x : Int) : ℚ) / (n : ℚ))))).map (fun p => p.x)
      = int_range a.x b.x ∧
    ((int_range a.x b.x).map (fun x => vec2i_new x
        (linear_interp a.y b.y (((x - a.x : Int) : ℚ) / (n : ℚ))))).head? = some a ∧
    ((int_range a.x b.x).map (fun x => vec2i_new x
        (linear_interp a.y b.y (((x - a.x : Int) : ℚ) / (n : ℚ))))).getLast? = some b ∧
    List.Chain' (fun p q : Vec2i => |q.y - p.y| ≤ 1)
      ((int_range a.x b.x).map (fun x => vec2i_new x
        (linear_interp a.y b.y (((x - a.x : Int) : ℚ) / (n : ℚ))))) := by
  unfold in_bounds at ha hb
  have hn0 : 0 < n := by omega
  refine ⟨?_, ?_, ?_, ?_, ?_⟩
  · intro p hp
    obtain ⟨x, hx, rfl⟩ := List.mem_map.mp hp
    rw [mem_int_range] at hx
    have := linear_interp_between a.y b.y (x - a.x) n (by omega) (by omega) hn0 (by omega)
      (by omega)
    unfold in_bounds vec2i_new
    simp only
    simp only [le_min_iff, max_le_iff, min_le_iff, le_max_iff] at this
    omega
  · rw [List.map_map]
    conv_rhs => rw [← List.map_id (int_range a.x b.x)]
    rfl
  · rw [int_range_eq_cons a.x b.x hlt.le, List.map_cons, List.head?_cons, sub_self,
      linear_interp_zero a.y b.y n (by omega)]
    rfl
  · rw [int_range_eq_concat a.x b.x hlt.le, List.map_append, List.getLast?_append]
    simp only [List.map_cons, List.map_nil, List.getLast?_singleton, Option.or_some]
    rw [← hn, linear_interp_one a.y b.y n (by omega) hn0]
    rfl
  · apply chain_int_range_map _ _ b.x _ a.x rfl
    intro x hx1 hx2
    simp only [vec2i_new]
    have e : x + 1 - a.x = (x - a.x) + 1 := by ring
    rw [e]
    exact linear_interp_step a.y b.y (x - a.x) n (by omega) (by omega) hn0 (by omega)
      (by omega) hd

/-- The walk along `y` from `a` to `b` (`a.y < b.y`, inverse slope at most one). -/
theorem walk_y (image : Image) (a b : Vec2i) (n : Int)
    (ha : in_bounds image a) (hb : in_bounds image b) (hlt : a.y < b.y)
    (hn : n = b.y - a.y) (hd : |b.x - a.x| ≤ n) :
    (∀ p ∈ (int_range a.y b.y).map (fun y => vec2i_new
        (linear_interp a.x b.x (((y - a.y : Int) : ℚ) / (n : ℚ))) y), in_bounds image p) ∧
    ((int_range a.y b.y).map (fun y => vec2i_new
        (linear_interp a.x b.x (((y - a.y : Int) : ℚ) / (n : ℚ))) y)).map (fun p => p.y)
      = int_range a.y b.y ∧
    ((int_range a.y b.y).map (fun y => vec2i_new
        (linear_interp a.x b.x (((y - a.y : Int) : ℚ) / (n : ℚ))) y)).head? = some a ∧
    ((int_range a.y b.y).map (fun y => vec2i_new
        (linear_interp a.x b.x (((y - a.y : Int) : ℚ) / (n : ℚ))) y)).getLast? = some b ∧
    List.Chain' (fun p q : Vec2i => |q.x - p.x| ≤ 1)
      ((int_range a.y b.y).map (fun y => vec2i_new
        (linear_interp a.x b.x (((y - a.y : Int) : ℚ) / (n : ℚ))) y)) := by
  unfold in_bounds at ha hb
  have hn0 : 0 < n := by omega
  refine ⟨?_, ?_, ?_, ?_, ?_⟩
  · intro p hp
    obtain ⟨y, hy, rfl⟩ := List.mem_map.mp hp
    rw [mem_int_range] at hy
    have := linear_interp_between a.x b.x (y - a.y) n (by omega) (by omega) hn0 (by omega)
      (by omega)
    unfold in_bounds vec2i_new
    simp only
    simp only [le_min_iff, max_le_iff, min_le_iff, le_max_iff] at this
    omega
  · rw [List.map_map]
    conv_rhs => rw [← List.map_id (int_range a.y b.y)]
    rfl
  · rw [int_range_eq_cons a.y b.y hlt.le, List.map_cons, List.head?_cons, sub_self,
      linear_interp_zero a.x b.x n (by omega)]
    rfl
  · rw [int_range_eq_concat a.y b.y hlt.le, List.map_append, List.getLast?_append]
    simp only [List.map_cons, List.map_nil, List.getLast?_singleton, Option.or_some]
    rw [← hn, linear_interp_one a.x b.x n (by omega) hn0]
    rfl
  · apply chain_int_range_map _ _ b.y _ a.y rfl
    intro y hy1 hy2
    simp only [vec2i_new]
    have e : y + 1 - a.y = (y - a.y) + 1 := by ring
    rw [e]
    exact linear_interp_step a.x b.x (y - a.y) n (by omega) (by omega) hn0 (by omega)
      (by omega) hd

/-- C8: for distinct in-bounds endpoints `gfx_draw_line` succeeds; it draws
`max(|dx|, |dy|) + 1` points, one for each integer coordinate of the dominant
axis (`x` when `|dx| > |dy|`, otherwise `y`) between the endpoints inclusive,
in increasing order; the first and the last are the two endpoints; and two
consecutive points differ by at most 1 in the other coordinate. -/
theorem gfx_draw_line_no_gaps (image : Image) (p0 p1 : Vec2i) (color : Color)
    (h0 : in_bounds image p0) (h1 : in_bounds image p1) (hne : p0 ≠ p1) :
    (∃ im, gfx_draw_line image p0 p1 color = some im) ∧
    gfx_draw_line image p0 p1 color = draw_points image (gfx_draw_line_pixels p0 p1) color ∧
    (gfx_draw_line_pixels p0 p1).length = (max |p1.x - p0.x| |p1.y - p0.y|).toNat + 1 ∧
    (|p1.x - p0.x| > |p1.y - p0.y| →
      (gfx_draw_line_pixels p0 p1).map (fun p => p.x)
        = int_range (min p0.x p1.x) (max p0.x p1.x) ∧
      List.Chain' (fun p q : Vec2i => |q.y - p.y| ≤ 1) (gfx_draw_line_pixels p0 p1)) ∧
    (¬ |p1.x - p0.x| > |p1.y - p0.y| →
      (gfx_draw_line_pixels p0 p1).map (fun p => p.y)
        = int_range (min p0.y p1.y) (max p0.y p1.y) ∧
      List.Chain' (fun p q : Vec2i => |q.x - p.x| ≤ 1) (gfx_draw_line_pixels p0 p1)) ∧
    (((gfx_draw_line_pixels p0 p1).head? = some p0 ∧
        (gfx_draw_line_pixels p0 p1).getLast? = some p1) ∨
      ((gfx_draw_line_pixels p0 p1).head? = some p1 ∧
        (gfx_draw_line_pixels p0 p1).getLast? = some p0)) := by
  have hnz : ¬ (|p1.x - p0.x| = 0 ∧ |p1.y - p0.y| = 0) := by
    rintro ⟨e1, e2⟩
    apply hne
    have := abs_eq_zero.mp e1
    have := abs_eq_zero.mp e2
    cases p0; cases p1; simp_all; omega
  have hsucc : ∀ L : List Vec2i, (∀ p ∈ L, in_bounds image p) →
      ∃ im, draw_points image L color = some im := by
    intro L hL
    obtain ⟨im, h, _⟩ := draw_points_spec color L image hL
    exact ⟨im, h⟩
  rw [gfx_draw_line_eq]
  by_cases hdom : |p1.x - p0.x| > |p1.y - p0.y|
  · -- the walk is along x
    have hxne : p0.x ≠ p1.x := by
      intro e
      rw [e, sub_self, abs_zero] at hdom
      exact absurd hdom (not_lt.mpr (abs_nonneg _))
    have hmax : max |p1.x - p0.x| |p1.y - p0.y| = |p1.x - p0.x| := max_eq_left hdom.le
    rcases lt_or_gt_of_ne hxne with hlt | hgt
    · have hn : |p1.x - p0.x| = p1.x - p0.x := abs_of_pos (by omega)
      have hL : gfx_draw_line_pixels p0 p1 = (int_range p0.x p1.x).map (fun x => vec2i_new x
          (linear_interp p0.y p1.y (((x - p0.x : Int) : ℚ) / ((p1.x - p0.x : Int) : ℚ)))) := by
        unfold gfx_draw_line_pixels
        simp only [if_neg hnz, if_pos hdom, if_neg (not_lt.mpr hlt.le)]
        rw [hn]
      obtain ⟨w1, w2, w3, w4, w5⟩ := walk_x image p0 p1 (p1.x - p0.x) h0 h1 hlt rfl
        (by rw [← hn]; exact hdom.le)
      rw [hL]
      refine ⟨hsucc _ w1, rfl, ?_, ?_, ?_, Or.inl ⟨w3, w4⟩⟩
      · rw [List.length_map, int_range_length, hmax, hn]; omega
      · intro _
        rw [min_eq_left hlt.le, max_eq_right hlt.le]
        exact ⟨w2, w5⟩
      · intro hc; exact absurd hdom hc
    · have hn : |p1.x - p0.x| = p0.x - p1.x := by
        rw [abs_of_neg (by omega)]; ring
      have hL : gfx_draw_line_pixels p0 p1 = (int_range p1.x p0.x).map (fun x => vec2i_new x
          (linear_interp p1.y p0.y (((x - p1.x : Int) : ℚ) / ((p0.x - p1.x : Int) : ℚ)))) := by
        unfold gfx_draw_line_pixels
        simp only [if_neg hnz, if_pos hdom, if_pos hgt]
        rw [hn]
      obtain ⟨w1, w2, w3, w4, w5⟩ := walk_x image p1 p0 (p0.x - p1.x) h1 h0 hgt rfl
        (by rw [← hn, abs_sub_comm]; exact hdom.le)
      rw [hL]
      refine ⟨hsucc _ w1, rfl, ?_, ?_, ?_, Or.inr ⟨w3, w4⟩⟩
      · rw [List.length_map, int_range_length, hmax, hn]; omega
      · intro _
        rw [min_eq_right hgt.le, max_eq_left hgt.le]
        exact ⟨w2, w5⟩
      · intro hc; exact absurd hdom hc
  · -- the walk is along y
    have hle : |p1.x - p0.x| ≤ |p1.y - p0.y| := not_lt.mp hdom
    have hyne : p0.y ≠ p1.y := by
      intro e
      apply hnz
      rw [e, sub_self, abs_zero] at hle ⊢
      exact ⟨le_antisymm hle (abs_nonneg _), rfl⟩
    have hmax : max |p1.x - p0.x| |p1.y - p0.y| = |p1.y - p0.y| := max_eq_right hle
    rcases lt_or_gt_of_ne hyne with hlt | hgt
    · have hn : |p1.y - p0.y| = p1.y - p0.y := abs_of_pos (by omega)
      have hL : gfx_draw_line_pixels p0 p1 = (int_range p0.y p1.y).map (fun y => vec2i_new
          (linear_interp p0.x p1.x (((y - p0.y : Int) : ℚ) / ((p1.y - p0.y : Int) : ℚ))) y) := by
        unfold gfx_draw_line_pixels
        simp only [if_neg hnz, if_neg hdom, if_neg (not_lt.mpr hlt.le)]
        rw [hn]
      obtain ⟨w1, w2, w3, w4, w5⟩ := walk_y image p0 p1 (p1.y - p0.y) h0 h1 hlt rfl
        (by rw [← hn]; exact hle)
      rw [hL]
      refine ⟨hsucc _ w1, rfl, ?_, ?_, ?_, Or.inl ⟨w3, w4⟩⟩
      · rw [List.length_map, int_range_length, hmax, hn]; omega
      · intro hc; exact absurd hc hdom
      · intro _
        rw [min_eq_left hlt.le, max_eq_right hlt.le]
        exact ⟨w2, w5⟩
    · have hn : |p1.y - p0.y| = p0.y - p1.y := by
        rw [abs_of_neg (by omega)]; ring
      have hL : gfx_draw_line_pixels p0 p1 = (int_range p1.y p0.y).map (fun y => vec2i_new
          (linear_interp p1.x p0.x (((y - p1.y : Int) : ℚ) / ((p0.y - p1.y : Int) : ℚ))) y) := by
        unfold gfx_draw_line_pixels
        simp only [if_neg hnz, if_neg hdom, if_pos hgt]
        rw [hn]
      obtain ⟨w1, w2, w3, w4, w5⟩ := walk_y image p1 p0 (p0.y - p1.y) h1 h0 hgt rfl
        (by rw [← hn, abs_sub_comm]; exact hle)
      rw [hL]
      refine ⟨hsucc _ w1, rfl, ?_, ?_, ?_, Or.inr ⟨w3, w4⟩⟩
      · rw [List.length_map, int_range_length, hmax, hn]; omega
      · intro hc; exact absurd hc hdom
      · intro _
        rw [min_eq_right hgt.le, max_eq_left hgt.le]
        exact ⟨w2, w5⟩

/-- C8 on the line from `(0,0)` to `(5,2)` in a 6 by 6 image: six points, the
first `(0,0)` and the last `(5,2)`. -/
theorem gfx_draw_line_no_gaps_witness :
    (∃ im, gfx_draw_line ⟨6, 6, fun _ _ => ⟨0, 0, 0, 0⟩⟩ ⟨0, 0⟩ ⟨5, 2⟩ ⟨255, 255, 255, 255⟩
      = some im) ∧
    (gfx_draw_line_pixels ⟨0, 0⟩ ⟨5, 2⟩).length = 6 := by
  have h := gfx_draw_line_no_gaps ⟨6, 6, fun _ _ => ⟨0, 0, 0, 0⟩⟩ ⟨0, 0⟩ ⟨5, 2⟩
    ⟨255, 255, 255, 255⟩ (by decide) (by decide) (by decide)
  refine ⟨h.1, h.2.2.1.trans ?_⟩
  norm_num
  rfl

/-! ## The flat fill `gfx_fill_triangle_2` and the closed triangle -/

theorem conv3_swap01 (A B C : Vec2i) (x y : ℚ) (h : conv3 A B C x y) : conv3 B A C x y := by
  obtain ⟨a, b, c, ha, hb, hc, hs, hx, hy⟩ := h
  exact ⟨b, a, c, hb, ha, hc, by linarith, by linarith, by linarith⟩

theorem conv3_swap12 (A B C : Vec2i) (x y : ℚ) (h : conv3 A B C x y) : conv3 A C B x y := by
  obtain ⟨a, b, c, ha, hb, hc, hs, hx, hy⟩ := h
  exact ⟨a, c, b, ha, hc, hb, by linarith, by linarith, by linarith⟩

theorem conv3_swap02 (A B C : Vec2i) (x y : ℚ) (h : conv3 A B C x y) : conv3 C B A x y := by
  obtain ⟨a, b, c, ha, hb, hc, hs, hx, hy⟩ := h
  exact ⟨c, b, a, hc, hb, ha, by linarith, by linarith, by linarith⟩

/-- The output of `sort_point_y` is a rearrangement of its input. -/
theorem sort_point_y_perm (a b c : Vec2i) :
    sort_point_y a b c = (a, b, c) ∨ sort_point_y a b c = (a, c, b) ∨
    sort_point_y a b c = (b, a, c) ∨ sort_point_y a b c = (b, c, a) ∨
    sort_point_y a b c = (c, a, b) ∨ sort_point_y a b c = (c, b, a) := by
  unfold sort_point_y
  simp only
  split_ifs <;> simp_all

/-- The output of `sort_point_x` is a rearrangement of its input. -/
theorem sort_point_x_perm (a b c : Vec2i) :
    sort_point_x a b c = (a, b, c) ∨ sort_point_x a b c = (a, c, b) ∨
    sort_point_x a b c = (b, a, c) ∨ sort_point_x a b c = (b, c, a) ∨
    sort_point_x a b c = (c, a, b) ∨ sort_point_x a b c = (c, b, a) := by
  unfold sort_point_x
  simp only
  split_ifs <;> simp_all

/-- Convex combinations of a rearranged triple are those of the triple. -/
theorem conv3_of_perm (a b c : Vec2i) (s : Vec2i × Vec2i × Vec2i) (x y : ℚ)
    (hs : s = (a, b, c) ∨ s = (a, c, b) ∨ s = (b, a, c) ∨ s = (b, c, a) ∨
      s = (c, a, b) ∨ s = (c, b, a))
    (h : conv3 s.1 s.2.1 s.2.2 x y) : conv3 a b c x y := by
  rcases hs with rfl | rfl | rfl | rfl | rfl | rfl
  · exact h
  · exact conv3_swap12 _ _ _ _ _ h
  · exact conv3_swap01 _ _ _ _ _ h
  · exact conv3_swap01 _ _ _ _ _ (conv3_swap12 _ _ _ _ _ h)
  · exact conv3_swap12 _ _ _ _ _ (conv3_swap01 _ _ _ _ _ h)
  · exact conv3_swap02 _ _ _ _ _ h

/-- The points of the edge `A B`. -/
theorem conv3_edge01 (A B C : Vec2i) (d : ℚ) (h0 : 0 ≤ d) (h1 : d ≤ 1) :
    conv3 A B C ((A.x : ℚ) + ((B.x : ℚ) - A.x) * d) ((A.y : ℚ) + ((B.y : ℚ) - A.y) * d) :=
  ⟨1 - d, d, 0, by linarith, h0, le_rfl, by ring, by ring, by ring⟩

/-- The points of the edge `A C`. -/
theorem conv3_edge02 (A B C : Vec2i) (d : ℚ) (h0 : 0 ≤ d) (h1 : d ≤ 1) :
    conv3 A B C ((A.x : ℚ) + ((C.x : ℚ) - A.x) * d) ((A.y : ℚ) + ((C.y : ℚ) - A.y) * d) :=
  ⟨1 - d, 0, d, by linarith, le_rfl, h0, by ring, by ring, by ring⟩

/-- The points of the edge `B C`. -/
theorem conv3_edge12 (A B C : Vec2i) (d : ℚ) (h0 : 0 ≤ d) (h1 : d ≤ 1) :
    conv3 A B C ((B.x : ℚ) + ((C.x : ℚ) - B.x) * d) ((B.y : ℚ) + ((C.y : ℚ) - B.y) * d) :=
  ⟨0, 1 - d, d, le_rfl, by linarith, h0, by ring, by ring, by ring⟩

/-- Mixing two convex combinations. -/
theorem conv3_mix (A B C : Vec2i) (x1 x2 y1 y2 l : ℚ) (h0 : 0 ≤ l) (h1 : l ≤ 1)
    (c1 : conv3 A B C x1 y1) (c2 : conv3 A B C x2 y2) :
    conv3 A B C ((1 - l) * x1 + l * x2) ((1 - l) * y1 + l * y2) := by
  obtain ⟨a, b, c, ha, hb, hc, hs, hx, hy⟩ := c1
  obtain ⟨a', b', c', ha', hb', hc', hs', hx', hy'⟩ := c2
  have hl : 0 ≤ 1 - l := by linarith
  refine ⟨(1 - l) * a + l * a', (1 - l) * b + l * b', (1 - l) * c + l * c', ?_, ?_, ?_, ?_, ?_, ?_⟩
  · exact add_nonneg (mul_nonneg hl ha) (mul_nonneg h0 ha')
  · exact add_nonneg (mul_nonneg hl hb) (mul_nonneg h0 hb')
  · exact add_nonneg (mul_nonneg hl hc) (mul_nonneg h0 hc')
  · linear_combination (1 - l) * hs + l * hs'
  · rw [hx, hx']; ring
  · rw [hy, hy']; ring

/-- On one row, every point between two convex combinations is one. -/
theorem conv3_between (A B C : Vec2i) (x1 x2 x y : ℚ)
    (c1 : conv3 A B C x1 y) (c2 : conv3 A B C x2 y)
    (hlo : min x1 x2 ≤ x) (hhi : x ≤ max x1 x2) : conv3 A B C x y := by
  by_cases he : x1 = x2
  · subst he
    rw [min_self] at hlo
    rw [max_self] at hhi
    rw [le_antisymm hhi hlo]; exact c1
  · have hne : x2 - x1 ≠ 0 := sub_ne_zero.mpr (Ne.symm he)
    have key : conv3 A B C ((1 - (x - x1) / (x2 - x1)) * x1 + (x - x1) / (x2 - x1) * x2)
        ((1 - (x - x1) / (x2 - x1)) * y + (x - x1) / (x2 - x1) * y) := by
      apply conv3_mix _ _ _ _ _ _ _ _ _ _ c1 c2
      · rcases lt_or_gt_of_ne he with hlt | hgt
        · rw [min_eq_left hlt.le] at hlo
          exact div_nonneg (by linarith) (by linarith)
        · rw [min_eq_right hgt.le] at hlo
          rw [max_eq_left hgt.le] at hhi
          exact div_nonneg_of_nonpos (by linarith) (by linarith)
      · rcases lt_or_gt_of_ne he with hlt | hgt
        · rw [max_eq_right hlt.le] at hhi
          rw [div_le_one (by linarith)]; linarith
        · rw [min_eq_right hgt.le] at hlo
          rw [div_le_one_of_neg (by linarith)]; linarith
    have ex : (1 - (x - x1) / (x2 - x1)) * x1 + (x - x1) / (x2 - x1) * x2 = x := by
      field_simp; ring
    have ey : (1 - (x - x1) / (x2 - x1)) * y + (x - x1) / (x2 - x1) * y = y := by ring
    rw [ex, ey] at key
    exact key

/-- On a non-negative value, adding one half and converting to `int` rounds to
within one half. -/
theorem round_near (v : ℚ) (h : 0 ≤ v) : |((c_int_cast (v + 1 / 2) : Int) : ℚ) - v| ≤ 1 / 2 := by
  rw [c_int_cast_nonneg _ (by linarith)]
  have h1 := Int.floor_le (v + 1 / 2)
  have h2 := Int.lt_floor_add_one (v + 1 / 2)
  rw [abs_le]
  constructor <;> linarith

theorem conv3_v0 (A B C : Vec2i) : conv3 A B C A.x A.y :=
  ⟨1, 0, 0, by norm_num, le_rfl, le_rfl, by ring, by ring, by ring⟩

theorem conv3_v1 (A B C : Vec2i) : conv3 A B C B.x B.y :=
  ⟨0, 1, 0, le_rfl, by norm_num, le_rfl, by ring, by ring, by ring⟩

theorem conv3_v2 (A B C : Vec2i) : conv3 A B C C.x C.y :=
  ⟨0, 0, 1, le_rfl, le_rfl, by norm_num, by ring, by ring, by ring⟩

/-- The points of a scanline whose two ends share their row. -/
theorem mem_draw_scanline_pixels (a b p : Vec2i) (h : a.y = b.y)
    (hp : p ∈ draw_scanline_pixels a b) :
    (min a.x b.x ≤ p.x ∧ p.x ≤ max a.x b.x) ∧ p.y = a.y := by
  unfold draw_scanline_pixels at hp
  simp only [List.mem_map, mem_int_range] at hp
  obtain ⟨x, hx, rfl⟩ := hp
  simp only [le_min_iff, max_le_iff, min_le_iff, le_max_iff]
  split_ifs at hx ⊢ with hc
  · simp only at hx ⊢
    refine ⟨by omega, h.symm⟩
  · simp only at hx ⊢
    refine ⟨by omega, trivial⟩

/-- A pixel between the rounded ends of a scanline is within one half of a
point between the exact ends. -/
theorem scan_near (A B C : Vec2i) (y : ℚ) (xa xb x : Int) (ea eb : ℚ)
    (ha : |(xa : ℚ) - ea| ≤ 1 / 2) (hb : |(xb : ℚ) - eb| ≤ 1 / 2)
    (ca : conv3 A B C ea y) (cb : conv3 A B C eb y)
    (hlo : min xa xb ≤ x) (hhi : x ≤ max xa xb) :
    ∃ x' : ℚ, |(x : ℚ) - x'| ≤ 1 / 2 ∧ conv3 A B C x' y := by
  rw [abs_le] at ha hb
  have hm : min ea eb ≤ max ea eb := min_le_max
  have h1 : min ea eb - 1 / 2 ≤ (x : ℚ) := by
    have : ((min xa xb : Int) : ℚ) ≤ x := by exact_mod_cast hlo
    have h2 : min ea eb - 1 / 2 ≤ ((min xa xb : Int) : ℚ) := by
      rw [Int.cast_min, le_min_iff]
      constructor
      · have := min_le_left ea eb; linarith
      · have := min_le_right ea eb; linarith
    linarith
  have h2 : (x : ℚ) ≤ max ea eb + 1 / 2 := by
    have : (x : ℚ) ≤ ((max xa xb : Int) : ℚ) := by exact_mod_cast hhi
    have h3 : ((max xa xb : Int) : ℚ) ≤ max ea eb + 1 / 2 := by
      rw [Int.cast_max, max_le_iff]
      constructor
      · have := le_max_left ea eb; linarith
      · have := le_max_right ea eb; linarith
    linarith
  refine ⟨max (min ea eb) (min (x : ℚ) (max ea eb)), ?_, ?_⟩
  · rw [abs_le]
    rcases le_total (x : ℚ) (max ea eb) with hx | hx
    · rw [min_eq_left hx]
      rcases le_total (min ea eb) (x : ℚ) with hx' | hx'
      · rw [max_eq_right hx']; constructor <;> linarith
      · rw [max_eq_left hx']; constructor <;> linarith
    · rw [min_eq_right hx, max_eq_right hm]; constructor <;> linarith
  · exact conv3_between A B C ea eb _ y ca cb (le_max_left _ _)
      (max_le hm (min_le_right _ _))

/-- The rounded edge position is within one half of the exact one. -/
theorem linear_interp_near (v0 v1 : Int) (d : ℚ) (h0 : 0 ≤ v0) (h1 : 0 ≤ v1)
    (hd0 : 0 ≤ d) (hd1 : d ≤ 1) :
    |((linear_interp v0 v1 d : Int) : ℚ) - ((v0 : ℚ) + ((v1 : ℚ) - (v0 : ℚ)) * d)| ≤ 1 / 2 := by
  unfold linear_interp
  apply round_near
  have e : (v0 : ℚ) + ((v1 : ℚ) - (v0 : ℚ)) * d = (1 - d) * v0 + d * v1 := by ring
  rw [e]
  have h0' : (0 : ℚ) ≤ v0 := by exact_mod_cast h0
  have h1' : (0 : ℚ) ≤ v1 := by exact_mod_cast h1
  exact add_nonneg (mul_nonneg (by linarith) h0') (mul_nonneg hd0 h1')

/-- The edge from height `a` to height `b`, at the parameter `(y - a) / (b - a)`,
is at height `y`. -/
theorem edge_row (a b y : Int) (h : a < b) :
    (a : ℚ) + ((b : ℚ) - a) * (((y - a : Int) : ℚ) / ((b - a : Int) : ℚ)) = (y : ℚ) := by
  have hne : (b : ℚ) - a ≠ 0 := by
    have : (a : ℚ) < b := by exact_mod_cast h
    linarith
  push_cast
  field_simp

/-- The upper loop: every pixel is within one half of the triangle. -/
theorem fill_upper_near (p0 p1 p2 p : Vec2i) (h01 : p0.y < p1.y) (h12 : p1.y ≤ p2.y)
    (hx0 : 0 ≤ p0.x) (hx1 : 0 ≤ p1.x) (hx2 : 0 ≤ p2.x)
    (hp : p ∈ fill_upper_pixels p0 p1 p2) :
    ∃ x' : ℚ, |(p.x : ℚ) - x'| ≤ 1 / 2 ∧ conv3 p0 p1 p2 x' p.y := by
  unfold fill_upper_pixels at hp
  simp only [List.mem_flatMap, mem_int_range] at hp
  obtain ⟨y, hy, hp⟩ := hp
  obtain ⟨hpx, hpy⟩ := mem_draw_scanline_pixels _ _ p (by rfl) hp
  simp only [lerp_point] at hpx hpy
  have hu : (0 : ℚ) < ((p1.y - p0.y : Int) : ℚ) := by exact_mod_cast sub_pos.mpr h01
  have ht : (0 : ℚ) < ((p2.y - p0.y : Int) : ℚ) := by
    exact_mod_cast sub_pos.mpr (lt_of_lt_of_le h01 h12)
  have hk : (0 : ℚ) ≤ ((y - p0.y : Int) : ℚ) := by exact_mod_cast sub_nonneg.mpr hy.1
  have hd1 : ((y - p0.y : Int) : ℚ) / ((p1.y - p0.y : Int) : ℚ) ≤ 1 := by
    rw [div_le_one hu]; exact_mod_cast (by omega : y - p0.y ≤ p1.y - p0.y)
  have hd2 : ((y - p0.y : Int) : ℚ) / ((p2.y - p0.y : Int) : ℚ) ≤ 1 := by
    rw [div_le_one ht]; exact_mod_cast (by omega : y - p0.y ≤ p2.y - p0.y)
  have ca := conv3_edge01 p0 p1 p2 _ (div_nonneg hk hu.le) hd1
  have cb := conv3_edge02 p0 p1 p2 _ (div_nonneg hk ht.le) hd2
  have ey1 : (p0.y : ℚ) + ((p1.y : ℚ) - p0.y)
      * (((y - p0.y : Int) : ℚ) / ((p1.y - p0.y : Int) : ℚ)) = (p.y : ℚ) := by
    rw [hpy]; exact edge_row _ _ _ (by omega)
  have ey2 : (p0.y : ℚ) + ((p2.y : ℚ) - p0.y)
      * (((y - p0.y : Int) : ℚ) / ((p2.y - p0.y : Int) : ℚ)) = (p.y : ℚ) := by
    rw [hpy]; exact edge_row _ _ _ (by omega)
  rw [ey1] at ca
  rw [ey2] at cb
  exact scan_near p0 p1 p2 _ _ _ p.x _ _
    (linear_interp_near p0.x p1.x _ hx0 hx1 (div_nonneg hk hu.le) hd1)
    (linear_interp_near p0.x p2.x _ hx0 hx2 (div_nonneg hk ht.le) hd2) ca cb hpx.1 hpx.2

/-- The lower loop: every pixel is within one half of the triangle. -/
theorem fill_lower_near (p0 p1 p2 p : Vec2i) (h01 : p0.y ≤ p1.y) (h12 : p1.y < p2.y)
    (hx0 : 0 ≤ p0.x) (hx1 : 0 ≤ p1.x) (hx2 : 0 ≤ p2.x)
    (hp : p ∈ fill_lower_pixels p0 p1 p2) :
    ∃ x' : ℚ, |(p.x : ℚ) - x'| ≤ 1 / 2 ∧ conv3 p0 p1 p2 x' p.y := by
  unfold fill_lower_pixels at hp
  simp only [List.mem_flatMap, mem_int_range] at hp
  obtain ⟨y, hy, hp⟩ := hp
  obtain ⟨hpx, hpy⟩ := mem_draw_scanline_pixels _ _ p (by rfl) hp
  simp only [lerp_point] at hpx hpy
  have hl : (0 : ℚ) < ((p2.y - p1.y : Int) : ℚ) := by exact_mod_cast sub_pos.mpr h12
  have ht : (0 : ℚ) < ((p2.y - p0.y : Int) : ℚ) := by
    exact_mod_cast sub_pos.mpr (lt_of_le_of_lt h01 h12)
  have hk0 : (0 : ℚ) ≤ ((y - p0.y : Int) : ℚ) := by
    exact_mod_cast (by omega : 0 ≤ y - p0.y)
  have hk1 : (0 : ℚ) ≤ ((y - p1.y : Int) : ℚ) := by exact_mod_cast sub_nonneg.mpr hy.1
  have hd0 : ((y - p0.y : Int) : ℚ) / ((p2.y - p0.y : Int) : ℚ) ≤ 1 := by
    rw [div_le_one ht]; exact_mod_cast (by omega : y - p0.y ≤ p2.y - p0.y)
  have hd1 : ((y - p1.y : Int) : ℚ) / ((p2.y - p1.y : Int) : ℚ) ≤ 1 := by
    rw [div_le_one hl]; exact_mod_cast (by omega : y - p1.y ≤ p2.y - p1.y)
  have ca := conv3_edge02 p0 p1 p2 _ (div_nonneg hk0 ht.le) hd0
  have cb := conv3_edge12 p0 p1 p2 _ (div_nonneg hk1 hl.le) hd1
  have ey0 : (p0.y : ℚ) + ((p2.y : ℚ) - p0.y)
      * (((y - p0.y : Int) : ℚ) / ((p2.y - p0.y : Int) : ℚ)) = (p.y : ℚ) := by
    rw [hpy]; exact edge_row _ _ _ (by omega)
  have ey1 : (p1.y : ℚ) + ((p2.y : ℚ) - p1.y)
      * (((y - p1.y : Int) : ℚ) / ((p2.y - p1.y : Int) : ℚ)) = (p.y : ℚ) := by
    rw [hpy]; exact edge_row _ _ _ (by omega)
  rw [ey0] at ca
  rw [ey1] at cb
  exact scan_near p0 p1 p2 _ _ _ p.x _ _
    (linear_interp_near p0.x p2.x _ hx0 hx2 (div_nonneg hk0 ht.le) hd0)
    (linear_interp_near p1.x p2.x _ hx1 hx2 (div_nonneg hk1 hl.le) hd1) ca cb hpx.1 hpx.2

/-- C5 fails on the triangle `(0,0)`, `(1,3)`, `(0,3)` in a 4 by 4 image: the
fill succeeds and draws the pixel `(1, 2)`, whose weights against the same
vertices are `s = 1`, `t = -1/3`: `in_triangle` stores `s = 1` and the double
nearest `-1/3`, and rejects. -/
theorem gfx_fill_triangle_2_outside :
    (gfx_fill_triangle_2 ⟨4, 4, fun _ _ => ⟨0, 0, 0, 0⟩⟩ ⟨0, 0⟩ ⟨1, 3⟩ ⟨0, 3⟩
        ⟨255, 255, 255, 255⟩).map (fun im => im.pix 2 1) = some ⟨255, 255, 255, 255⟩ ∧
    (⟨1, 2⟩ : Vec2i) ∈ gfx_fill_triangle_2_pixels ⟨0, 0⟩ ⟨1, 3⟩ ⟨0, 3⟩ ∧
    in_triangle ⟨0, 0⟩ ⟨1, 3⟩ ⟨0, 3⟩ ⟨1, 2⟩ = (false, Dbl.fin 1, Dbl.fin (fl64 (-1 / 3))) ∧
    bary_s ⟨0, 0⟩ ⟨1, 3⟩ ⟨0, 3⟩ ⟨1, 2⟩ = 1 ∧ bary_t ⟨0, 0⟩ ⟨1, 3⟩ ⟨0, 3⟩ ⟨1, 2⟩ = -1 / 3 := by
  refine ⟨?_, ?_, ?_, ?_, ?_⟩
  · decide!
  · decide!
  · decide!
  · decide!
  · decide!

/-- A scanline between two vertices on one row stays in the triangle. -/
theorem scanline_conv3 (A B C a b p : Vec2i) (h : a.y = b.y)
    (ca : conv3 A B C a.x a.y) (cb : conv3 A B C b.x b.y)
    (hp : p ∈ draw_scanline_pixels a b) :
    ∃ x' : ℚ, |(p.x : ℚ) - x'| ≤ 1 / 2 ∧ conv3 A B C x' p.y := by
  obtain ⟨hpx, hpy⟩ := mem_draw_scanline_pixels a b p h hp
  refine ⟨p.x, by norm_num, ?_⟩
  rw [hpy]
  rw [← h] at cb
  apply conv3_between A B C a.x b.x _ _ ca cb
  · rw [← Int.cast_min]; exact_mod_cast hpx.1
  · rw [← Int.cast_max]; exact_mod_cast hpx.2

/-- Every pixel of the flat fill is within one half, along its row, of a convex
combination of the vertices. -/
theorem gfx_fill_triangle_2_pixels_near (p0 p1 p2 p : Vec2i)
    (hx0 : 0 ≤ p0.x) (hx1 : 0 ≤ p1.x) (hx2 : 0 ≤ p2.x)
    (hp : p ∈ gfx_fill_triangle_2_pixels p0 p1 p2) :
    ∃ x' : ℚ, |(p.x : ℚ) - x'| ≤ 1 / 2 ∧ conv3 p0 p1 p2 x' p.y := by
  have hperm := sort_point_y_perm p0 p1 p2
  have hsorted := sort_point_y_sorted p0 p1 p2
  unfold gfx_fill_triangle_2_pixels at hp
  simp only at hp
  generalize sort_point_y p0 p1 p2 = s at hp hperm hsorted
  obtain ⟨q0, q1, q2⟩ := s
  simp only at hp hsorted
  have hq : 0 ≤ q0.x ∧ 0 ≤ q1.x ∧ 0 ≤ q2.x := by
    rcases hperm with h | h | h | h | h | h <;>
      · simp only [Prod.mk.injEq] at h
        obtain ⟨rfl, rfl, rfl⟩ := h
        exact ⟨by assumption, by assumption, by assumption⟩
  suffices hs : ∃ x' : ℚ, |(p.x : ℚ) - x'| ≤ 1 / 2 ∧ conv3 q0 q1 q2 x' p.y by
    obtain ⟨x', h1, h2⟩ := hs
    exact ⟨x', h1, conv3_of_perm p0 p1 p2 (q0, q1, q2) _ _ hperm h2⟩
  by_cases hflat : q0.y = q2.y
  · rw [if_pos hflat] at hp
    have hpermx := sort_point_x_perm q0 q1 q2
    have hrow := sort_point_x_row q0 q1 q2 (by omega) (by omega)
    generalize sort_point_x q0 q1 q2 = sx at hp hpermx hrow
    obtain ⟨r0, r1, r2⟩ := sx
    simp only at hp hrow
    obtain ⟨x', h1, h2⟩ := scanline_conv3 r0 r1 r2 r0 r2 p hrow (conv3_v0 _ _ _)
      (conv3_v2 _ _ _) hp
    exact ⟨x', h1, conv3_of_perm q0 q1 q2 (r0, r1, r2) _ _ hpermx h2⟩
  · rw [if_neg hflat] at hp
    rcases List.mem_append.mp hp with hu | hl
    · split_ifs at hu with hz
      · exact scanline_conv3 q0 q1 q2 q0 q1 p (by omega) (conv3_v0 _ _ _) (conv3_v1 _ _ _) hu
      · exact fill_upper_near q0 q1 q2 p (by omega) hsorted.2 hq.1 hq.2.1 hq.2.2 hu
    · split_ifs at hl with hz
      · exact scanline_conv3 q0 q1 q2 q1 q2 p (by omega) (conv3_v1 _ _ _) (conv3_v2 _ _ _) hl
      · exact fill_lower_near q0 q1 q2 p hsorted.1 (by omega) hq.1 hq.2.1 hq.2.2 hl

/-- C5 as amended: for three vertices with non-negative `x`, every pixel that
`gfx_fill_triangle_2` draws lies within half a pixel, along its row, of the
closed triangle of the same vertices: a point `(x', y)` with `|x - x'| <= 1/2`
has weights `s >= 0`, `t >= 0`, `s + t <= 1` with `(x', y) = A + s * AB + t * AC`. -/
theorem gfx_fill_triangle_2_near (image : Image) (p0 p1 p2 : Vec2i) (color : Color)
    (hx0 : 0 ≤ p0.x) (hx1 : 0 ≤ p1.x) (hx2 : 0 ≤ p2.x) :
    gfx_fill_triangle_2 image p0 p1 p2 color
      = draw_points image (gfx_fill_triangle_2_pixels p0 p1 p2) color ∧
    ∀ p ∈ gfx_fill_triangle_2_pixels p0 p1 p2, near_closed_triangle p0 p1 p2 p := by
  refine ⟨gfx_fill_triangle_2_eq image p0 p1 p2 color, ?_⟩
  intro p hp
  obtain ⟨x', h1, a, b, c, ha, hb, hc, hs, hx, hy⟩ :=
    gfx_fill_triangle_2_pixels_near p0 p1 p2 p hx0 hx1 hx2 hp
  refine ⟨x', b, c, h1, hb, hc, by linarith, ?_, ?_⟩
  · rw [hx]; have : a = 1 - b - c := by linarith
    rw [this]; ring
  · rw [hy]; have : a = 1 - b - c := by linarith
    rw [this]; ring

/-- C5 as amended, on the triangle `(0,0)`, `(1,3)`, `(0,3)`: the drawn pixel
`(1, 2)` is within one half of the triangle. -/
theorem gfx_fill_triangle_2_near_witness :
    near_closed_triangle ⟨0, 0⟩ ⟨1, 3⟩ ⟨0, 3⟩ ⟨1, 2⟩ :=
  (gfx_fill_triangle_2_near ⟨4, 4, fun _ _ => ⟨0, 0, 0, 0⟩⟩ ⟨0, 0⟩ ⟨1, 3⟩ ⟨0, 3⟩
    ⟨255, 255, 255, 255⟩ (by decide) (by decide) (by decide)).2 ⟨1, 2⟩ (by decide!)

/-! ## Degenerate line -/

/-- C11: for an in-bounds point `p`, `gfx_draw_line(image, p, p, color)` passes
exactly the one point `p` to `gfx_draw_point`; it succeeds, the pixel `p` holds
`color` and every other pixel is unchanged. -/
theorem gfx_draw_line_point (image : Image) (p : Vec2i) (color : Color)
    (hp : in_bounds image p) :
    gfx_draw_line_pixels p p = [p] ∧
    gfx_draw_line image p p color = draw_points image (gfx_draw_line_pixels p p) color ∧
    ∃ im, gfx_draw_line image p p color = some im ∧
      im.width = image.width ∧ im.height = image.height ∧
      im.pix p.y p.x = color ∧
      ∀ r c, ¬ (r = p.y ∧ c = p.x) → im.pix r c = image.pix r c := by
  have hL : gfx_draw_line_pixels p p = [p] := by
    unfold gfx_draw_line_pixels
    simp
  refine ⟨hL, gfx_draw_line_eq image p p color, ?_⟩
  rw [gfx_draw_line_eq, hL]
  obtain ⟨im, h1, h2, h3, h4⟩ := draw_points_spec color [p] image
    (by intro q hq; rw [List.mem_singleton] at hq; rw [hq]; exact hp)
  refine ⟨im, h1, h2, h3, ?_, ?_⟩
  · rw [h4]; simp
  · intro r c hrc
    rw [h4, if_neg]
    rw [List.mem_singleton]
    intro e
    apply hrc
    rw [← e]
    exact ⟨rfl, rfl⟩

/-- C11 at the point `(2, 3)` of a 6 by 6 image. -/
theorem gfx_draw_line_point_witness :
    gfx_draw_line_pixels ⟨2, 3⟩ ⟨2, 3⟩ = [⟨2, 3⟩] :=
  (gfx_draw_line_point ⟨6, 6, fun _ _ => ⟨0, 0, 0, 0⟩⟩ ⟨2, 3⟩ ⟨255, 255, 255, 255⟩
    (by decide)).1


/-! ## Vertex attributes of the attribute fill -/

theorem c_int_cast_int (z : Int) : c_int_cast (z : ℚ) = z := by
  unfold c_int_cast
  rw [Rat.num_intCast, Rat.den_intCast]
  simp

theorem c_uchar_cast_byte (c : Nat) (h : c < 256) : c_uchar_cast (c : ℚ) = c := by
  unfold c_uchar_cast
  have : ((c : ℚ)) = ((c : Int) : ℚ) := by push_cast; rfl
  rw [this, c_int_cast_int]
  omega


theorem interp_weight_v0 : interp_weight 0 0 = 1 := by
  simp [interp_weight, fl64_one]

theorem interp_weight_v1 : interp_weight 1 0 = 0 := by
  simp [interp_weight, fl64_zero]

theorem interp_weight_v2 : interp_weight 0 1 = 0 := by
  simp [interp_weight, fl64_one, fl64_zero]

/-- At the weights of a vertex the computed depth is the vertex's own `float`
depth. -/
theorem interp_depth_vertex (p0 p1 p2 : Vec3i) (h0 : is_float p0.z) (h1 : is_float p1.z)
    (h2 : is_float p2.z) :
    interp_depth p0 p1 p2 0 0 = p0.z ∧ interp_depth p0 p1 p2 1 0 = p1.z ∧
    interp_depth p0 p1 p2 0 1 = p2.z := by
  have e0 := fl64_of_fl32 _ h0.1
  have e1 := fl64_of_fl32 _ h1.1
  have e2 := fl64_of_fl32 _ h2.1
  unfold interp_depth
  rw [interp_weight_v0, interp_weight_v1, interp_weight_v2]
  simp only [one_mul, zero_mul, fl64_zero, add_zero, zero_add, e0, e1, e2, h0.1, h1.1, h2.1]
  exact ⟨trivial, trivial, trivial⟩

/-- At the weights of a vertex a computed channel is the truncation of the
vertex's channel times the `float` intensity. -/
theorem interp_channel_vertex (a b c : Nat) (ha : a < 256) (hb : b < 256) (hc : c < 256)
    (I : ℚ) (hI : is_float I) :
    interp_channel a b c 0 0 I = c_uchar_cast ((a : ℚ) * I) ∧
    interp_channel a b c 1 0 I = c_uchar_cast ((b : ℚ) * I) ∧
    interp_channel a b c 0 1 I = c_uchar_cast ((c : ℚ) * I) := by
  have key : ∀ n : Nat, n < 256 → fl64 (n : ℚ) = n := by
    intro n hn
    have := fl64_int (n : Int) (by rw [abs_of_nonneg (by positivity)]; norm_cast; omega)
    exact_mod_cast this
  unfold interp_channel interp_channel_value
  rw [interp_weight_v0, interp_weight_v1, interp_weight_v2]
  simp only [one_mul, zero_mul, fl64_zero, add_zero, zero_add, key a ha, key b hb, key c hc,
    fl64_byte_mul a ha I hI.1, fl64_byte_mul b hb I hI.1, fl64_byte_mul c hc I hI.1]
  exact ⟨trivial, trivial, trivial⟩

/-- At the weights of a vertex the computed colour is the scaled colour of the
vertex. -/
theorem interp_color_vertex (c0 c1 c2 : Color) (h0 : c0.is_bytes) (h1 : c1.is_bytes)
    (h2 : c2.is_bytes) (I : ℚ) (hI : is_float I) :
    interp_color c0 c1 c2 0 0 I = scaled_color c0 I ∧
    interp_color c0 c1 c2 1 0 I = scaled_color c1 I ∧
    interp_color c0 c1 c2 0 1 I = scaled_color c2 I := by
  obtain ⟨r0, g0, b0, _⟩ := h0
  obtain ⟨r1, g1, b1, _⟩ := h1
  obtain ⟨r2, g2, b2, _⟩ := h2
  obtain ⟨x1, x2, x3⟩ := interp_channel_vertex c0.r c1.r c2.r r0 r1 r2 I hI
  obtain ⟨y1, y2, y3⟩ := interp_channel_vertex c0.g c1.g c2.g g0 g1 g2 I hI
  obtain ⟨z1, z2, z3⟩ := interp_channel_vertex c0.b c1.b c2.b b0 b1 b2 I hI
  unfold interp_color scaled_color
  rw [x1, x2, x3, y1, y2, y3, z1, z2, z3]
  exact ⟨rfl, rfl, rfl⟩

/-- At intensity 1 the scaled colour of a byte colour keeps its `b`, `g`, `r`. -/
theorem scaled_color_one (c : Color) (h : c.is_bytes) :
    scaled_color c 1 = { c with a := 255 } := by
  obtain ⟨hr, hg, hb, _⟩ := h
  unfold scaled_color
  simp only [mul_one]
  rw [c_uchar_cast_byte _ hr, c_uchar_cast_byte _ hg, c_uchar_cast_byte _ hb]


/-- C12 fails as stated: a triangle whose exact denominator is non-zero can
still be degenerate for the code, whose 32-bit `denom` wraps.  For the
vertices `(0,0)`, `(65536,0)`, `(0,65536)` of depth 1 the exact denominator is
`2 ^ 32` and the code's `denom` is 0: drawn into a 4 by 4 image over depth 0,
the vertex `(0, 0)` lies in the image over a stored depth `0 < 1`, yet no pixel
is drawn and its colour and depth stay as they were. -/
theorem gfx_fill_triangle_vertices_wrapped :
    tri_denom (xy ⟨0, 0, 1⟩) (xy ⟨65536, 0, 1⟩) (xy ⟨0, 65536, 1⟩) = 4294967296 ∧
    (gfx_fill_triangle ⟨4, 4, fun _ _ => ⟨0, 0, 0, 0⟩⟩ ⟨0, 0, 1⟩ ⟨65536, 0, 1⟩ ⟨0, 65536, 1⟩
        ⟨255, 0, 0, 255⟩ ⟨0, 255, 0, 255⟩ ⟨0, 0, 255, 255⟩ (fun _ => 0) 1).map
      (fun st => (st.1.pix 0 0, st.2 (0 * 4 + 0))) = some (⟨0, 0, 0, 0⟩, 0) := by
  refine ⟨?_, ?_⟩
  · decide
  · decide!

/-- C12 as amended: for a triangle of non-zero area with coordinates below
`2 ^ 14` in magnitude (so that the code's 32-bit `denom` is the exact one), in
an image of at most `2 ^ 14` columns and rows, with `float` vertex depths, a
`float` intensity and byte colours: at each vertex `point_k` that lies in the
image and whose stored depth is strictly less than `z_k`, the fill leaves the
depth `z_k` and the colour whose `b`, `g`, `r` are the truncations of
`color_k`'s channels times `intensity` with alpha 255 (so `color_k`'s own
`b`, `g`, `r` when `intensity = 1`); and every pixel the fill draws ends with
alpha 255. -/
theorem gfx_fill_triangle_vertices (image : Image) (p0 p1 p2 : Vec3i) (c0 c1 c2 : Color)
    (zbuffer : ZBuffer) (I : ℚ)
    (h0 : small_coord (xy p0)) (h1 : small_coord (xy p1)) (h2 : small_coord (xy p2))
    (hw : image.width ≤ 16384) (hh : image.height ≤ 16384)
    (hd : tri_denom (xy p0) (xy p1) (xy p2) ≠ 0)
    (hz0 : is_float p0.z) (hz1 : is_float p1.z) (hz2 : is_float p2.z) (hI : is_float I)
    (hc0 : c0.is_bytes) (hc1 : c1.is_bytes) (hc2 : c2.is_bytes) :
    ∃ im zb, gfx_fill_triangle image p0 p1 p2 c0 c1 c2 zbuffer I = some (im, zb) ∧
      ((0 ≤ p0.x ∧ p0.x < image.width ∧ 0 ≤ p0.y ∧ p0.y < image.height) →
        zbuffer (p0.y * image.width + p0.x) < p0.z →
        zb (p0.y * image.width + p0.x) = p0.z ∧ im.pix p0.y p0.x = scaled_color c0 I ∧
        (I = 1 → im.pix p0.y p0.x = { c0 with a := 255 })) ∧
      ((0 ≤ p1.x ∧ p1.x < image.width ∧ 0 ≤ p1.y ∧ p1.y < image.height) →
        zbuffer (p1.y * image.width + p1.x) < p1.z →
        zb (p1.y * image.width + p1.x) = p1.z ∧ im.pix p1.y p1.x = scaled_color c1 I ∧
        (I = 1 → im.pix p1.y p1.x = { c1 with a := 255 })) ∧
      ((0 ≤ p2.x ∧ p2.x < image.width ∧ 0 ≤ p2.y ∧ p2.y < image.height) →
        zbuffer (p2.y * image.width + p2.x) < p2.z →
        zb (p2.y * image.width + p2.x) = p2.z ∧ im.pix p2.y p2.x = scaled_color c2 I ∧
        (I = 1 → im.pix p2.y p2.x = { c2 with a := 255 })) ∧
      (∀ i j, fill_hit image zbuffer p0 p1 p2 i j = true → (im.pix j i).a = 255) := by
  obtain ⟨im, zb, e1, _, _, e2, _⟩ :=
    gfx_fill_triangle_nondeg image p0 p1 p2 c0 c1 c2 zbuffer I h0 h1 h2 hw hh hd
  obtain ⟨im', zb', e1', _, _, e4, _⟩ :=
    gfx_fill_triangle_spec image p0 p1 p2 c0 c1 c2 zbuffer I
  have e : (im', zb') = (im, zb) := Option.some.inj (e1'.symm.trans e1)
  simp only [Prod.mk.injEq] at e
  obtain ⟨rfl, rfl⟩ := e
  obtain ⟨z0, z1, z2⟩ := interp_depth_vertex p0 p1 p2 hz0 hz1 hz2
  obtain ⟨k0, k1, k2⟩ := interp_color_vertex c0 c1 c2 hc0 hc1 hc2 I hI
  refine ⟨im', zb', e1, ?_, ?_, ?_, ?_⟩
  · intro hb hz
    have hin : in_closed_triangle (xy p0) (xy p1) (xy p2) (vec2i_new p0.x p0.y) 0 0 := by
      unfold in_closed_triangle xy vec2i_new; norm_num
    have := ((e2 p0.x p0.y).2.1 0 0 hb hin).1 (by rw [fl64_zero, z0]; exact hz)
    rw [fl64_zero, z0, k0] at this
    refine ⟨this.2, this.1, ?_⟩
    intro hI1
    rw [this.1, hI1, scaled_color_one c0 hc0]
  · intro hb hz
    have hin : in_closed_triangle (xy p0) (xy p1) (xy p2) (vec2i_new p1.x p1.y) 1 0 := by
      unfold in_closed_triangle xy vec2i_new; norm_num
    have := ((e2 p1.x p1.y).2.1 1 0 hb hin).1 (by rw [fl64_zero, fl64_one, z1]; exact hz)
    rw [fl64_zero, fl64_one, z1, k1] at this
    refine ⟨this.2, this.1, ?_⟩
    intro hI1
    rw [this.1, hI1, scaled_color_one c1 hc1]
  · intro hb hz
    have hin : in_closed_triangle (xy p0) (xy p1) (xy p2) (vec2i_new p2.x p2.y) 0 1 := by
      unfold in_closed_triangle xy vec2i_new; norm_num
    have := ((e2 p2.x p2.y).2.1 0 1 hb hin).1 (by rw [fl64_zero, fl64_one, z2]; exact hz)
    rw [fl64_zero, fl64_one, z2, k2] at this
    refine ⟨this.2, this.1, ?_⟩
    intro hI1
    rw [this.1, hI1, scaled_color_one c2 hc2]
  · intro i j hhit
    obtain ⟨hm, s, t, hv⟩ := fill_hit_true image zbuffer p0 p1 p2 i j hhit
    rw [(e4 i j s t hm hv).1]
    rfl

/-- C12 as amended, on the triangle `(0,0)`, `(3,0)`, `(0,3)` of depths 1, 2, 3
drawn at intensity 1 into a 4 by 4 image over depth 0: the vertex `(3, 0)` ends
with depth 2 and the green of its colour. -/
theorem gfx_fill_triangle_vertices_witness :
    ∃ im zb, gfx_fill_triangle ⟨4, 4, fun _ _ => ⟨0, 0, 0, 0⟩⟩ ⟨0, 0, 1⟩ ⟨3, 0, 2⟩ ⟨0, 3, 3⟩
        ⟨255, 0, 0, 255⟩ ⟨0, 255, 0, 255⟩ ⟨0, 0, 255, 255⟩ (fun _ => 0) 1 = some (im, zb) ∧
      zb (0 * 4 + 3) = 2 ∧ im.pix 0 3 = ⟨0, 255, 0, 255⟩ := by
  obtain ⟨im, zb, h1, _, h3, _⟩ := gfx_fill_triangle_vertices ⟨4, 4, fun _ _ => ⟨0, 0, 0, 0⟩⟩
    ⟨0, 0, 1⟩ ⟨3, 0, 2⟩ ⟨0, 3, 3⟩ ⟨255, 0, 0, 255⟩ ⟨0, 255, 0, 255⟩ ⟨0, 0, 255, 255⟩
    (fun _ => 0) 1 (by decide) (by decide) (by decide) (by decide) (by decide) (by decide)
    (by decide!) (by decide!) (by decide!) (by decide!) (by decide) (by decide) (by decide)
  have h := h3 (by decide) (by norm_num)
  exact ⟨im, zb, h1, h.1, h.2.2 rfl⟩


/-! ## The viewport matrix -/

/-- An integer below `2 ^ 24` in magnitude is a `float`. -/
theorem fl32_int (m : Int) (hm : |m| < 2 ^ 24) : fl32 (m : ℚ) = m := by
  have := fl_round_exact 24 (-126) m 0 hm (by norm_num)
  rw [pow2_zero, mul_one] at this
  exact this

/-- Half an integer below `2 ^ 24` in magnitude is a `float`. -/
theorem fl32_half_int (m : Int) (hm : |m| < 2 ^ 24) : fl32 ((m : ℚ) / 2) = (m : ℚ) / 2 := by
  have := fl_round_exact 24 (-126) m (-1) hm (by norm_num)
  rw [pow2_neg_one] at this
  have e : (m : ℚ) / 2 = (m : ℚ) * (1 / 2) := by ring
  rw [e]
  exact this

/-- The entries of `gfx_viewport_matrix`. -/
theorem gfx_viewport_matrix_entries (x y width height : Int) :
    gfx_viewport_matrix x y width height = fun i j =>
      if i = 0 ∧ j = 0 then fl32 (fl32 (width : ℚ) / 2)
      else if i = 0 ∧ j = 3 then fl32 (fl32 (x : ℚ) + fl32 (fl32 (width : ℚ) / 2))
      else if i = 1 ∧ j = 1 then fl32 (fl32 (height : ℚ) / 2)
      else if i = 1 ∧ j = 3 then fl32 (fl32 (y : ℚ) + fl32 (fl32 (height : ℚ) / 2))
      else if i = 2 ∧ j = 3 then 1
      else if i = 3 ∧ j = 3 then 1
      else 0 := by
  funext i j
  fin_cases i <;> fin_cases j <;>
    simp [gfx_viewport_matrix, mat4f_set, mat4f_identity]

/-- For an origin and an extent of at most `2 ^ 22` in magnitude the `float`
entries `width / 2.0f` and `x + width / 2.0f` are exact. -/
theorem viewport_entry_exact (x w : Int) (hx : |x| ≤ 4194304) (hw : |w| ≤ 4194304) :
    fl32 (fl32 (w : ℚ) / 2) = (w : ℚ) / 2 ∧
    fl32 (fl32 (x : ℚ) + fl32 (fl32 (w : ℚ) / 2)) = (x : ℚ) + (w : ℚ) / 2 := by
  rw [abs_le] at hx hw
  have h1 : fl32 (w : ℚ) = w := fl32_int w (by rw [abs_lt]; constructor <;> omega)
  have h2 : fl32 ((w : ℚ) / 2) = (w : ℚ) / 2 :=
    fl32_half_int w (by rw [abs_lt]; constructor <;> omega)
  have h3 : fl32 (x : ℚ) = x := fl32_int x (by rw [abs_lt]; constructor <;> omega)
  have h4 : fl32 ((x : ℚ) + (w : ℚ) / 2) = (x : ℚ) + (w : ℚ) / 2 := by
    have := fl32_half_int (2 * x + w) (by rw [abs_lt]; constructor <;> omega)
    have e : ((2 * x + w : Int) : ℚ) / 2 = (x : ℚ) + (w : ℚ) / 2 := by push_cast; ring
    rw [e] at this
    exact this
  rw [h1, h2, h3, h4]
  exact ⟨rfl, rfl⟩

/-- The product of `gfx_viewport_matrix` and a point with `w = 1`, for an
origin and extents of at most `2 ^ 22` in magnitude. -/
theorem gfx_viewport_matrix_apply (x y width height : Int) (nx ny nz : ℚ)
    (hx : |x| ≤ 4194304) (hy : |y| ≤ 4194304) (hw : |width| ≤ 4194304)
    (hh : |height| ≤ 4194304) :
    mat4f_mul_vec4f (gfx_viewport_matrix x y width height) (vec4f_new nx ny nz 1)
      = vec4f_new ((x : ℚ) + (nx + 1) * (width : ℚ) / 2) ((y : ℚ) + (ny + 1) * (height : ℚ) / 2)
          1 1 := by
  obtain ⟨a1, a2⟩ := viewport_entry_exact x width hx hw
  obtain ⟨b1, b2⟩ := viewport_entry_exact y height hy hh
  rw [gfx_viewport_matrix_entries, a2, a1, b2, b1]
  funext i
  fin_cases i <;> simp [mat4f_mul_vec4f, vec4f_new] <;> ring

/-- An affine map of slope `w / 2 >= 0` carries `[-1, 1]` onto `[x, x + w]`. -/
theorem viewport_axis_onto (x w p : ℚ) (hw : 0 ≤ w) :
    (x ≤ p ∧ p ≤ x + w) ↔ ∃ n : ℚ, (-1 ≤ n ∧ n ≤ 1) ∧ x + (n + 1) * w / 2 = p := by
  constructor
  · rintro ⟨h1, h2⟩
    rcases eq_or_lt_of_le hw with h0 | hpos
    · refine ⟨0, by norm_num, ?_⟩
      rw [← h0] at h2 ⊢
      linarith
    · refine ⟨2 * (p - x) / w - 1, ⟨?_, ?_⟩, ?_⟩
      · have : 0 ≤ 2 * (p - x) / w := div_nonneg (by linarith) hw
        linarith
      · have : 2 * (p - x) / w ≤ 2 := by rw [div_le_iff₀ hpos]; linarith
        linarith
      · field_simp
  · rintro ⟨n, ⟨h1, h2⟩, rfl⟩
    constructor
    · have : 0 ≤ (n + 1) * w / 2 := by
        apply div_nonneg (mul_nonneg (by linarith) hw); norm_num
      linarith
    · nlinarith [mul_nonneg (by linarith : (0 : ℚ) ≤ 1 - n) hw]

/-- C13 fails as stated: the entries are `float`s and the map reverses an
interval of negative extent.  On the viewport `(16777217, 0, 3, 2)` the entry
`x + width / 2.0f` is the `float` 16777218 and the centre `(0, 0, 0, 1)` gets
the first component 16777218, not `16777217 + 3/2`; on the viewport
`(0, 0, -2, 2)` the point `(1, 0, 0, 1)` of the square goes to the first
component `-2`, which lies in no interval `[0, 0 + (-2)]`. -/
theorem gfx_viewport_matrix_centre_inexact :
    (mat4f_mul_vec4f (gfx_viewport_matrix 16777217 0 3 2) (vec4f_new 0 0 0 1) 0 = 16777218 ∧
      (16777218 : ℚ) ≠ 16777217 + 3 / 2) ∧
    (mat4f_mul_vec4f (gfx_viewport_matrix 0 0 (-2) 2) (vec4f_new 1 0 0 1) 0 = -2 ∧
      ¬ ((0 : ℚ) ≤ -2 ∧ (-2 : ℚ) ≤ 0 + (-2))) := by
  refine ⟨⟨?_, by norm_num⟩, ⟨?_, by norm_num⟩⟩
  · rw [gfx_viewport_matrix_entries]
    simp only [mat4f_mul_vec4f, vec4f_new]
    simp
    decide!
  · rw [gfx_viewport_matrix_entries]
    simp only [mat4f_mul_vec4f, vec4f_new]
    simp
    decide!

/-- C13 as amended: for `x`, `y`, `width`, `height` of at most `2 ^ 22` in
magnitude (so that the `float` entries are exact), `gfx_viewport_matrix(x, y,
width, height)` sends `(0, 0, z, 1)` to first components `x + width / 2` and
`y + height / 2` (exact halves), and `(nx, ny, z, 1)` to
`x + (nx + 1) * width / 2` and `y + (ny + 1) * height / 2`, the product being
taken in exact arithmetic; and for `width, height >= 0` the square
`[-1, 1] x [-1, 1]` is carried onto `[x, x + width] x [y, y + height]`. -/
theorem gfx_viewport_matrix_centre (x y width height : Int) (z : ℚ)
    (hx : |x| ≤ 4194304) (hy : |y| ≤ 4194304) (hw : |width| ≤ 4194304)
    (hh : |height| ≤ 4194304) :
    (mat4f_mul_vec4f (gfx_viewport_matrix x y width height) (vec4f_new 0 0 z 1) 0
        = (x : ℚ) + (width : ℚ) / 2 ∧
      mat4f_mul_vec4f (gfx_viewport_matrix x y width height) (vec4f_new 0 0 z 1) 1
        = (y : ℚ) + (height : ℚ) / 2) ∧
    (∀ nx ny : ℚ,
      mat4f_mul_vec4f (gfx_viewport_matrix x y width height) (vec4f_new nx ny z 1) 0
        = (x : ℚ) + (nx + 1) * (width : ℚ) / 2 ∧
      mat4f_mul_vec4f (gfx_viewport_matrix x y width height) (vec4f_new nx ny z 1) 1
        = (y : ℚ) + (ny + 1) * (height : ℚ) / 2) ∧
    (0 ≤ width → 0 ≤ height → ∀ px py : ℚ,
      (((x : ℚ) ≤ px ∧ px ≤ (x : ℚ) + (width : ℚ)) ∧
        ((y : ℚ) ≤ py ∧ py ≤ (y : ℚ) + (height : ℚ))) ↔
      ∃ nx ny : ℚ, (-1 ≤ nx ∧ nx ≤ 1) ∧ (-1 ≤ ny ∧ ny ≤ 1) ∧
        mat4f_mul_vec4f (gfx_viewport_matrix x y width height) (vec4f_new nx ny z 1) 0 = px ∧
        mat4f_mul_vec4f (gfx_viewport_matrix x y width height) (vec4f_new nx ny z 1) 1 = py) := by
  have hgen : ∀ nx ny : ℚ,
      mat4f_mul_vec4f (gfx_viewport_matrix x y width height) (vec4f_new nx ny z 1) 0
        = (x : ℚ) + (nx + 1) * (width : ℚ) / 2 ∧
      mat4f_mul_vec4f (gfx_viewport_matrix x y width height) (vec4f_new nx ny z 1) 1
        = (y : ℚ) + (ny + 1) * (height : ℚ) / 2 := by
    intro nx ny
    rw [gfx_viewport_matrix_apply x y width height nx ny z hx hy hw hh]
    simp [vec4f_new]
  refine ⟨?_, hgen, ?_⟩
  · have := hgen 0 0
    simp only [zero_add, one_mul] at this
    exact this
  · intro hw0 hh0 px py
    have hw' : (0 : ℚ) ≤ width := by exact_mod_cast hw0
    have hh' : (0 : ℚ) ≤ height := by exact_mod_cast hh0
    rw [viewport_axis_onto x width px hw', viewport_axis_onto y height py hh']
    constructor
    · rintro ⟨⟨nx, hnx, ex⟩, ⟨ny, hny, ey⟩⟩
      exact ⟨nx, ny, hnx, hny, (hgen nx ny).1.trans ex, (hgen nx ny).2.trans ey⟩
    · rintro ⟨nx, ny, hnx, hny, ex, ey⟩
      exact ⟨⟨nx, hnx, (hgen nx ny).1.symm.trans ex⟩, ⟨ny, hny, (hgen nx ny).2.symm.trans ey⟩⟩

/-- C13 as amended, on the viewport `(10, 20, 640, 480)`: the centre
`(0, 0, z, 1)` goes to `(330, 260)`. -/
theorem gfx_viewport_matrix_centre_witness :
    mat4f_mul_vec4f (gfx_viewport_matrix 10 20 640 480) (vec4f_new 0 0 (5 : ℚ) 1) 0 = 330 ∧
    mat4f_mul_vec4f (gfx_viewport_matrix 10 20 640 480) (vec4f_new 0 0 (5 : ℚ) 1) 1 = 260 := by
  have h := (gfx_viewport_matrix_centre 10 20 640 480 5 (by decide) (by decide) (by decide)
    (by decide)).1
  constructor
  · rw [h.1]; norm_num
  · rw [h.2]; norm_num

/-- C14 fails: on the viewport `(0, 0, 2, 2)` the point `(0, 0, 0, 1)` of depth
`nz = 0` comes out with `z` component 1, not 0. -/
theorem gfx_viewport_matrix_depth_lost :
    mat4f_mul_vec4f (gfx_viewport_matrix 0 0 2 2) (vec4f_new (0 : ℚ) 0 0 1) 2 = 1 ∧
    mat4f_mul_vec4f (gfx_viewport_matrix 0 0 2 2) (vec4f_new (0 : ℚ) 0 0 1) 2 ≠ 0 := by
  rw [gfx_viewport_matrix_entries]
  simp [mat4f_mul_vec4f, vec4f_new]

/-- C14 as amended: the `z` row of `gfx_viewport_matrix` has scale 0 and offset
1, so the `z` component of the product with `(nx, ny, nz, w)` is `w`; for a
point with `w = 1` it is 1 whatever the depth `nz`, which is not carried
through. -/
theorem gfx_viewport_matrix_depth (x y width height : Int) (nx ny nz w : ℚ) :
    (gfx_viewport_matrix x y width height : Mat4f ℚ) 2 2 = 0 ∧
    (gfx_viewport_matrix x y width height : Mat4f ℚ) 2 3 = 1 ∧
    mat4f_mul_vec4f (gfx_viewport_matrix x y width height) (vec4f_new nx ny nz w) 2 = w ∧
    mat4f_mul_vec4f (gfx_viewport_matrix x y width height) (vec4f_new nx ny nz 1) 2 = 1 := by
  rw [gfx_viewport_matrix_entries]
  refine ⟨?_, ?_, ?_, ?_⟩ <;> simp [mat4f_mul_vec4f, vec4f_new]


/-! ## The view matrix -/

/-- The upper-left block of `gfx_lookat_matrix` has the rows `xaxis`, `yaxis`,
`zaxis`. -/
theorem gfx_lookat_matrix_rows {K : Type} [Field K] (sqrt : K → K) (eye center up : Vec3f K) :
    mat4f_row3 (gfx_lookat_matrix sqrt eye center up) 0
      = vec3f_normalize sqrt (vec3f_cross up (vec3f_normalize sqrt (vec3f_sub eye center))) ∧
    mat4f_row3 (gfx_lookat_matrix sqrt eye center up) 1
      = vec3f_normalize sqrt (vec3f_cross (vec3f_normalize sqrt (vec3f_sub eye center))
          (vec3f_normalize sqrt
            (vec3f_cross up (vec3f_normalize sqrt (vec3f_sub eye center))))) ∧
    mat4f_row3 (gfx_lookat_matrix sqrt eye center up) 2
      = vec3f_normalize sqrt (vec3f_sub eye center) := by
  have c0 : Fin.castSucc (0 : Fin 3) = (0 : Fin 4) := rfl
  have c1 : Fin.castSucc (1 : Fin 3) = (1 : Fin 4) := rfl
  have c2 : Fin.castSucc (2 : Fin 3) = (2 : Fin 4) := rfl
  refine ⟨?_, ?_, ?_⟩ <;>
  · funext j
    fin_cases j <;>
      simp [mat4f_row3, gfx_lookat_matrix, mat4f_mul_mat4f, mat4f_set, mat4f_identity,
        c0, c1, c2]

theorem vec3f_cross_apply {K : Type} [Field K] (a b : Vec3f K) :
    vec3f_cross a b 0 = a 1 * b 2 - a 2 * b 1 ∧
    vec3f_cross a b 1 = a 2 * b 0 - a 0 * b 2 ∧
    vec3f_cross a b 2 = a 0 * b 1 - a 1 * b 0 := by
  refine ⟨?_, ?_, ?_⟩ <;> simp [vec3f_cross]

/-- The cross product is orthogonal to both factors. -/
theorem vec3f_cross_dot {K : Type} [Field K] (a b : Vec3f K) :
    vec3f_dot (vec3f_cross a b) a = 0 ∧ vec3f_dot (vec3f_cross a b) b = 0 := by
  obtain ⟨e0, e1, e2⟩ := vec3f_cross_apply a b
  unfold vec3f_dot
  rw [e0, e1, e2]
  constructor <;> ring

/-- Lagrange's identity. -/
theorem vec3f_cross_norm {K : Type} [Field K] (a b : Vec3f K) :
    vec3f_dot (vec3f_cross a b) (vec3f_cross a b)
      = vec3f_dot a a * vec3f_dot b b - vec3f_dot a b * vec3f_dot a b := by
  obtain ⟨e0, e1, e2⟩ := vec3f_cross_apply a b
  unfold vec3f_dot
  rw [e0, e1, e2]
  ring

theorem vec3f_dot_comm {K : Type} [Field K] (a b : Vec3f K) : vec3f_dot a b = vec3f_dot b a := by
  unfold vec3f_dot; ring

theorem vec3f_dot_normalize_left {K : Type} [Field K] (sqrt : K → K) (v w : Vec3f K) :
    vec3f_dot (vec3f_normalize sqrt v) w = vec3f_dot v w / sqrt (vec3f_dot v v) := by
  unfold vec3f_normalize
  generalize sqrt (vec3f_dot v v) = n
  simp only [vec3f_dot]
  ring

theorem vec3f_cross_normalize_right {K : Type} [Field K] (sqrt : K → K) (a b : Vec3f K) :
    vec3f_cross a (vec3f_normalize sqrt b)
      = fun i => vec3f_cross a b i / sqrt (vec3f_dot b b) := by
  funext i
  fin_cases i <;> simp [vec3f_cross, vec3f_normalize] <;> ring

/-- A non-zero real vector has a positive squared length. -/
theorem vec3f_dot_self_pos (v : Vec3f ℝ) (h : v ≠ 0) : 0 < vec3f_dot v v := by
  unfold vec3f_dot
  by_contra hc
  have h0 := mul_self_nonneg (v 0)
  have h1 := mul_self_nonneg (v 1)
  have h2 := mul_self_nonneg (v 2)
  have e0 : v 0 = 0 := mul_self_eq_zero.mp (by linarith)
  have e1 : v 1 = 0 := mul_self_eq_zero.mp (by linarith)
  have e2 : v 2 = 0 := mul_self_eq_zero.mp (by linarith)
  apply h
  funext i
  fin_cases i
  · exact e0
  · exact e1
  · exact e2

/-- A real vector of positive squared length is normalised to unit length. -/
theorem vec3f_normalize_unit (v : Vec3f ℝ) (h : 0 < vec3f_dot v v) :
    vec3f_dot (vec3f_normalize Real.sqrt v) (vec3f_normalize Real.sqrt v) = 1 := by
  have hs : Real.sqrt (vec3f_dot v v) * Real.sqrt (vec3f_dot v v) = vec3f_dot v v :=
    Real.mul_self_sqrt h.le
  have hn : Real.sqrt (vec3f_dot v v) ≠ 0 := (Real.sqrt_pos.mpr h).ne'
  have e : vec3f_dot (vec3f_normalize Real.sqrt v) (vec3f_normalize Real.sqrt v)
      = vec3f_dot v v / (Real.sqrt (vec3f_dot v v) * Real.sqrt (vec3f_dot v v)) := by
    unfold vec3f_normalize
    generalize Real.sqrt (vec3f_dot v v) = n at hn
    unfold vec3f_dot
    field_simp
  rw [e, hs]
  exact div_self h.ne'

/-- C15: for real `eye`, `center`, `up` with `eye != center` and `up` not
parallel to `eye - center` (their cross product is not zero), the rows of the
upper-left 3 by 3 block of `gfx_lookat_matrix` are `xaxis`, `yaxis`, `zaxis`
(the normalised `up x zaxis`, the normalised `zaxis x xaxis`, the normalised
`eye - center`), each of unit norm, and pairwise orthogonal. -/
theorem gfx_lookat_matrix_orthonormal (eye center up : Vec3f ℝ) (h1 : eye ≠ center)
    (h2 : vec3f_cross up (vec3f_sub eye center) ≠ 0) :
    (mat4f_row3 (gfx_lookat_matrix Real.sqrt eye center up) 0
        = vec3f_normalize Real.sqrt
            (vec3f_cross up (vec3f_normalize Real.sqrt (vec3f_sub eye center))) ∧
      mat4f_row3 (gfx_lookat_matrix Real.sqrt eye center up) 1
        = vec3f_normalize Real.sqrt
            (vec3f_cross (vec3f_normalize Real.sqrt (vec3f_sub eye center))
              (vec3f_normalize Real.sqrt
                (vec3f_cross up (vec3f_normalize Real.sqrt (vec3f_sub eye center))))) ∧
      mat4f_row3 (gfx_lookat_matrix Real.sqrt eye center up) 2
        = vec3f_normalize Real.sqrt (vec3f_sub eye center)) ∧
    (vec3f_dot (mat4f_row3 (gfx_lookat_matrix Real.sqrt eye center up) 0)
        (mat4f_row3 (gfx_lookat_matrix Real.sqrt eye center up) 0) = 1 ∧
      vec3f_dot (mat4f_row3 (gfx_lookat_matrix Real.sqrt eye center up) 1)
        (mat4f_row3 (gfx_lookat_matrix Real.sqrt eye center up) 1) = 1 ∧
      vec3f_dot (mat4f_row3 (gfx_lookat_matrix Real.sqrt eye center up) 2)
        (mat4f_row3 (gfx_lookat_matrix Real.sqrt eye center up) 2) = 1) ∧
    (vec3f_dot (mat4f_row3 (gfx_lookat_matrix Real.sqrt eye center up) 0)
        (mat4f_row3 (gfx_lookat_matrix Real.sqrt eye center up) 1) = 0 ∧
      vec3f_dot (mat4f_row3 (gfx_lookat_matrix Real.sqrt eye center up) 0)
        (mat4f_row3 (gfx_lookat_matrix Real.sqrt eye center up) 2) = 0 ∧
      vec3f_dot (mat4f_row3 (gfx_lookat_matrix Real.sqrt eye center up) 1)
        (mat4f_row3 (gfx_lookat_matrix Real.sqrt eye center up) 2) = 0) := by
  obtain ⟨r0, r1, r2⟩ := gfx_lookat_matrix_rows Real.sqrt eye center up
  refine ⟨⟨r0, r1, r2⟩, ?_⟩
  rw [r0, r1, r2]
  -- the three axes
  have hd : vec3f_sub eye center ≠ 0 := by
    intro e
    apply h1
    funext i
    have := congrFun e i
    simp only [vec3f_sub, Pi.zero_apply] at this
    linarith
  have hdpos := vec3f_dot_self_pos _ hd
  have hnpos : 0 < Real.sqrt (vec3f_dot (vec3f_sub eye center) (vec3f_sub eye center)) :=
    Real.sqrt_pos.mpr hdpos
  have hzz := vec3f_normalize_unit _ hdpos
  generalize hz : vec3f_normalize Real.sqrt (vec3f_sub eye center) = z at hzz ⊢
  have hu : vec3f_cross up z ≠ 0 := by
    intro e
    apply h2
    rw [← hz, vec3f_cross_normalize_right] at e
    funext i
    have := congrFun e i
    simp only [Pi.zero_apply] at this ⊢
    rcases div_eq_zero_iff.mp this with h | h
    · exact h
    · exact absurd h hnpos.ne'
  have hupos := vec3f_dot_self_pos _ hu
  have hmpos : 0 < Real.sqrt (vec3f_dot (vec3f_cross up z) (vec3f_cross up z)) :=
    Real.sqrt_pos.mpr hupos
  have hxx := vec3f_normalize_unit _ hupos
  have hxz : vec3f_dot (vec3f_normalize Real.sqrt (vec3f_cross up z)) z = 0 := by
    rw [vec3f_dot_normalize_left, (vec3f_cross_dot up z).2, zero_div]
  generalize hx : vec3f_normalize Real.sqrt (vec3f_cross up z) = x at hxx hxz ⊢
  have hzx : vec3f_dot z x = 0 := by rw [vec3f_dot_comm]; exact hxz
  have hvv : vec3f_dot (vec3f_cross z x) (vec3f_cross z x) = 1 := by
    rw [vec3f_cross_norm, hzz, hxx, hzx]; norm_num
  have hy : vec3f_normalize Real.sqrt (vec3f_cross z x) = vec3f_cross z x := by
    funext i
    unfold vec3f_normalize
    rw [hvv, Real.sqrt_one, div_one]
  rw [hy]
  refine ⟨⟨hxx, hvv, hzz⟩, ?_, hxz, ?_⟩
  · rw [vec3f_dot_comm]; exact (vec3f_cross_dot z x).2
  · exact (vec3f_cross_dot z x).1

/-- C15 for the camera at `(3, 0, 4)` looking at the origin with
`up = (0, 1, 0)`: the third row of the block is `zaxis = (3/5, 0, 4/5)`, and the
first two rows are orthogonal. -/
theorem gfx_lookat_matrix_orthonormal_witness :
    mat4f_row3 (gfx_lookat_matrix Real.sqrt ![3, 0, 4] ![0, 0, 0] ![0, 1, 0]) 2
      = ![3 / 5, 0, 4 / 5] ∧
    vec3f_dot (mat4f_row3 (gfx_lookat_matrix Real.sqrt ![3, 0, 4] ![0, 0, 0] ![0, 1, 0]) 0)
        (mat4f_row3 (gfx_lookat_matrix Real.sqrt ![3, 0, 4] ![0, 0, 0] ![0, 1, 0]) 1) = 0 := by
  have h := gfx_lookat_matrix_orthonormal ![3, 0, 4] ![0, 0, 0] ![0, 1, 0]
    (by intro e; have := congrFun e 2; simp at this)
    (by intro e; have := congrFun e 0; simp [vec3f_cross, vec3f_sub] at this)
  refine ⟨?_, h.2.2.1⟩
  rw [h.1.2.2]
  have hs : Real.sqrt 25 = 5 := by
    rw [show (25 : ℝ) = 5 ^ 2 by norm_num]
    exact Real.sqrt_sq (by norm_num)
  have hd : vec3f_dot (vec3f_sub ![3, 0, 4] ![0, 0, 0]) (vec3f_sub ![3, 0, 4] ![0, 0, 0])
      = (25 : ℝ) := by
    simp [vec3f_dot, vec3f_sub]; norm_num
  funext i
  unfold vec3f_normalize
  rw [hd, hs]
  fin_cases i <;> simp [vec3f_sub]

/-! ## The vertex sort `sort_point_y` -/

/-- C16 fails: from `(0,2)`, `(1,2)`, `(2,1)` the sort returns `(2,1)`, `(1,2)`,
`(0,2)`; the two points of equal `y = 2` come out exchanged, so the output is
not a stable arrangement of the input. -/
theorem sort_point_y_unstable :
    sort_point_y ⟨0, 2⟩ ⟨1, 2⟩ ⟨2, 1⟩ = (⟨2, 1⟩, ⟨1, 2⟩, ⟨0, 2⟩) ∧
    ¬ stable_sorted_y ![⟨0, 2⟩, ⟨1, 2⟩, ⟨2, 1⟩]
      ![(sort_point_y ⟨0, 2⟩ ⟨1, 2⟩ ⟨2, 1⟩).1, (sort_point_y ⟨0, 2⟩ ⟨1, 2⟩ ⟨2, 1⟩).2.1,
        (sort_point_y ⟨0, 2⟩ ⟨1, 2⟩ ⟨2, 1⟩).2.2] := by
  have e : sort_point_y ⟨0, 2⟩ ⟨1, 2⟩ ⟨2, 1⟩ = (⟨2, 1⟩, ⟨1, 2⟩, ⟨0, 2⟩) := by decide
  refine ⟨e, ?_⟩
  rw [e]
  rintro ⟨σ, _, hσ, _, hst⟩
  have h1 := hσ 1
  have h2 := hσ 2
  have hlt := hst 1 2 (by decide) (by simp)
  generalize σ 1 = k1 at h1 hlt
  generalize σ 2 = k2 at h2 hlt
  fin_cases k1 <;> fin_cases k2 <;> simp at h1 h2 hlt

/-- C16 as amended: `sort_point_y` returns a rearrangement of its three input
points with `y0 <= y1 <= y2`; two points of equal `y` keep their input order,
except when the first two inputs have equal `y` and the third a strictly
smaller one: then the output is `(point2, point1, point0)`, the first two
exchanged. -/
theorem sort_point_y_arrangement (a b c : Vec2i) :
    [(sort_point_y a b c).1, (sort_point_y a b c).2.1, (sort_point_y a b c).2.2].Perm [a, b, c] ∧
    ((sort_point_y a b c).1.y ≤ (sort_point_y a b c).2.1.y ∧
      (sort_point_y a b c).2.1.y ≤ (sort_point_y a b c).2.2.y) ∧
    (¬ (a.y = b.y ∧ c.y < a.y) →
      stable_sorted_y ![a, b, c]
        ![(sort_point_y a b c).1, (sort_point_y a b c).2.1, (sort_point_y a b c).2.2]) ∧
    ((a.y = b.y ∧ c.y < a.y) → sort_point_y a b c = (c, b, a)) := by
  refine ⟨?_, sort_point_y_sorted a b c, ?_, ?_⟩
  · rcases sort_point_y_perm a b c with h | h | h | h | h | h
    · rw [h]
    · rw [h]; exact List.Perm.cons a (List.Perm.swap b c [])
    · rw [h]; exact List.Perm.swap a b [c]
    · rw [h]
      exact (List.Perm.cons b (List.Perm.swap a c [])).trans (List.Perm.swap a b [c])
    · rw [h]
      exact (List.Perm.swap a c [b]).trans (List.Perm.cons a (List.Perm.swap b c []))
    · rw [h]
      exact ((List.Perm.swap b c [a]).trans (List.Perm.cons b (List.Perm.swap a c []))).trans
        (List.Perm.swap a b [c])
  · intro hbad
    by_cases c1 : a.y > b.y
    · by_cases c2 : b.y > c.y
      · have e : sort_point_y a b c = (c, b, a) := by
          unfold sort_point_y; simp [c1, c2]
        rw [e]
        refine ⟨![2, 1, 0], by decide, ?_, ?_, ?_⟩
        · intro i; fin_cases i <;> rfl
        · intro i j hij; fin_cases i <;> fin_cases j <;> simp at hij ⊢ <;> try omega
        · intro i j hij; fin_cases i <;> fin_cases j <;> simp at hij ⊢ <;> try omega
      · by_cases c3 : a.y > c.y
        · have e : sort_point_y a b c = (b, c, a) := by
            unfold sort_point_y; simp [c1, c2, c3]
          rw [e]
          refine ⟨![1, 2, 0], by decide, ?_, ?_, ?_⟩
          · intro i; fin_cases i <;> rfl
          · intro i j hij; fin_cases i <;> fin_cases j <;> simp at hij ⊢ <;> try omega
          · intro i j hij; fin_cases i <;> fin_cases j <;> simp at hij ⊢ <;> try omega
        · have e : sort_point_y a b c = (b, a, c) := by
            unfold sort_point_y; simp [c1, c2, c3]
          rw [e]
          refine ⟨![1, 0, 2], by decide, ?_, ?_, ?_⟩
          · intro i; fin_cases i <;> rfl
          · intro i j hij; fin_cases i <;> fin_cases j <;> simp at hij ⊢ <;> try omega
          · intro i j hij; fin_cases i <;> fin_cases j <;> simp at hij ⊢
            omega
    · by_cases c2 : a.y > c.y
      · have c3 : b.y > a.y := by
          by_contra hc
          exact hbad ⟨by omega, by omega⟩
        have e : sort_point_y a b c = (c, a, b) := by
          unfold sort_point_y; simp [c1, c2, c3]
        rw [e]
        refine ⟨![2, 0, 1], by decide, ?_, ?_, ?_⟩
        · intro i; fin_cases i <;> rfl
        · intro i j hij; fin_cases i <;> fin_cases j <;> simp at hij ⊢ <;> try omega
        · intro i j hij; fin_cases i <;> fin_cases j <;> simp at hij ⊢ <;> try omega
      · by_cases c3 : b.y > c.y
        · have e : sort_point_y a b c = (a, c, b) := by
            unfold sort_point_y; simp [c1, c2, c3]
          rw [e]
          refine ⟨![0, 2, 1], by decide, ?_, ?_, ?_⟩
          · intro i; fin_cases i <;> rfl
          · intro i j hij; fin_cases i <;> fin_cases j <;> simp at hij ⊢ <;> try omega
          · intro i j hij; fin_cases i <;> fin_cases j <;> simp at hij ⊢
            omega
        · have e : sort_point_y a b c = (a, b, c) := by
            unfold sort_point_y; simp [c1, c2, c3]
          rw [e]
          refine ⟨![0, 1, 2], by decide, ?_, ?_, ?_⟩
          · intro i; fin_cases i <;> rfl
          · intro i j hij; fin_cases i <;> fin_cases j <;> simp at hij ⊢ <;> try omega
          · intro i j hij; fin_cases i <;> fin_cases j <;> simp at hij ⊢
  · rintro ⟨h1, h2⟩
    unfold sort_point_y
    have c1 : ¬ a.y > b.y := by omega
    have c2 : a.y > c.y := by omega
    have c3 : ¬ b.y > a.y := by omega
    simp [c1, c2, c3]


/-! ## Channel range of the attribute fill -/

/-- The error of a double rounding by the magnitude of the value, with the
bound `B = 2 ^ k` and the error `E = 2 ^ (k - 53)` given as numerals. -/
theorem fl64_err_num (q B E : ℚ) (k : Int) (hk : -1022 ≤ k) (hB : pow2 k = B)
    (hE : pow2 (k - 53) = E) (h : |q| ≤ B) : |fl64 q - q| ≤ E := by
  have := fl_round_err_le 53 (-1022) q k hk (by rw [hB]; exact h)
  have e : k - ((53 : Nat) : Int) = k - 53 := by norm_num
  rw [e, hE] at this
  exact this

theorem fl64_err_1 (q : ℚ) (h : |q| ≤ 1) : |fl64 q - q| ≤ 1 / 9007199254740992 :=
  fl64_err_num q 1 _ 0 (by norm_num) (by rw [pow2_eq_zpow]; norm_num)
    (by rw [pow2_eq_zpow]; norm_num [zpow_neg]) h

theorem fl64_err_2 (q : ℚ) (h : |q| ≤ 2) : |fl64 q - q| ≤ 1 / 4503599627370496 :=
  fl64_err_num q 2 _ 1 (by norm_num) (by rw [pow2_eq_zpow]; norm_num)
    (by rw [pow2_eq_zpow]; norm_num [zpow_neg]) h

theorem fl64_err_512 (q : ℚ) (h : |q| ≤ 512) : |fl64 q - q| ≤ 1 / 17592186044416 :=
  fl64_err_num q 512 _ 9 (by norm_num) (by rw [pow2_eq_zpow]; norm_num)
    (by rw [pow2_eq_zpow]; norm_num [zpow_neg]) h

theorem fl64_err_1024 (q : ℚ) (h : |q| ≤ 1024) : |fl64 q - q| ≤ 1 / 8796093022208 :=
  fl64_err_num q 1024 _ 10 (by norm_num) (by rw [pow2_eq_zpow]; norm_num)
    (by rw [pow2_eq_zpow]; norm_num [zpow_neg]) h

theorem fl64_err_2048 (q : ℚ) (h : |q| ≤ 2048) : |fl64 q - q| ≤ 1 / 4398046511104 :=
  fl64_err_num q 2048 _ 11 (by norm_num) (by rw [pow2_eq_zpow]; norm_num)
    (by rw [pow2_eq_zpow]; norm_num [zpow_neg]) h

/-- A non-negative sum whose rounding is at most 1 exceeds 1 by at most
`2 ^ -52`. -/
theorem le_of_fl64_le_one (y : ℚ) (h0 : 0 ≤ y) (h : fl64 y ≤ 1) :
    y ≤ 1 + 1 / 4503599627370496 := by
  by_contra hc
  push_neg at hc
  have hy1 : 1 ≤ y := by linarith
  have hrel := fl_round_rel 53 (-1022) y (by
    rw [abs_of_nonneg h0]
    exact (pow2_neg1022_le.trans (by norm_num)).trans hy1)
  have e : pow2 (-((53 : Nat) : Int)) = 1 / 9007199254740992 := pow2_neg53
  rw [e, abs_of_nonneg h0] at hrel
  have hrel' := (abs_le.mp hrel).1
  have hfl : fl_round 53 (-1022) y = fl64 y := rfl
  rw [hfl] at hrel'
  nlinarith

/-- The weight `1 - s - t` as computed, for weights that passed the test:
within `2 ^ -51` of the exact difference. -/
theorem interp_weight_err (s t : ℚ) (hs : 0 ≤ s) (ht : 0 ≤ t)
    (hst : s + t ≤ 1 + 1 / 4503599627370496) :
    |interp_weight s t - (1 - s - t)| ≤ 1 / 2251799813685248 := by
  unfold interp_weight
  have hb := fl64_err_1 (1 - s) (by rw [abs_le]; constructor <;> linarith)
  have hb' := abs_le.mp hb
  have ha := fl64_err_2 (fl64 (1 - s) - t) (by rw [abs_le]; constructor <;> linarith)
  have ha' := abs_le.mp ha
  rw [abs_le]
  constructor <;> linarith

/-- A combination of three values between `m` and `M`, at most 255 apart from
0, whose weights `s, t >= 0` and `w0 = 1 - s - t >= -eta` sum to 1, lies within
`255 * eta` of `[m, M]`. -/
theorem weighted_bounds (s t a b c m M eta : ℚ) (hs : 0 ≤ s) (ht : 0 ≤ t)
    (hst : s + t ≤ 1 + eta) (heta : 0 ≤ eta)
    (ha : m ≤ a ∧ a ≤ M) (hb : m ≤ b ∧ b ≤ M) (hc : m ≤ c ∧ c ≤ M)
    (hm : 0 ≤ m) (hM : M ≤ 255) :
    m - 255 * eta ≤ (1 - s - t) * a + s * b + t * c ∧
    (1 - s - t) * a + s * b + t * c ≤ M + 255 * eta := by
  have h1 : 0 ≤ (1 - s - t + eta) * (a - m) := mul_nonneg (by linarith) (by linarith)
  have h2 : 0 ≤ s * (b - m) := mul_nonneg hs (by linarith)
  have h3 : 0 ≤ t * (c - m) := mul_nonneg ht (by linarith)
  have h4 : 0 ≤ (1 - s - t + eta) * (M - a) := mul_nonneg (by linarith) (by linarith)
  have h5 : 0 ≤ s * (M - b) := mul_nonneg hs (by linarith)
  have h6 : 0 ≤ t * (M - c) := mul_nonneg ht (by linarith)
  have h7 : eta * (a - m) ≤ eta * 255 := mul_le_mul_of_nonneg_left (by linarith) heta
  have h8 : eta * (M - a) ≤ eta * 255 := mul_le_mul_of_nonneg_left (by linarith) heta
  constructor
  · nlinarith
  · nlinarith

/-- Six roundings in a row: the products `x0`, `x1`, `x2` rounded to `p0`,
`p1`, `p2`, the sums `p0 + p1` and `q1 + p2` rounded to `q1` and `q2`, and the
product `q2 * I` rounded to `v`, each with the error bound of its magnitude. -/
theorem rounding_chain (x0 x1 x2 p0 p1 p2 q1 q2 v I m M : ℚ)
    (hx0 : -510 ≤ x0 ∧ x0 ≤ 510) (hx1 : 0 ≤ x1 ∧ x1 ≤ 510) (hx2 : 0 ≤ x2 ∧ x2 ≤ 510)
    (hlo : m - 1 / 4398046511104 ≤ x0 + x1 + x2) (hhi : x0 + x1 + x2 ≤ M + 1 / 4398046511104)
    (hm : 0 ≤ m) (hmM : m ≤ M) (hM : M ≤ 255) (hI0 : 0 ≤ I) (hI1 : I ≤ 1)
    (r0 : |x0| ≤ 512 → |p0 - x0| ≤ 1 / 17592186044416)
    (r1 : |x1| ≤ 512 → |p1 - x1| ≤ 1 / 17592186044416)
    (r2 : |x2| ≤ 512 → |p2 - x2| ≤ 1 / 17592186044416)
    (r3 : |p0 + p1| ≤ 1024 → |q1 - (p0 + p1)| ≤ 1 / 8796093022208)
    (r4 : |q1 + p2| ≤ 2048 → |q2 - (q1 + p2)| ≤ 1 / 4398046511104)
    (r5 : |q2 * I| ≤ 512 → |v - q2 * I| ≤ 1 / 17592186044416) :
    I * m - 1 / 549755813888 ≤ v ∧ v ≤ I * M + 1 / 549755813888 := by
  have a0 := abs_le.mp (r0 (by rw [abs_le]; constructor <;> linarith))
  have a1 := abs_le.mp (r1 (by rw [abs_le]; constructor <;> linarith))
  have a2 := abs_le.mp (r2 (by rw [abs_le]; constructor <;> linarith))
  have a3 := abs_le.mp (r3 (by rw [abs_le]; constructor <;> linarith))
  have a4 := abs_le.mp (r4 (by rw [abs_le]; constructor <;> linarith))
  have hq_lo : m - 1 / 1099511627776 ≤ q2 := by linarith
  have hq_hi : q2 ≤ M + 1 / 1099511627776 := by linarith
  have k1 : (m - 1 / 1099511627776) * I ≤ q2 * I := mul_le_mul_of_nonneg_right hq_lo hI0
  have k2 : q2 * I ≤ (M + 1 / 1099511627776) * I := mul_le_mul_of_nonneg_right hq_hi hI0
  have k3 : (1 / 1099511627776 : ℚ) * I ≤ 1 / 1099511627776 * 1 :=
    mul_le_mul_of_nonneg_left hI1 (by norm_num)
  have k4 : 0 ≤ (1 / 1099511627776 : ℚ) * I := mul_nonneg (by norm_num) hI0
  have hIm : 0 ≤ I * m := mul_nonneg hI0 hm
  have hIM : I * M ≤ 1 * 255 := mul_le_mul hI1 hM (by linarith) (by norm_num)
  have hqI_lo : I * m - 1 / 1099511627776 ≤ q2 * I := by
    have e : (m - 1 / 1099511627776) * I = I * m - 1 / 1099511627776 * I := by ring
    rw [e] at k1
    linarith
  have hqI_hi : q2 * I ≤ I * M + 1 / 1099511627776 := by
    have e : (M + 1 / 1099511627776) * I = I * M + 1 / 1099511627776 * I := by ring
    rw [e] at k2
    linarith
  have a5 := abs_le.mp (r5 (by rw [abs_le]; constructor <;> linarith))
  constructor <;> linarith

/-- The computed channel value for weights that passed the test, byte channels
between `m` and `M` and an intensity in `[0, 1]`: within `2 ^ -39` of
`[intensity * m, intensity * M]`. -/
theorem interp_channel_value_bounds (c0 c1 c2 : Nat) (s t I m M : ℚ)
    (hs : 0 ≤ s) (ht : 0 ≤ t) (hst : s + t ≤ 1 + 1 / 4503599627370496)
    (hI0 : 0 ≤ I) (hI1 : I ≤ 1)
    (h0 : m ≤ (c0 : ℚ) ∧ (c0 : ℚ) ≤ M) (h1 : m ≤ (c1 : ℚ) ∧ (c1 : ℚ) ≤ M)
    (h2 : m ≤ (c2 : ℚ) ∧ (c2 : ℚ) ≤ M) (hm : 0 ≤ m) (hM : M ≤ 255) :
    I * m - 1 / 549755813888 ≤ interp_channel_value c0 c1 c2 s t I ∧
    interp_channel_value c0 c1 c2 s t I ≤ I * M + 1 / 549755813888 := by
  obtain ⟨wlo, whi⟩ := weighted_bounds s t c0 c1 c2 m M (1 / 4503599627370496) hs ht hst
    (by norm_num) h0 h1 h2 hm hM
  have hw := abs_le.mp (interp_weight_err s t hs ht hst)
  have hc0 : (0 : ℚ) ≤ c0 := by linarith
  have hc1 : (0 : ℚ) ≤ c1 := by linarith
  have hc2 : (0 : ℚ) ≤ c2 := by linarith
  have hc0' : (c0 : ℚ) ≤ 255 := by linarith
  have hc1' : (c1 : ℚ) ≤ 255 := by linarith
  have hc2' : (c2 : ℚ) ≤ 255 := by linarith
  have ea : interp_weight s t * (c0 : ℚ)
      = (1 - s - t) * c0 + (interp_weight s t - (1 - s - t)) * c0 := by ring
  have ea1 : (interp_weight s t - (1 - s - t)) * (c0 : ℚ) ≤ 1 / 2251799813685248 * 255 :=
    (mul_le_mul_of_nonneg_right hw.2 hc0).trans (mul_le_mul_of_nonneg_left hc0' (by norm_num))
  have ea2 : -(1 / 2251799813685248 * 255) ≤ (interp_weight s t - (1 - s - t)) * (c0 : ℚ) := by
    have : (-(1 / 2251799813685248)) * (c0 : ℚ) ≤ (interp_weight s t - (1 - s - t)) * c0 :=
      mul_le_mul_of_nonneg_right hw.1 hc0
    have h' : (1 / 2251799813685248 : ℚ) * c0 ≤ 1 / 2251799813685248 * 255 :=
      mul_le_mul_of_nonneg_left hc0' (by norm_num)
    linarith
  have hs2 : s ≤ 2 := by linarith
  have ht2 : t ≤ 2 := by linarith
  have pa1 : interp_weight s t * (c0 : ℚ) ≤ 2 * 255 := by
    have : interp_weight s t ≤ 2 := by linarith
    exact (mul_le_mul_of_nonneg_right this hc0).trans
      (mul_le_mul_of_nonneg_left hc0' (by norm_num))
  have pa2 : -(2 * 255) ≤ interp_weight s t * (c0 : ℚ) := by
    have h' : (-2 : ℚ) * c0 ≤ interp_weight s t * c0 :=
      mul_le_mul_of_nonneg_right (by linarith) hc0
    have h'' : (2 : ℚ) * c0 ≤ 2 * 255 := mul_le_mul_of_nonneg_left hc0' (by norm_num)
    linarith
  have ps1 : s * (c1 : ℚ) ≤ 2 * 255 :=
    (mul_le_mul_of_nonneg_right hs2 hc1).trans (mul_le_mul_of_nonneg_left hc1' (by norm_num))
  have ps0 : 0 ≤ s * (c1 : ℚ) := mul_nonneg hs hc1
  have pt1 : t * (c2 : ℚ) ≤ 2 * 255 :=
    (mul_le_mul_of_nonneg_right ht2 hc2).trans (mul_le_mul_of_nonneg_left hc2' (by norm_num))
  have pt0 : 0 ≤ t * (c2 : ℚ) := mul_nonneg ht hc2
  have hsum_lo : m - 1 / 4398046511104
      ≤ interp_weight s t * (c0 : ℚ) + s * c1 + t * c2 := by
    rw [ea]; linarith
  have hsum_hi : interp_weight s t * (c0 : ℚ) + s * c1 + t * c2
      ≤ M + 1 / 4398046511104 := by
    rw [ea]; linarith
  unfold interp_channel_value
  exact rounding_chain (interp_weight s t * (c0 : ℚ)) (s * (c1 : ℚ)) (t * (c2 : ℚ)) _ _ _ _ _ _ I
    m M ⟨by linarith, by linarith⟩ ⟨ps0, by linarith⟩ ⟨pt0, by linarith⟩ hsum_lo hsum_hi hm
    (h0.1.trans h0.2) hM hI0 hI1 (fl64_err_512 _) (fl64_err_512 _) (fl64_err_512 _) (fl64_err_1024 _)
    (fl64_err_2048 _) (fl64_err_512 _)

/-- The C conversion to `int` of a value in `(-1, 256)` lies in `[0, 255]`. -/
theorem c_int_cast_byte_range (q : ℚ) (h1 : -1 < q) (h2 : q < 256) :
    0 ≤ c_int_cast q ∧ c_int_cast q ≤ 255 := by
  by_cases h0 : 0 ≤ q
  · rw [c_int_cast_nonneg q h0]
    constructor
    · exact Int.floor_nonneg.mpr h0
    · have : ⌊q⌋ < 256 := by rw [Int.floor_lt]; push_cast; exact h2
      omega
  · push_neg at h0
    have e : c_int_cast q = -c_int_cast (-q) := by
      unfold c_int_cast
      rw [Rat.neg_num, Rat.neg_den, Int.neg_tdiv, neg_neg]
    have hz : c_int_cast (-q) = 0 := by
      rw [c_int_cast_nonneg (-q) (by linarith), Int.floor_eq_zero_iff]
      constructor <;> linarith
    rw [e, hz]
    norm_num

/-- C18 fails as stated: the channel value is computed in double arithmetic and
can fall below `intensity * min`.  On the all-white triangle `(0,0)`, `(0,4)`,
`(3,2)` the pixel `(1, 1)` passes the test with the doubles nearest `1/12` and
`1/3`; at intensity 1 the computed value is `255 - 2 ^ -45`, below
`1 * min(255, 255, 255)`, and its conversion is the byte 254. -/
theorem interp_channel_below_min :
    in_triangle ⟨0, 0⟩ ⟨0, 4⟩ ⟨3, 2⟩ ⟨1, 1⟩
      = (true, Dbl.fin (fl64 (1 / 12)), Dbl.fin (fl64 (1 / 3))) ∧
    interp_channel_value 255 255 255 (fl64 (1 / 12)) (fl64 (1 / 3)) 1
      = 8972014882652159 / 35184372088832 ∧
    (8972014882652159 / 35184372088832 : ℚ) < 1 * ((min 255 (min 255 255) : Nat) : ℚ) ∧
    interp_channel 255 255 255 (fl64 (1 / 12)) (fl64 (1 / 3)) 1 = 254 := by
  refine ⟨?_, ?_, ?_, ?_⟩
  · decide!
  · decide!
  · norm_num
  · decide!

/-- C18 as amended: for a pixel accepted by `in_triangle` (stored doubles `s`,
`t`), an intensity in `[0, 1]` and byte channels `c0`, `c1`, `c2`, the double
`((1 - s - t) * c0 + s * c1 + t * c2) * intensity` the code computes lies within
`2 ^ -39` of the interval from `intensity * min(c0, c1, c2)` to
`intensity * max(c0, c1, c2)`, hence strictly between -1 and 256; its
conversion to `unsigned char` is its truncation, at most 255, with no
wrap-around. -/
theorem interp_channel_range (A B C P : Vec2i) (s t : ℚ) (c0 c1 c2 : Nat) (I : ℚ)
    (hin : in_triangle A B C P = (true, Dbl.fin s, Dbl.fin t))
    (hI0 : 0 ≤ I) (hI1 : I ≤ 1) (h0 : c0 ≤ 255) (h1 : c1 ≤ 255) (h2 : c2 ≤ 255) :
    (I * ((min c0 (min c1 c2) : Nat) : ℚ) - 1 / 549755813888
        ≤ interp_channel_value c0 c1 c2 s t I ∧
      interp_channel_value c0 c1 c2 s t I
        ≤ I * ((max c0 (max c1 c2) : Nat) : ℚ) + 1 / 549755813888) ∧
    (-1 < interp_channel_value c0 c1 c2 s t I ∧ interp_channel_value c0 c1 c2 s t I < 256) ∧
    ((interp_channel c0 c1 c2 s t I : Int) = c_int_cast (interp_channel_value c0 c1 c2 s t I) ∧
      interp_channel c0 c1 c2 s t I ≤ 255) := by
  obtain ⟨hs, ht, hst⟩ := in_triangle_accept A B C P s t hin
  have hst' := le_of_fl64_le_one (s + t) (by linarith) hst
  have hm0 : ((min c0 (min c1 c2) : Nat) : ℚ) ≤ c0 := by exact_mod_cast min_le_left _ _
  have hm1 : ((min c0 (min c1 c2) : Nat) : ℚ) ≤ c1 := by
    exact_mod_cast (min_le_right _ _).trans (min_le_left _ _)
  have hm2 : ((min c0 (min c1 c2) : Nat) : ℚ) ≤ c2 := by
    exact_mod_cast (min_le_right _ _).trans (min_le_right _ _)
  have hM0 : (c0 : ℚ) ≤ ((max c0 (max c1 c2) : Nat) : ℚ) := by exact_mod_cast le_max_left _ _
  have hM1 : (c1 : ℚ) ≤ ((max c0 (max c1 c2) : Nat) : ℚ) := by
    exact_mod_cast (le_max_left _ _).trans (le_max_right _ _)
  have hM2 : (c2 : ℚ) ≤ ((max c0 (max c1 c2) : Nat) : ℚ) := by
    exact_mod_cast (le_max_right _ _).trans (le_max_right _ _)
  have hmn : (0 : ℚ) ≤ ((min c0 (min c1 c2) : Nat) : ℚ) := Nat.cast_nonneg _
  have hMx : ((max c0 (max c1 c2) : Nat) : ℚ) ≤ 255 := by
    have : max c0 (max c1 c2) ≤ 255 := max_le h0 (max_le h1 h2)
    exact_mod_cast this
  obtain ⟨hlo, hhi⟩ := interp_channel_value_bounds c0 c1 c2 s t I _ _ hs ht hst' hI0 hI1
    ⟨hm0, hM0⟩ ⟨hm1, hM1⟩ ⟨hm2, hM2⟩ hmn hMx
  have hIm : 0 ≤ I * ((min c0 (min c1 c2) : Nat) : ℚ) := mul_nonneg hI0 hmn
  have hIM : I * ((max c0 (max c1 c2) : Nat) : ℚ) ≤ 255 := by
    have : I * ((max c0 (max c1 c2) : Nat) : ℚ) ≤ 1 * 255 :=
      mul_le_mul hI1 hMx (by linarith) (by norm_num)
    linarith
  have hv1 : -1 < interp_channel_value c0 c1 c2 s t I := by linarith
  have hv2 : interp_channel_value c0 c1 c2 s t I < 256 := by linarith
  obtain ⟨k0, k255⟩ := c_int_cast_byte_range _ hv1 hv2
  refine ⟨⟨hlo, hhi⟩, ⟨hv1, hv2⟩, ?_, ?_⟩
  · unfold interp_channel c_uchar_cast
    omega
  · unfold interp_channel c_uchar_cast
    omega

/-- C18 as amended, on the all-white triangle `(0,0)`, `(0,4)`, `(3,2)` at the
pixel `(1, 1)` with intensity 1: the computed value exceeds -1 and its byte is
at most 255. -/
theorem interp_channel_range_witness :
    -1 < interp_channel_value 255 255 255 (fl64 (1 / 12)) (fl64 (1 / 3)) 1 ∧
    interp_channel 255 255 255 (fl64 (1 / 12)) (fl64 (1 / 3)) 1 ≤ 255 :=
  ⟨(interp_channel_range ⟨0, 0⟩ ⟨0, 4⟩ ⟨3, 2⟩ ⟨1, 1⟩ (fl64 (1 / 12)) (fl64 (1 / 3)) 255 255 255 1
      (by decide!) (by norm_num) (by norm_num) (by norm_num) (by norm_num)
      (by norm_num)).2.1.1,
    (interp_channel_range ⟨0, 0⟩ ⟨0, 4⟩ ⟨3, 2⟩ ⟨1, 1⟩ (fl64 (1 / 12)) (fl64 (1 / 3)) 255 255 255 1
      (by decide!) (by norm_num) (by norm_num) (by norm_num) (by norm_num)
      (by norm_num)).2.2.2⟩

/-! ## Faults of the flat fill -/

theorem gfx_draw_point_checked_toOption (image : Image) (p : Vec2i) (color : Color) :
    (gfx_draw_point_checked image p color).toOption = gfx_draw_point image p color := by
  unfold gfx_draw_point_checked gfx_draw_point
  simp only
  split_ifs <;> rfl

/-- A run of `gfx_draw_point_checked` over a list of points can only fail on
the bounds assertion, and agrees with `draw_points`. -/
theorem draw_points_checked_spec (color : Color) (pts : List Vec2i) :
    ∀ image : Image,
      (∀ f, draw_points_checked image pts color = Except.error f
        → f = Fault.point_out_of_bounds) ∧
      (draw_points_checked image pts color).toOption = draw_points image pts color := by
  induction pts with
  | nil => intro image; exact ⟨(fun f h => by cases h), rfl⟩
  | cons p ps ih =>
    intro image
    have e1 : draw_points_checked image (p :: ps) color
        = (gfx_draw_point_checked image p color).bind
            (fun im => draw_points_checked im ps color) := by
      simp [draw_points_checked, List.foldlM_cons]
      rfl
    rw [e1, draw_points_cons, ← gfx_draw_point_checked_toOption]
    unfold gfx_draw_point_checked
    simp only
    split_ifs
    · refine ⟨?_, rfl⟩
      intro f h
      cases h
      rfl
    · exact ih _

theorem draw_points_checked_append (image : Image) (ps qs : List Vec2i) (color : Color) :
    draw_points_checked image (ps ++ qs) color
      = (draw_points_checked image ps color).bind (fun im => draw_points_checked im qs color) := by
  simp [draw_points_checked, List.foldlM_append]
  rfl

theorem draw_points_checked_map {α : Type} (image : Image) (l : List α) (f : α → Vec2i)
    (color : Color) :
    draw_points_checked image (l.map f) color
      = l.foldlM (fun im a => gfx_draw_point_checked im (f a) color) image := by
  unfold draw_points_checked
  rw [List.foldlM_map]

theorem draw_scanline_checked_eq (image : Image) (p0 p1 : Vec2i) (color : Color)
    (h : p0.y = p1.y) :
    draw_scanline_checked image p0 p1 color
      = draw_points_checked image (draw_scanline_pixels p0 p1) color := by
  unfold draw_scanline_checked draw_scanline_pixels
  rw [if_neg (by simpa using h), draw_points_checked_map]

theorem draw_points_checked_flatMap {α : Type} (color : Color) (g : α → List Vec2i)
    (l : List α) :
    ∀ image : Image,
      l.foldlM (fun im a => draw_points_checked im (g a) color) image
        = draw_points_checked image (l.flatMap g) color := by
  induction l with
  | nil => intro image; rfl
  | cons a l ih =>
    intro image
    rw [List.foldlM_cons, List.flatMap_cons, draw_points_checked_append]
    cases h : draw_points_checked image (g a) color with
    | error f => rfl
    | ok im => exact ih im

theorem checked_div_ok (num den : Int) (h : den ≠ 0) :
    checked_div num den = Except.ok ((num : ℚ) / (den : ℚ)) := by
  unfold checked_div
  rw [if_neg h]

theorem fill_upper_checked_eq (image : Image) (p0 p1 p2 : Vec2i) (color : Color)
    (hu : p1.y - p0.y ≠ 0) (ht : p2.y - p0.y ≠ 0) :
    fill_upper_checked image p0 p1 p2 color
      = draw_points_checked image (fill_upper_pixels p0 p1 p2) color := by
  unfold fill_upper_checked fill_upper_pixels
  simp only
  rw [← draw_points_checked_flatMap]
  congr 1
  funext im y
  rw [checked_div_ok _ _ hu, checked_div_ok _ _ ht]
  exact draw_scanline_checked_eq im _ _ color rfl

theorem fill_lower_checked_eq (image : Image) (p0 p1 p2 : Vec2i) (color : Color)
    (hl : p2.y - p1.y ≠ 0) (ht : p2.y - p0.y ≠ 0) :
    fill_lower_checked image p0 p1 p2 color
      = draw_points_checked image (fill_lower_pixels p0 p1 p2) color := by
  unfold fill_lower_checked fill_lower_pixels
  simp only
  rw [← draw_points_checked_flatMap]
  congr 1
  funext im y
  rw [checked_div_ok _ _ ht, checked_div_ok _ _ hl]
  exact draw_scanline_checked_eq im _ _ color rfl

/-- The checked flat fill is the checked drawing of the pixel list: no branch
divides by zero and every scanline has its two ends on one row. -/
theorem gfx_fill_triangle_2_checked_eq (image : Image) (p0 p1 p2 : Vec2i) (color : Color) :
    gfx_fill_triangle_2_checked image p0 p1 p2 color
      = draw_points_checked image (gfx_fill_triangle_2_pixels p0 p1 p2) color := by
  have hs := sort_point_y_sorted p0 p1 p2
  unfold gfx_fill_triangle_2_checked gfx_fill_triangle_2_pixels
  simp only
  by_cases h : (sort_point_y p0 p1 p2).1.y = (sort_point_y p0 p1 p2).2.2.y
  · rw [if_pos h, if_pos h]
    apply draw_scanline_checked_eq
    apply sort_point_x_row <;> omega
  · rw [if_neg h, if_neg h, draw_points_checked_append]
    congr 1
    · split_ifs with hu
      · exact draw_scanline_checked_eq _ _ _ _ (by omega)
      · exact fill_upper_checked_eq _ _ _ _ _ hu (by omega)
    · funext im
      split_ifs with hl
      · exact draw_scanline_checked_eq _ _ _ _ (by omega)
      · exact fill_lower_checked_eq _ _ _ _ _ hl (by omega)

/-- C17: for every three vertices, a run of `gfx_fill_triangle_2` never divides
by zero (`total_height`, `upper_height`, `lower_height` are non-zero where
they divide; a part of zero height is one scanline) and never fails the
assertion `point0.y == point1.y` of `draw_scanline`: the only possible fault
is the bounds assertion of `gfx_draw_point`, and the run agrees with
`gfx_fill_triangle_2`. -/
theorem gfx_fill_triangle_2_safe (image : Image) (p0 p1 p2 : Vec2i) (color : Color) :
    gfx_fill_triangle_2_checked image p0 p1 p2 color ≠ Except.error Fault.division_by_zero ∧
    gfx_fill_triangle_2_checked image p0 p1 p2 color ≠ Except.error Fault.scanline_rows ∧
    (gfx_fill_triangle_2_checked image p0 p1 p2 color).toOption
      = gfx_fill_triangle_2 image p0 p1 p2 color := by
  rw [gfx_fill_triangle_2_checked_eq, gfx_fill_triangle_2_eq]
  obtain ⟨h1, h2⟩ := draw_points_checked_spec color (gfx_fill_triangle_2_pixels p0 p1 p2) image
  refine ⟨?_, ?_, h2⟩
  · intro e
    have := h1 _ e
    cases this
  · intro e
    have := h1 _ e
    cases this

/-! ## The flat fill on sorted vertices -/

theorem gfx_fill_triangle_2_pixels_sorted (p0 p1 p2 : Vec2i) :
    gfx_fill_triangle_2_pixels p0 p1 p2
      = fill_sorted_pixels (sort_point_y p0 p1 p2).1 (sort_point_y p0 p1 p2).2.1
          (sort_point_y p0 p1 p2).2.2 := rfl

/-- Membership in a scanline whose two ends share their row. -/
theorem mem_draw_scanline_pixels_iff (a b p : Vec2i) (h : a.y = b.y) :
    p ∈ draw_scanline_pixels a b ↔
      (min a.x b.x ≤ p.x ∧ p.x ≤ max a.x b.x) ∧ p.y = a.y := by
  constructor
  · exact mem_draw_scanline_pixels a b p h
  · rintro ⟨⟨h1, h2⟩, h3⟩
    unfold draw_scanline_pixels
    simp only [List.mem_map, mem_int_range]
    simp only [le_min_iff, max_le_iff, min_le_iff, le_max_iff] at h1 h2
    refine ⟨p.x, ?_, ?_⟩
    · split_ifs <;> simp only <;> omega
    · split_ifs
      · simp only
        cases p; simp only at h3 ⊢; rw [h3, h]
      · simp only
        cases p; simp only at h3 ⊢; rw [h3]

theorem draw_scanline_pixels_left (a b : Vec2i) (h : a.y = b.y) :
    a ∈ draw_scanline_pixels a b :=
  (mem_draw_scanline_pixels_iff a b a h).mpr ⟨⟨min_le_left _ _, le_max_left _ _⟩, rfl⟩

theorem draw_scanline_pixels_right (a b : Vec2i) (h : a.y = b.y) :
    b ∈ draw_scanline_pixels a b :=
  (mem_draw_scanline_pixels_iff a b b h).mpr ⟨⟨min_le_right _ _, le_max_right _ _⟩, h.symm⟩

/-- The row `y` of the upper loop holds the rounded position on the edge
`p0 p1`. -/
theorem fill_upper_pixels_row (p0 p1 p2 : Vec2i) (y : Int) (h0 : p0.y ≤ y) (h1 : y ≤ p1.y) :
    (⟨linear_interp p0.x p1.x (((y - p0.y : Int) : ℚ) / ((p1.y - p0.y : Int) : ℚ)), y⟩ : Vec2i)
      ∈ fill_upper_pixels p0 p1 p2 := by
  unfold fill_upper_pixels
  simp only [List.mem_flatMap, mem_int_range]
  exact ⟨y, ⟨h0, h1⟩, draw_scanline_pixels_left _ _ rfl⟩

/-- The row `y` of the lower loop holds the rounded position on the edge
`p1 p2`. -/
theorem fill_lower_pixels_row (p0 p1 p2 : Vec2i) (y : Int) (h0 : p1.y ≤ y) (h1 : y ≤ p2.y) :
    (⟨linear_interp p1.x p2.x (((y - p1.y : Int) : ℚ) / ((p2.y - p1.y : Int) : ℚ)), y⟩ : Vec2i)
      ∈ fill_lower_pixels p0 p1 p2 := by
  unfold fill_lower_pixels
  simp only [List.mem_flatMap, mem_int_range]
  exact ⟨y, ⟨h0, h1⟩, draw_scanline_pixels_right _ _ rfl⟩

/-- The pixels of the upper loop lie in the bounding box. -/
theorem fill_upper_pixels_bbox (p0 p1 p2 p : Vec2i) (h01 : p0.y < p1.y) (h12 : p1.y ≤ p2.y)
    (hx0 : 0 ≤ p0.x) (hx1 : 0 ≤ p1.x) (hx2 : 0 ≤ p2.x)
    (hp : p ∈ fill_upper_pixels p0 p1 p2) :
    (min p0.x (min p1.x p2.x) ≤ p.x ∧ p.x ≤ max p0.x (max p1.x p2.x)) ∧
    (p0.y ≤ p.y ∧ p.y ≤ p1.y) := by
  unfold fill_upper_pixels at hp
  simp only [List.mem_flatMap, mem_int_range] at hp
  obtain ⟨y, hy, hp⟩ := hp
  obtain ⟨hpx, hpy⟩ := mem_draw_scanline_pixels _ _ p (by rfl) hp
  simp only [lerp_point] at hpx hpy
  have ba := linear_interp_between p0.x p1.x (y - p0.y) (p1.y - p0.y) hx0 hx1 (by omega)
    (by omega) (by omega)
  have bb := linear_interp_between p0.x p2.x (y - p0.y) (p2.y - p0.y) hx0 hx2 (by omega)
    (by omega) (by omega)
  simp only [le_min_iff, max_le_iff, min_le_iff, le_max_iff] at hpx ba bb ⊢
  refine ⟨⟨?_, ?_⟩, ?_⟩
  · omega
  · omega
  · omega

/-- The pixels of the lower loop lie in the bounding box. -/
theorem fill_lower_pixels_bbox (p0 p1 p2 p : Vec2i) (h01 : p0.y ≤ p1.y) (h12 : p1.y < p2.y)
    (hx0 : 0 ≤ p0.x) (hx1 : 0 ≤ p1.x) (hx2 : 0 ≤ p2.x)
    (hp : p ∈ fill_lower_pixels p0 p1 p2) :
    (min p0.x (min p1.x p2.x) ≤ p.x ∧ p.x ≤ max p0.x (max p1.x p2.x)) ∧
    (p1.y ≤ p.y ∧ p.y ≤ p2.y) := by
  unfold fill_lower_pixels at hp
  simp only [List.mem_flatMap, mem_int_range] at hp
  obtain ⟨y, hy, hp⟩ := hp
  obtain ⟨hpx, hpy⟩ := mem_draw_scanline_pixels _ _ p (by rfl) hp
  simp only [lerp_point] at hpx hpy
  have ba := linear_interp_between p0.x p2.x (y - p0.y) (p2.y - p0.y) hx0 hx2 (by omega)
    (by omega) (by omega)
  have bb := linear_interp_between p1.x p2.x (y - p1.y) (p2.y - p1.y) hx1 hx2 (by omega)
    (by omega) (by omega)
  simp only [le_min_iff, max_le_iff, min_le_iff, le_max_iff] at hpx ba bb ⊢
  refine ⟨⟨?_, ?_⟩, ?_⟩
  · omega
  · omega
  · omega

/-- On one row, the first point after `sort_point_x` is on that row. -/
theorem sort_point_x_first_row (a b c : Vec2i) (h1 : a.y = b.y) (h2 : b.y = c.y) :
    (sort_point_x a b c).1.y = a.y := by
  rcases sort_point_x_perm a b c with h | h | h | h | h | h <;> rw [h] <;> simp only <;> omega

/-- The scanline of the horizontal case: the points of the common row between
the least and the greatest `x`. -/
theorem mem_flat_scanline (q0 q1 q2 p : Vec2i) (h01 : q0.y = q1.y) (h12 : q1.y = q2.y) :
    p ∈ draw_scanline_pixels (sort_point_x q0 q1 q2).1 (sort_point_x q0 q1 q2).2.2 ↔
      (min q0.x (min q1.x q2.x) ≤ p.x ∧ p.x ≤ max q0.x (max q1.x q2.x)) ∧ p.y = q0.y := by
  rw [mem_draw_scanline_pixels_iff _ _ _ (sort_point_x_row q0 q1 q2 h01 h12),
    (sort_point_x_ends q0 q1 q2).1, (sort_point_x_ends q0 q1 q2).2,
    sort_point_x_first_row q0 q1 q2 h01 h12]
  simp only [le_min_iff, max_le_iff, min_le_iff, le_max_iff]
  constructor
  · rintro ⟨⟨h1, h2⟩, h3⟩
    exact ⟨⟨by omega, by omega⟩, h3⟩
  · rintro ⟨⟨h1, h2⟩, h3⟩
    exact ⟨⟨by omega, by omega⟩, h3⟩

/-- The pixels of the fill of sorted vertices lie in the bounding box. -/
theorem fill_sorted_pixels_bbox (q0 q1 q2 p : Vec2i) (h01 : q0.y ≤ q1.y) (h12 : q1.y ≤ q2.y)
    (hx0 : 0 ≤ q0.x) (hx1 : 0 ≤ q1.x) (hx2 : 0 ≤ q2.x)
    (hp : p ∈ fill_sorted_pixels q0 q1 q2) :
    (min q0.x (min q1.x q2.x) ≤ p.x ∧ p.x ≤ max q0.x (max q1.x q2.x)) ∧
    (q0.y ≤ p.y ∧ p.y ≤ q2.y) := by
  unfold fill_sorted_pixels at hp
  by_cases hflat : q0.y = q2.y
  · rw [if_pos hflat] at hp
    simp only at hp
    rw [mem_flat_scanline q0 q1 q2 p (by omega) (by omega)] at hp
    exact ⟨hp.1, by omega⟩
  · rw [if_neg hflat] at hp
    simp only at hp
    rcases List.mem_append.mp hp with hu | hl
    · split_ifs at hu with hz
      · obtain ⟨hpx, hpy⟩ := mem_draw_scanline_pixels q0 q1 p (by omega) hu
        simp only [le_min_iff, max_le_iff, min_le_iff, le_max_iff] at hpx ⊢
        exact ⟨⟨by omega, by omega⟩, by omega⟩
      · have := fill_upper_pixels_bbox q0 q1 q2 p (by omega) h12 hx0 hx1 hx2 hu
        exact ⟨this.1, by omega⟩
    · split_ifs at hl with hz
      · obtain ⟨hpx, hpy⟩ := mem_draw_scanline_pixels q1 q2 p (by omega) hl
        simp only [le_min_iff, max_le_iff, min_le_iff, le_max_iff] at hpx ⊢
        exact ⟨⟨by omega, by omega⟩, by omega⟩
      · have := fill_lower_pixels_bbox q0 q1 q2 p h01 (by omega) hx0 hx1 hx2 hl
        exact ⟨this.1, by omega⟩

/-- The fill of sorted vertices draws on every row from `q0.y` to `q2.y`. -/
theorem fill_sorted_pixels_rows (q0 q1 q2 : Vec2i) (y : Int) (h01 : q0.y ≤ q1.y)
    (h12 : q1.y ≤ q2.y) (hy0 : q0.y ≤ y) (hy2 : y ≤ q2.y) :
    ∃ p ∈ fill_sorted_pixels q0 q1 q2, p.y = y := by
  unfold fill_sorted_pixels
  by_cases hflat : q0.y = q2.y
  · rw [if_pos hflat]
    refine ⟨⟨q0.x, y⟩, ?_, rfl⟩
    simp only
    rw [mem_flat_scanline q0 q1 q2 _ (by omega) (by omega)]
    simp only [le_min_iff, max_le_iff, min_le_iff, le_max_iff]
    exact ⟨⟨by omega, by omega⟩, by omega⟩
  · rw [if_neg hflat]
    simp only
    by_cases hy1 : y ≤ q1.y
    · by_cases hz : q1.y - q0.y = 0
      · refine ⟨q0, ?_, by omega⟩
        rw [if_pos hz]
        exact List.mem_append_left _ (draw_scanline_pixels_left q0 q1 (by omega))
      · refine ⟨(⟨linear_interp q0.x q1.x
            (((y - q0.y : Int) : ℚ) / ((q1.y - q0.y : Int) : ℚ)), y⟩ : Vec2i),
          List.mem_append_left _ ?_, rfl⟩
        rw [if_neg hz]
        exact fill_upper_pixels_row q0 q1 q2 y hy0 hy1
    · by_cases hz : q2.y - q1.y = 0
      · refine ⟨q2, ?_, by omega⟩
        rw [if_pos hz]
        exact List.mem_append_right _ (draw_scanline_pixels_right q1 q2 (by omega))
      · refine ⟨(⟨linear_interp q1.x q2.x
            (((y - q1.y : Int) : ℚ) / ((q2.y - q1.y : Int) : ℚ)), y⟩ : Vec2i),
          List.mem_append_right _ ?_, rfl⟩
        rw [if_neg hz]
        exact fill_lower_pixels_row q0 q1 q2 y (by omega) hy2

/-- The fill of sorted vertices draws the three vertices. -/
theorem fill_sorted_pixels_vertices (q0 q1 q2 : Vec2i) (h01 : q0.y ≤ q1.y) (h12 : q1.y ≤ q2.y)
    (hx0 : 0 ≤ q0.x) (hx1 : 0 ≤ q1.x) (hx2 : 0 ≤ q2.x) :
    q0 ∈ fill_sorted_pixels q0 q1 q2 ∧ q1 ∈ fill_sorted_pixels q0 q1 q2 ∧
    q2 ∈ fill_sorted_pixels q0 q1 q2 := by
  unfold fill_sorted_pixels
  by_cases hflat : q0.y = q2.y
  · rw [if_pos hflat]
    simp only
    rw [mem_flat_scanline q0 q1 q2 _ (by omega) (by omega),
      mem_flat_scanline q0 q1 q2 _ (by omega) (by omega),
      mem_flat_scanline q0 q1 q2 _ (by omega) (by omega)]
    simp only [le_min_iff, max_le_iff, min_le_iff, le_max_iff]
    refine ⟨⟨⟨by omega, by omega⟩, trivial⟩, ⟨⟨by omega, by omega⟩, by omega⟩,
      ⟨⟨by omega, by omega⟩, by omega⟩⟩
  · rw [if_neg hflat]
    simp only
    have hq1 : q1 ∈ (if q1.y - q0.y = 0 then draw_scanline_pixels q0 q1
        else fill_upper_pixels q0 q1 q2) := by
      split_ifs with hz
      · exact draw_scanline_pixels_right q0 q1 (by omega)
      · have := fill_upper_pixels_row q0 q1 q2 q1.y h01 le_rfl
        rw [linear_interp_one q0.x q1.x (q1.y - q0.y) hx1 (by omega)] at this
        exact this
    refine ⟨?_, List.mem_append_left _ hq1, ?_⟩
    · apply List.mem_append_left
      split_ifs with hz
      · exact draw_scanline_pixels_left q0 q1 (by omega)
      · have := fill_upper_pixels_row q0 q1 q2 q0.y le_rfl h01
        rw [sub_self, linear_interp_zero q0.x q1.x (q1.y - q0.y) hx0] at this
        exact this
    · apply List.mem_append_right
      split_ifs with hz
      · exact draw_scanline_pixels_right q1 q2 (by omega)
      · have := fill_lower_pixels_row q0 q1 q2 q2.y h12 le_rfl
        rw [linear_interp_one q1.x q2.x (q2.y - q1.y) hx2 (by omega)] at this
        exact this

/-- The bounding box, the rows and the vertices of the flat fill, for vertices
of non-negative `x`. -/
theorem gfx_fill_triangle_2_pixels_bbox (p0 p1 p2 : Vec2i)
    (hx0 : 0 ≤ p0.x) (hx1 : 0 ≤ p1.x) (hx2 : 0 ≤ p2.x) :
    (∀ p ∈ gfx_fill_triangle_2_pixels p0 p1 p2,
      (min p0.x (min p1.x p2.x) ≤ p.x ∧ p.x ≤ max p0.x (max p1.x p2.x)) ∧
      (min p0.y (min p1.y p2.y) ≤ p.y ∧ p.y ≤ max p0.y (max p1.y p2.y))) ∧
    (∀ y, min p0.y (min p1.y p2.y) ≤ y → y ≤ max p0.y (max p1.y p2.y) →
      ∃ p ∈ gfx_fill_triangle_2_pixels p0 p1 p2, p.y = y) ∧
    (p0 ∈ gfx_fill_triangle_2_pixels p0 p1 p2 ∧ p1 ∈ gfx_fill_triangle_2_pixels p0 p1 p2 ∧
      p2 ∈ gfx_fill_triangle_2_pixels p0 p1 p2) := by
  have hperm := sort_point_y_perm p0 p1 p2
  have hsorted := sort_point_y_sorted p0 p1 p2
  rw [gfx_fill_triangle_2_pixels_sorted]
  generalize sort_point_y p0 p1 p2 = s at hperm hsorted
  obtain ⟨q0, q1, q2⟩ := s
  simp only at hsorted ⊢
  rcases hperm with h | h | h | h | h | h <;>
  · simp only [Prod.mk.injEq] at h
    obtain ⟨rfl, rfl, rfl⟩ := h
    have S1 := fun p hp => fill_sorted_pixels_bbox q0 q1 q2 p hsorted.1 hsorted.2
      (by assumption) (by assumption) (by assumption) hp
    have S2 := fun y h1 h2 => fill_sorted_pixels_rows q0 q1 q2 y hsorted.1 hsorted.2 h1 h2
    have S3 := fill_sorted_pixels_vertices q0 q1 q2 hsorted.1 hsorted.2
      (by assumption) (by assumption) (by assumption)
    refine ⟨?_, ?_, ?_⟩
    · intro p hp
      have := S1 p hp
      simp only [le_min_iff, max_le_iff, min_le_iff, le_max_iff] at this ⊢
      omega
    · intro y h1 h2
      apply S2 y
      · simp only [le_min_iff, max_le_iff, min_le_iff, le_max_iff] at h1 h2
        omega
      · simp only [le_min_iff, max_le_iff, min_le_iff, le_max_iff] at h1 h2
        omega
    · refine ⟨?_, ?_, ?_⟩ <;> first | exact S3.1 | exact S3.2.1 | exact S3.2.2

/-- C20: for three vertices with non-negative `x` (so for vertices with
non-negative coordinates), every pixel `gfx_fill_triangle_2` draws has
`min(x0,x1,x2) <= x <= max(x0,x1,x2)` and `min(y0,y1,y2) <= y <= max(y0,y1,y2)`;
every row from the least to the greatest `y` gets a pixel; the three vertices
are drawn; and when the three vertices are inside the image the fill never
reaches the bounds assertion: it returns an image. -/
theorem gfx_fill_triangle_2_bbox (image : Image) (p0 p1 p2 : Vec2i) (color : Color)
    (hx0 : 0 ≤ p0.x) (hx1 : 0 ≤ p1.x) (hx2 : 0 ≤ p2.x) :
    gfx_fill_triangle_2 image p0 p1 p2 color
      = draw_points image (gfx_fill_triangle_2_pixels p0 p1 p2) color ∧
    (∀ p ∈ gfx_fill_triangle_2_pixels p0 p1 p2,
      (min p0.x (min p1.x p2.x) ≤ p.x ∧ p.x ≤ max p0.x (max p1.x p2.x)) ∧
      (min p0.y (min p1.y p2.y) ≤ p.y ∧ p.y ≤ max p0.y (max p1.y p2.y))) ∧
    (∀ y, min p0.y (min p1.y p2.y) ≤ y → y ≤ max p0.y (max p1.y p2.y) →
      ∃ p ∈ gfx_fill_triangle_2_pixels p0 p1 p2, p.y = y) ∧
    (p0 ∈ gfx_fill_triangle_2_pixels p0 p1 p2 ∧ p1 ∈ gfx_fill_triangle_2_pixels p0 p1 p2 ∧
      p2 ∈ gfx_fill_triangle_2_pixels p0 p1 p2) ∧
    (in_bounds image p0 → in_bounds image p1 → in_bounds image p2 →
      ∃ im, gfx_fill_triangle_2 image p0 p1 p2 color = some im) := by
  obtain ⟨h1, h2, h3⟩ := gfx_fill_triangle_2_pixels_bbox p0 p1 p2 hx0 hx1 hx2
  refine ⟨gfx_fill_triangle_2_eq image p0 p1 p2 color, h1, h2, h3, ?_⟩
  intro b0 b1 b2
  rw [gfx_fill_triangle_2_eq]
  have hb : ∀ p ∈ gfx_fill_triangle_2_pixels p0 p1 p2, in_bounds image p := by
    intro p hp
    have := h1 p hp
    unfold in_bounds at b0 b1 b2 ⊢
    simp only [le_min_iff, max_le_iff, min_le_iff, le_max_iff] at this
    omega
  obtain ⟨im, him, _⟩ := draw_points_spec color _ image hb
  exact ⟨im, him⟩

/-- C20 on the triangle `(0,0)`, `(1,3)`, `(0,3)` in a 4 by 4 image: the fill
returns an image. -/
theorem gfx_fill_triangle_2_bbox_witness :
    ∃ im, gfx_fill_triangle_2 ⟨4, 4, fun _ _ => ⟨0, 0, 0, 0⟩⟩ ⟨0, 0⟩ ⟨1, 3⟩ ⟨0, 3⟩
      ⟨255, 255, 255, 255⟩ = some im :=
  (gfx_fill_triangle_2_bbox ⟨4, 4, fun _ _ => ⟨0, 0, 0, 0⟩⟩ ⟨0, 0⟩ ⟨1, 3⟩ ⟨0, 3⟩
    ⟨255, 255, 255, 255⟩ (by decide) (by decide) (by decide)).2.2.2.2
    (by decide) (by decide) (by decide)

/-! ## Reordering the vertices of the flat fill -/

/-- A scanline does not depend on the order of its two ends. -/
theorem draw_scanline_pixels_comm (a b : Vec2i) (h : a.y = b.y) :
    draw_scanline_pixels a b = draw_scanline_pixels b a := by
  unfold draw_scanline_pixels
  rcases lt_trichotomy a.x b.x with hlt | heq | hgt
  · rw [if_neg (by omega), if_pos (by omega)]
  · rw [if_neg (by omega), if_neg (by omega)]
    simp only [heq, h]
  · rw [if_pos (by omega), if_neg (by omega)]

/-- On one row the outer points after `sort_point_x` are determined by the
least and the greatest `x`. -/
theorem sort_point_x_ends_row (a b c : Vec2i) (h1 : a.y = b.y) (h2 : b.y = c.y) :
    (sort_point_x a b c).1 = ⟨min a.x (min b.x c.x), a.y⟩ ∧
    (sort_point_x a b c).2.2 = ⟨max a.x (max b.x c.x), a.y⟩ := by
  have hx := sort_point_x_ends a b c
  have hy1 := sort_point_x_first_row a b c h1 h2
  have hy2 := sort_point_x_row a b c h1 h2
  constructor
  · cases hs : (sort_point_x a b c).1 with
    | mk x y =>
      rw [hs] at hx hy1
      simp only at hx hy1
      rw [← hx.1, ← hy1]
  · cases hs : (sort_point_x a b c).2.2 with
    | mk x y =>
      rw [hs] at hx hy2
      simp only at hx hy2
      rw [← hx.2, ← hy1, hy2]

/-- The horizontal scanline does not depend on the order of the vertices. -/
theorem flat_scanline_perm (a b c a' b' c' : Vec2i) (h1 : a.y = b.y) (h2 : b.y = c.y)
    (h1' : a'.y = b'.y) (h2' : b'.y = c'.y) (hy : a'.y = a.y)
    (hmin : min a'.x (min b'.x c'.x) = min a.x (min b.x c.x))
    (hmax : max a'.x (max b'.x c'.x) = max a.x (max b.x c.x)) :
    draw_scanline_pixels (sort_point_x a' b' c').1 (sort_point_x a' b' c').2.2
      = draw_scanline_pixels (sort_point_x a b c).1 (sort_point_x a b c).2.2 := by
  rw [(sort_point_x_ends_row a b c h1 h2).1, (sort_point_x_ends_row a b c h1 h2).2,
    (sort_point_x_ends_row a' b' c' h1' h2').1, (sort_point_x_ends_row a' b' c' h1' h2').2,
    hmin, hmax, hy]

/-- Two first vertices on one row may be exchanged. -/
theorem fill_sorted_pixels_swap01 (q0 q1 q2 : Vec2i) (h : q0.y = q1.y) :
    fill_sorted_pixels q1 q0 q2 = fill_sorted_pixels q0 q1 q2 := by
  unfold fill_sorted_pixels
  by_cases hflat : q0.y = q2.y
  · rw [if_pos hflat, if_pos (by omega)]
    apply flat_scanline_perm _ _ _ _ _ _ (by omega) (by omega) (by omega) (by omega) (by omega)
    · simp only [min_def]; split_ifs <;> omega
    · simp only [max_def]; split_ifs <;> omega
  · rw [if_neg hflat, if_neg (by omega)]
    simp only
    have e1 : q0.y - q1.y = 0 := by omega
    have e2 : q1.y - q0.y = 0 := by omega
    have e3 : ¬ q2.y - q0.y = 0 := by omega
    have e4 : ¬ q2.y - q1.y = 0 := by omega
    rw [if_pos e1, if_pos e2, if_neg e3, if_neg e4,
      draw_scanline_pixels_comm q1 q0 (by omega)]
    congr 1
    unfold fill_lower_pixels
    simp only
    rw [h]
    congr 1
    funext y
    exact draw_scanline_pixels_comm _ _ (by rfl)

/-- Two last vertices on one row may be exchanged. -/
theorem fill_sorted_pixels_swap12 (q0 q1 q2 : Vec2i) (h : q1.y = q2.y) :
    fill_sorted_pixels q0 q2 q1 = fill_sorted_pixels q0 q1 q2 := by
  unfold fill_sorted_pixels
  by_cases hflat : q0.y = q2.y
  · rw [if_pos hflat, if_pos (by omega)]
    apply flat_scanline_perm _ _ _ _ _ _ (by omega) (by omega) (by omega) (by omega) rfl
    · simp only [min_def]; split_ifs <;> omega
    · simp only [max_def]; split_ifs <;> omega
  · rw [if_neg hflat, if_neg (by omega)]
    simp only
    have e1 : ¬ q2.y - q0.y = 0 := by omega
    have e2 : ¬ q1.y - q0.y = 0 := by omega
    have e3 : q1.y - q2.y = 0 := by omega
    have e4 : q2.y - q1.y = 0 := by omega
    rw [if_neg e1, if_neg e2, if_pos e3, if_pos e4,
      draw_scanline_pixels_comm q2 q1 (by omega)]
    congr 1
    unfold fill_upper_pixels
    simp only
    rw [h]
    congr 1
    funext y
    exact draw_scanline_pixels_comm _ _ (by rfl)

/-- Two rearrangements of one triple, both ascending in `y`, give the same
pixels: they differ by exchanges of vertices on one row. -/
theorem fill_sorted_pixels_perm (q0 q1 q2 : Vec2i) (r : Vec2i × Vec2i × Vec2i)
    (hq : q0.y ≤ q1.y ∧ q1.y ≤ q2.y) (hr : r.1.y ≤ r.2.1.y ∧ r.2.1.y ≤ r.2.2.y)
    (hp : r = (q0, q1, q2) ∨ r = (q0, q2, q1) ∨ r = (q1, q0, q2) ∨ r = (q1, q2, q0) ∨
      r = (q2, q0, q1) ∨ r = (q2, q1, q0)) :
    fill_sorted_pixels r.1 r.2.1 r.2.2 = fill_sorted_pixels q0 q1 q2 := by
  rcases hp with rfl | rfl | rfl | rfl | rfl | rfl <;> simp only at hr ⊢
  · exact fill_sorted_pixels_swap12 q0 q1 q2 (by omega)
  · exact fill_sorted_pixels_swap01 q0 q1 q2 (by omega)
  · rw [fill_sorted_pixels_swap12 q1 q0 q2 (by omega)]
    exact fill_sorted_pixels_swap01 q0 q1 q2 (by omega)
  · rw [fill_sorted_pixels_swap01 q0 q2 q1 (by omega)]
    exact fill_sorted_pixels_swap12 q0 q1 q2 (by omega)
  · rw [fill_sorted_pixels_swap01 q1 q2 q0 (by omega),
      fill_sorted_pixels_swap12 q1 q0 q2 (by omega)]
    exact fill_sorted_pixels_swap01 q0 q1 q2 (by omega)

/-- The list of the output of `sort_point_y` is a permutation of the input. -/
theorem sort_point_y_list_perm (a b c : Vec2i) :
    [(sort_point_y a b c).1, (sort_point_y a b c).2.1, (sort_point_y a b c).2.2].Perm
      [a, b, c] := by
  rcases sort_point_y_perm a b c with h | h | h | h | h | h
  · rw [h]
  · rw [h]; exact List.Perm.cons a (List.Perm.swap b c [])
  · rw [h]; exact List.Perm.swap a b [c]
  · rw [h]
    exact (List.Perm.cons b (List.Perm.swap a c [])).trans (List.Perm.swap a b [c])
  · rw [h]
    exact (List.Perm.swap a c [b]).trans (List.Perm.cons a (List.Perm.swap b c []))
  · rw [h]
    exact ((List.Perm.swap b c [a]).trans (List.Perm.cons b (List.Perm.swap a c []))).trans
      (List.Perm.swap a b [c])

theorem perm_pair_cases (r1 r2 q1 q2 : Vec2i) (h : [r1, r2].Perm [q1, q2]) :
    (r1 = q1 ∧ r2 = q2) ∨ (r1 = q2 ∧ r2 = q1) := by
  have hm : r1 ∈ [q1, q2] := h.subset (List.mem_cons_self _ _)
  simp only [List.mem_cons, List.mem_singleton, List.not_mem_nil, or_false] at hm
  rcases hm with rfl | rfl
  · left
    have := List.Perm.cons_inv h
    exact ⟨rfl, List.perm_singleton.mp this |> List.singleton_inj.mp⟩
  · right
    have h' : [r1, r2].Perm [r1, q1] := h.trans (List.Perm.swap r1 q1 [])
    have := List.Perm.cons_inv h'
    exact ⟨rfl, List.perm_singleton.mp this |> List.singleton_inj.mp⟩

/-- A permutation of a triple is one of its six rearrangements. -/
theorem perm_triple_cases (r0 r1 r2 q0 q1 q2 : Vec2i) (h : [r0, r1, r2].Perm [q0, q1, q2]) :
    (r0, r1, r2) = (q0, q1, q2) ∨ (r0, r1, r2) = (q0, q2, q1) ∨ (r0, r1, r2) = (q1, q0, q2) ∨
    (r0, r1, r2) = (q1, q2, q0) ∨ (r0, r1, r2) = (q2, q0, q1) ∨ (r0, r1, r2) = (q2, q1, q0) := by
  have hm : r0 ∈ [q0, q1, q2] := h.subset (List.mem_cons_self _ _)
  simp only [List.mem_cons, List.mem_singleton, List.not_mem_nil, or_false] at hm
  rcases hm with rfl | rfl | rfl
  · rcases perm_pair_cases r1 r2 q1 q2 (List.Perm.cons_inv h) with ⟨rfl, rfl⟩ | ⟨rfl, rfl⟩
    · exact Or.inl rfl
    · exact Or.inr (Or.inl rfl)
  · have h' : [r0, r1, r2].Perm [r0, q0, q2] := h.trans (List.Perm.swap r0 q0 [q2])
    rcases perm_pair_cases r1 r2 q0 q2 (List.Perm.cons_inv h') with ⟨rfl, rfl⟩ | ⟨rfl, rfl⟩
    · exact Or.inr (Or.inr (Or.inl rfl))
    · exact Or.inr (Or.inr (Or.inr (Or.inl rfl)))
  · have h' : [r0, r1, r2].Perm [r0, q0, q1] :=
      h.trans ((List.Perm.cons q0 (List.Perm.swap r0 q1 [])).trans (List.Perm.swap r0 q0 [q1]))
    rcases perm_pair_cases r1 r2 q0 q1 (List.Perm.cons_inv h') with ⟨rfl, rfl⟩ | ⟨rfl, rfl⟩
    · exact Or.inr (Or.inr (Or.inr (Or.inr (Or.inl rfl))))
    · exact Or.inr (Or.inr (Or.inr (Or.inr (Or.inr rfl))))

/-- The pixels of the flat fill depend only on the set of vertices. -/
theorem gfx_fill_triangle_2_pixels_perm (a b c a' b' c' : Vec2i)
    (h : [a', b', c'].Perm [a, b, c]) :
    gfx_fill_triangle_2_pixels a' b' c' = gfx_fill_triangle_2_pixels a b c := by
  rw [gfx_fill_triangle_2_pixels_sorted, gfx_fill_triangle_2_pixels_sorted]
  have hp : [(sort_point_y a' b' c').1, (sort_point_y a' b' c').2.1,
      (sort_point_y a' b' c').2.2].Perm
      [(sort_point_y a b c).1, (sort_point_y a b c).2.1, (sort_point_y a b c).2.2] :=
    ((sort_point_y_list_perm a' b' c').trans h).trans (sort_point_y_list_perm a b c).symm
  exact fill_sorted_pixels_perm _ _ _ (sort_point_y a' b' c') (sort_point_y_sorted a b c)
    (sort_point_y_sorted a' b' c') (perm_triple_cases _ _ _ _ _ _ hp)

/-- C19: `gfx_fill_triangle_2` passes the same points to `gfx_draw_point`, and
so returns the same result, for all six orderings of its three vertices, ties
in `y` included. -/
theorem gfx_fill_triangle_2_order (image : Image) (p0 p1 p2 : Vec2i) (color : Color) :
    (gfx_fill_triangle_2_pixels p0 p2 p1 = gfx_fill_triangle_2_pixels p0 p1 p2 ∧
      gfx_fill_triangle_2_pixels p1 p0 p2 = gfx_fill_triangle_2_pixels p0 p1 p2 ∧
      gfx_fill_triangle_2_pixels p1 p2 p0 = gfx_fill_triangle_2_pixels p0 p1 p2 ∧
      gfx_fill_triangle_2_pixels p2 p0 p1 = gfx_fill_triangle_2_pixels p0 p1 p2 ∧
      gfx_fill_triangle_2_pixels p2 p1 p0 = gfx_fill_triangle_2_pixels p0 p1 p2) ∧
    (gfx_fill_triangle_2 image p0 p2 p1 color = gfx_fill_triangle_2 image p0 p1 p2 color ∧
      gfx_fill_triangle_2 image p1 p0 p2 color = gfx_fill_triangle_2 image p0 p1 p2 color ∧
      gfx_fill_triangle_2 image p1 p2 p0 color = gfx_fill_triangle_2 image p0 p1 p2 color ∧
      gfx_fill_triangle_2 image p2 p0 p1 color = gfx_fill_triangle_2 image p0 p1 p2 color ∧
      gfx_fill_triangle_2 image p2 p1 p0 color = gfx_fill_triangle_2 image p0 p1 p2 color) := by
  have e1 : gfx_fill_triangle_2_pixels p0 p2 p1 = gfx_fill_triangle_2_pixels p0 p1 p2 :=
    gfx_fill_triangle_2_pixels_perm _ _ _ _ _ _ (List.Perm.cons p0 (List.Perm.swap p1 p2 []))
  have e2 : gfx_fill_triangle_2_pixels p1 p0 p2 = gfx_fill_triangle_2_pixels p0 p1 p2 :=
    gfx_fill_triangle_2_pixels_perm _ _ _ _ _ _ (List.Perm.swap p0 p1 [p2])
  have e3 : gfx_fill_triangle_2_pixels p1 p2 p0 = gfx_fill_triangle_2_pixels p0 p1 p2 :=
    gfx_fill_triangle_2_pixels_perm _ _ _ _ _ _
      ((List.Perm.cons p1 (List.Perm.swap p0 p2 [])).trans (List.Perm.swap p0 p1 [p2]))
  have e4 : gfx_fill_triangle_2_pixels p2 p0 p1 = gfx_fill_triangle_2_pixels p0 p1 p2 :=
    gfx_fill_triangle_2_pixels_perm _ _ _ _ _ _
      ((List.Perm.swap p0 p2 [p1]).trans (List.Perm.cons p0 (List.Perm.swap p1 p2 [])))
  have e5 : gfx_fill_triangle_2_pixels p2 p1 p0 = gfx_fill_triangle_2_pixels p0 p1 p2 :=
    gfx_fill_triangle_2_pixels_perm _ _ _ _ _ _
      (((List.Perm.swap p1 p2 [p0]).trans (List.Perm.cons p1 (List.Perm.swap p0 p2 []))).trans
        (List.Perm.swap p0 p1 [p2]))
  refine ⟨⟨e1, e2, e3, e4, e5⟩, ?_, ?_, ?_, ?_, ?_⟩
  · rw [gfx_fill_triangle_2_eq, gfx_fill_triangle_2_eq, e1]
  · rw [gfx_fill_triangle_2_eq, gfx_fill_triangle_2_eq, e2]
  · rw [gfx_fill_triangle_2_eq, gfx_fill_triangle_2_eq, e3]
  · rw [gfx_fill_triangle_2_eq, gfx_fill_triangle_2_eq, e4]
  · rw [gfx_fill_triangle_2_eq, gfx_fill_triangle_2_eq, e5]

end Renderer
